import Mathlib

/-! # Transaction-log domain of Vespa: encoding descriptor, chunk codec, domain

Shallow embedding of `searchlib/transactionlog/ichunk.h` and
`searchlib/transactionlog/domain.h`, followed by `vespalib/util/generationholder.h`,
`config/common/configparser.h`, `searchlib/features/attributefeature.cpp`,
`searchsummary/src/tests/extractkeywords/simplequerystackitem.h` and the reshape
test of `eval/src/tests/eval/tensor_lambda/tensor_lambda_test.cpp`.

Machine integers are natural numbers; a conversion to a `w`-bit unsigned
type is an explicit `% 2^w`.  C++ enumerations are represented by their
underlying integer value (a natural number), because `Crc(x)` and
`Compression(x)` are plain integer-to-enum conversions that keep the value of
`x`.
-/

namespace search.transactionlog

/-! ## Encoding (ichunk.h, lines 12-32) -/

namespace Encoding

/-- Enumerator `Encoding::nocrc = 0`. -/
def nocrc : Nat := 0
/-- Enumerator `Encoding::ccitt_crc32 = 1`. -/
def ccitt_crc32 : Nat := 1
/-- Enumerator `Encoding::xxh64 = 2`. -/
def xxh64 : Nat := 2

/-- Enumerator `Encoding::none = 0`. -/
def none : Nat := 0
/-- Enumerator `Encoding::lz4 = 1`. -/
def lz4 : Nat := 1
/-- Enumerator `Encoding::zstd = 2`. -/
def zstd : Nat := 2

end Encoding

/-- Class `Encoding`: one private member `uint8_t _raw`. -/
structure Encoding where
  _raw : Nat
deriving DecidableEq, Repr

namespace Encoding

/-- Constructor `Encoding(uint8_t raw) : _raw(raw)`; the argument is converted
to `uint8_t`, that is reduced modulo `2^8`. -/
def ofRaw (raw : Nat) : Encoding := ⟨raw % 256⟩

/-- Method `getCrc`: `Crc(_raw & 0x3)`. -/
def getCrc (e : Encoding) : Nat := e._raw &&& 0x3

/-- Method `getCompression`: `Compression((_raw >> 2) & 0xf)`. -/
def getCompression (e : Encoding) : Nat := (e._raw >>> 2) &&& 0xf

/-- Method `getRaw`: `_raw`. -/
def getRaw (e : Encoding) : Nat := e._raw

end Encoding

/-! ## Byte streams (`vespalib::nbostream`, network byte order) -/

/-- One octet. -/
abbrev Byte := Fin 256

/-- Largest value of `SerialNum` (a `uint64_t`; serial numbers are natural
numbers here), `std::numeric_limits<SerialNum>::max()`. -/
def SerialNum.max : Nat := 2 ^ 64 - 1

/-- Write the `w` low-order octets of `n`, most significant first. -/
def putBE : Nat → Nat → List Byte
  | 0, _ => []
  | w + 1, n => Fin.ofNat (n / 256 ^ w % 256) :: putBE w n

/-- Read `w` octets, most significant first, onto the accumulator `acc`;
`none` when the stream ends early. -/
def getBE : Nat → Nat → List Byte → Option (Nat × List Byte)
  | 0, acc, bs => some (acc, bs)
  | _ + 1, _, [] => Option.none
  | w + 1, acc, b :: bs => getBE w (acc * 256 + b.val) bs

/-- Half-open range `[from, to)` of serial numbers. -/
structure SerialNumRange where
  from_ : Nat
  to_ : Nat
deriving DecidableEq, Repr

/-- Membership of a serial number in a half-open range. -/
def SerialNumRange.contains (r : SerialNumRange) (s : Nat) : Bool :=
  decide (r.from_ ≤ s) && decide (s < r.to_)

/-- Modelled from the spec: `Packet::Entry` (declared in `common.h`, which is
not among the sources): `{serial: SerialNum, payload: bytes}`. -/
structure Entry where
  serial : Nat
  payload : List Byte
deriving DecidableEq, Repr

/-- Modelled from the spec: serialisation of one entry, "serial + payload
length + payload" (`Packet::Entry::serialize`, not among the sources); the
serial is a `uint64_t`, the length a `size_t`. -/
def Entry.serialize (e : Entry) : List Byte :=
  putBE 8 e.serial ++ putBE 8 e.payload.length ++ e.payload

/-- Modelled from the spec: inverse of `Entry.serialize` on the front of a
stream; `none` when the stream is truncated. -/
def Entry.deserialize (bs : List Byte) : Option (Entry × List Byte) :=
  match getBE 8 0 bs with
  | Option.none => Option.none
  | some (serial, bs1) =>
    match getBE 8 0 bs1 with
    | Option.none => Option.none
    | some (len, bs2) =>
      if bs2.length < len then Option.none
      else some (⟨serial, bs2.take len⟩, bs2.drop len)

/-! ## IChunk (ichunk.h, lines 34-55) -/

/-- Services the codec consumes and the header only declares:
`Encoding::calcCrc` (its `int32_t` result is kept as a natural number and
narrowed to 32 bits where it is stored) and the lz4/zstd compressors. -/
structure Codec where
  calcCrc : Nat → List Byte → Nat
  compress : Nat → Nat → List Byte → List Byte
  decompress : Nat → List Byte → Option (List Byte)

/-- A compressor is lossless when decompression undoes compression, for the
two compression kinds and every level. -/
def Codec.Lossless (c : Codec) : Prop :=
  ∀ (k lvl : Nat) (b : List Byte), k = Encoding.lz4 ∨ k = Encoding.zstd →
    c.decompress k (c.compress k lvl b) = some b

/-- Modelled from the spec: constructor `Encoding(Crc, Compression)` (declared
in ichunk.h, defined in ichunk.cpp which is not among the sources); the crc
kind goes to the bits `getCrc` reads, the compression kind to the bits
`getCompression` reads. -/
def Encoding.mk2 (crc : Nat) (compression : Nat) : Encoding :=
  Encoding.ofRaw (crc ||| (compression <<< 2))

/-- Class `IChunk`: the entries, together with the encoding and compression
level given to `IChunk::create(Encoding, uint8_t)`. -/
structure IChunk where
  encoding : Encoding
  compressionLevel : Nat
  _entries : List Entry
deriving DecidableEq, Repr

/-- Errors of `IChunk::decode`. -/
inductive DecodeError where
  | corruption
  | unsupported
deriving DecidableEq, Repr

instance : DecidableEq (Except DecodeError (List Entry)) := fun a b =>
  match a, b with
  | Except.ok x, Except.ok y =>
    if h : x = y then isTrue (by rw [h]) else isFalse (fun e => h (Except.ok.inj e))
  | Except.error x, Except.error y =>
    if h : x = y then isTrue (by rw [h]) else isFalse (fun e => h (Except.error.inj e))
  | Except.ok _, Except.error _ => isFalse (fun e => Except.noConfusion e)
  | Except.error _, Except.ok _ => isFalse (fun e => Except.noConfusion e)

namespace IChunk

/-- Modelled from the spec: `IChunk::create(Encoding, uint8_t)`: an empty
chunk of the given encoding. -/
def create (chunkType : Encoding) (compressionLevel : Nat) : IChunk :=
  ⟨chunkType, compressionLevel % 256, []⟩

/-- Method `getEntries`. -/
def getEntries (c : IChunk) : List Entry := c._entries

/-- Modelled from the spec: `IChunk::add`, appends the entry. -/
def add (c : IChunk) (entry : Entry) : IChunk :=
  { c with _entries := c._entries ++ [entry] }

/-- Modelled from the spec: `IChunk::range`, the half-open span from the first
serial to one past the last; the empty range `[0,0)` for an empty chunk. -/
def rangeOf (es : List Entry) : SerialNumRange :=
  match es.head?, es.getLast? with
  | some f, some l => ⟨f.serial, l.serial + 1⟩
  | _, _ => ⟨0, 0⟩

/-- Method `range`. -/
def range (c : IChunk) : SerialNumRange := rangeOf c._entries

/-- Modelled from the spec: `IChunk::serializeEntries`, each entry in order. -/
def serializeEntries : List Entry → List Byte
  | [] => []
  | e :: es => e.serialize ++ serializeEntries es

/-- Modelled from the spec: `IChunk::deserializeEntries`, reads `n` entries. -/
def deserializeEntries : Nat → List Byte → Option (List Entry × List Byte)
  | 0, bs => some ([], bs)
  | n + 1, bs =>
    match Entry.deserialize bs with
    | Option.none => Option.none
    | some (e, bs1) =>
      match deserializeEntries n bs1 with
      | Option.none => Option.none
      | some (es, bs2) => some (e :: es, bs2)

/-- Modelled from the spec: the serialised body of a record, "entry count,
range, then each Entry". -/
def serializeBody (es : List Entry) : List Byte :=
  putBE 8 es.length ++ putBE 8 (rangeOf es).from_ ++ putBE 8 (rangeOf es).to_
    ++ serializeEntries es

/-- Modelled from the spec: inverse of `serializeBody`; the whole body must be
consumed. -/
def deserializeBody (bs : List Byte) : Option (List Entry) :=
  match getBE 8 0 bs with
  | Option.none => Option.none
  | some (count, bs1) =>
    match getBE 8 0 bs1 with
    | Option.none => Option.none
    | some (_, bs2) =>
      match getBE 8 0 bs2 with
      | Option.none => Option.none
      | some (_, bs3) =>
        match deserializeEntries count bs3 with
        | some (es, []) => some es
        | _ => Option.none

/-- Modelled from the spec: compression of the serialised body per the
compression kind (identity for `none`). -/
def compressBody (c : Codec) (k : Nat) (lvl : Nat) (body : List Byte) : List Byte :=
  if k = Encoding.none then body else c.compress k lvl body

/-- Modelled from the spec: the encoded body of a record: the serialised body,
compressed per the compression kind of the chunk. -/
def encodedBody (c : Codec) (ch : IChunk) : List Byte :=
  compressBody c ch.encoding.getCompression ch.compressionLevel (serializeBody ch._entries)

/-- Modelled from the spec: `IChunk::encode` (declared in ichunk.h, defined in
ichunk.cpp/chunks.cpp which are not among the sources).  The record is
`[Encoding byte][checksum][body]`, the body being the possibly compressed
`[entry-count][range][entries...]`; the checksum is taken over the possibly
compressed body, and is zero for `nocrc`. -/
def encode (c : Codec) (ch : IChunk) : Encoding × List Byte :=
  let body := encodedBody c ch
  let crc := if ch.encoding.getCrc = Encoding.nocrc then 0
    else c.calcCrc ch.encoding.getCrc body
  (ch.encoding, Fin.ofNat ch.encoding.getRaw :: (putBE 4 crc ++ body))

/-- Modelled from the spec: `IChunk::decode` (declared in ichunk.h, defined in
ichunk.cpp/chunks.cpp which are not among the sources): reads the header,
verifies the checksum before decompressing, decompresses per the declared
algorithm, then deserialises the entries. -/
def decode (c : Codec) (buf : List Byte) : Except DecodeError (List Entry) :=
  match buf with
  | [] => Except.error DecodeError.corruption
  | raw :: rest =>
    let enc := Encoding.ofRaw raw.val
    match getBE 4 0 rest with
    | Option.none => Except.error DecodeError.corruption
    | some (stored, body) =>
      if enc.getCrc > Encoding.xxh64 ∨ enc.getCompression > Encoding.zstd then
        Except.error DecodeError.unsupported
      else if enc.getCrc ≠ Encoding.nocrc ∧ c.calcCrc enc.getCrc body % 2 ^ 32 ≠ stored then
        Except.error DecodeError.corruption
      else
        let plain := if enc.getCompression = Encoding.none then some body
          else c.decompress enc.getCompression body
        match plain with
        | Option.none => Except.error DecodeError.corruption
        | some p =>
          match deserializeBody p with
          | Option.none => Except.error DecodeError.corruption
          | some es => Except.ok es

end IChunk

/-- Adds the entries one by one with `IChunk::add`. -/
def IChunk.addAll (c : IChunk) (es : List Entry) : IChunk := es.foldl IChunk.add c

/-! ## Checksums (`Encoding::calcCrc`, ichunk.h line 28) -/

/-- One bit step of the reflected CRC-32 with polynomial `0xEDB88320`. -/
def crc32Bit (x : Nat) : Nat :=
  if x % 2 = 1 then (x / 2) ^^^ 0xEDB88320 else x / 2

/-- One octet step of CRC-32: the octet is folded into the register, which
then takes eight bit steps. -/
def crc32Byte (crc : Nat) (b : Byte) : Nat :=
  crc32Bit (crc32Bit (crc32Bit (crc32Bit (crc32Bit (crc32Bit (crc32Bit (crc32Bit
    (crc ^^^ b.val))))))))

/-- Modelled from the spec: the `ccitt_crc32` checksum, the CRC-32 of ITU-T
V.42 (initial value and final xor `0xFFFFFFFF`). -/
def crc32 (buf : List Byte) : Nat :=
  buf.foldl crc32Byte 0xFFFFFFFF ^^^ 0xFFFFFFFF

/-- First prime of XXH64. -/
def xxPrime1 : Nat := 11400714785074694791
/-- Second prime of XXH64. -/
def xxPrime2 : Nat := 14029467366897019727
/-- Third prime of XXH64. -/
def xxPrime3 : Nat := 1609587929392839161
/-- Fourth prime of XXH64. -/
def xxPrime4 : Nat := 9650029242287828579
/-- Fifth prime of XXH64. -/
def xxPrime5 : Nat := 2870177450012600261

/-- Rotation to the left of a 64-bit word. -/
def rotl64 (x r : Nat) : Nat := ((x <<< r) ||| (x >>> (64 - r))) % 2 ^ 64

/-- Little-endian value of a run of octets. -/
def readLE : List Byte → Nat
  | [] => 0
  | b :: bs => b.val + 256 * readLE bs

/-- Round of XXH64. -/
def xxRound (acc input : Nat) : Nat :=
  rotl64 ((acc + input * xxPrime2) % 2 ^ 64) 31 * xxPrime1 % 2 ^ 64

/-- Merge round of XXH64. -/
def xxMergeRound (acc v : Nat) : Nat :=
  ((acc ^^^ xxRound 0 v) * xxPrime1 + xxPrime4) % 2 ^ 64

/-- The four accumulators of XXH64. -/
structure XXState where
  v1 : Nat
  v2 : Nat
  v3 : Nat
  v4 : Nat

/-- Stripe loop of XXH64: consumes 32 octets per step while at least 32 are
left; the first argument bounds the number of steps. -/
def xxStripes : Nat → XXState → List Byte → XXState × List Byte
  | 0, v, p => (v, p)
  | n + 1, v, p =>
    if 32 ≤ p.length then
      xxStripes n
        ⟨xxRound v.v1 (readLE (p.take 8)), xxRound v.v2 (readLE ((p.drop 8).take 8)),
         xxRound v.v3 (readLE ((p.drop 16).take 8)), xxRound v.v4 (readLE ((p.drop 24).take 8))⟩
        (p.drop 32)
    else (v, p)

/-- Tail loop of XXH64 over 8-octet lanes; the first argument bounds the number
of steps. -/
def xxLanes : Nat → Nat → List Byte → Nat × List Byte
  | 0, h, p => (h, p)
  | n + 1, h, p =>
    if 8 ≤ p.length then
      xxLanes n ((rotl64 (h ^^^ xxRound 0 (readLE (p.take 8))) 27 * xxPrime1 + xxPrime4) % 2 ^ 64)
        (p.drop 8)
    else (h, p)

/-- Tail step of XXH64 over one 4-octet lane. -/
def xxLane4 (h : Nat) (p : List Byte) : Nat × List Byte :=
  if 4 ≤ p.length then
    ((rotl64 (h ^^^ (readLE (p.take 4) * xxPrime1 % 2 ^ 64)) 23 * xxPrime2 + xxPrime3) % 2 ^ 64,
      p.drop 4)
  else (h, p)

/-- Tail loop of XXH64 over single octets. -/
def xxBytes (h : Nat) (p : List Byte) : Nat :=
  p.foldl (fun h b => rotl64 (h ^^^ (b.val * xxPrime5 % 2 ^ 64)) 11 * xxPrime1 % 2 ^ 64) h

/-- Final mix of XXH64. -/
def xxAvalanche (h : Nat) : Nat :=
  let h1 := (h ^^^ (h >>> 33)) * xxPrime2 % 2 ^ 64
  let h2 := (h1 ^^^ (h1 >>> 29)) * xxPrime3 % 2 ^ 64
  h2 ^^^ (h2 >>> 32)

/-- Modelled from the spec: the hash that the `xxh64` checksum kind names, the
64-bit XXH64 of the xxHash library (not among the sources), by its published
definition. -/
def XXH64 (buf : List Byte) (seed : Nat) : Nat :=
  let start : Nat × List Byte :=
    if 32 ≤ buf.length then
      match xxStripes buf.length
        ⟨(seed + xxPrime1 + xxPrime2) % 2 ^ 64, (seed + xxPrime2) % 2 ^ 64, seed % 2 ^ 64,
         (seed + 2 ^ 64 - xxPrime1) % 2 ^ 64⟩ buf with
      | (v, p) =>
        (xxMergeRound (xxMergeRound (xxMergeRound (xxMergeRound
          ((rotl64 v.v1 1 + rotl64 v.v2 7 + rotl64 v.v3 12 + rotl64 v.v4 18) % 2 ^ 64)
          v.v1) v.v2) v.v3) v.v4, p)
    else ((seed + xxPrime5) % 2 ^ 64, buf)
  match xxLanes buf.length ((start.1 + buf.length) % 2 ^ 64) start.2 with
  | (h, p) =>
    match xxLane4 h p with
    | (h4, p4) => xxAvalanche (xxBytes h4 p4)

/-- Modelled from the spec: `Encoding::calcCrc(version, buf, sz)` (declared in
ichunk.h, defined in ichunk.cpp which is not among the sources): the checksum
"per `Encoding.crc` (none/ccitt_crc32/xxh64)"; the result type `int32_t` of the
declaration keeps the low 32 bits of the 64-bit hash.  The result is the bit
pattern of the `int32_t`. -/
def Encoding.calcCrc (version : Nat) (buf : List Byte) : Nat :=
  if version = Encoding.xxh64 then XXH64 buf 0 % 2 ^ 32
  else if version = Encoding.ccitt_crc32 then crc32 buf % 2 ^ 32
  else 0

/-- The codec with the checksums of `Encoding::calcCrc` and the given
compressors. -/
def stdCodec (compress : Nat → Nat → List Byte → List Byte)
    (decompress : Nat → List Byte → Option (List Byte)) : Codec :=
  ⟨Encoding.calcCrc, compress, decompress⟩

/-- The octets of an ASCII text. -/
def asciiBytes (t : String) : List Byte := t.toList.map fun ch => Fin.ofNat ch.toNat

/-! ## DomainConfig (domain.h, lines 13-33) -/

/-- Class `DomainConfig`; `size_t` is 64 bits wide, `vespalib::duration` is a
signed count of nanoseconds. -/
structure DomainConfig where
  _encoding : Encoding
  _compressionLevel : Nat
  _partSizeLimit : Nat
  _chunkSizeLimit : Nat
  _chunkAgeLimit : Int
deriving DecidableEq, Repr

namespace DomainConfig

/-- Setter `setEncoding(Encoding v)`. -/
def setEncoding (c : DomainConfig) (v : Encoding) : DomainConfig := { c with _encoding := v }
/-- Setter `setPartSizeLimit(size_t v)`. -/
def setPartSizeLimit (c : DomainConfig) (v : Nat) : DomainConfig :=
  { c with _partSizeLimit := v % 2 ^ 64 }
/-- Setter `setChunkSizeLimit(size_t v)`. -/
def setChunkSizeLimit (c : DomainConfig) (v : Nat) : DomainConfig :=
  { c with _chunkSizeLimit := v % 2 ^ 64 }
/-- Setter `setChunkAgeLimit(vespalib::duration v)`. -/
def setChunkAgeLimit (c : DomainConfig) (v : Int) : DomainConfig := { c with _chunkAgeLimit := v }
/-- Setter `setCompressionLevel(uint8_t v)`. -/
def setCompressionLevel (c : DomainConfig) (v : Nat) : DomainConfig :=
  { c with _compressionLevel := v % 2 ^ 8 }
/-- Getter `getEncoding`. -/
def getEncoding (c : DomainConfig) : Encoding := c._encoding
/-- Getter `getPartSizeLimit`. -/
def getPartSizeLimit (c : DomainConfig) : Nat := c._partSizeLimit
/-- Getter `getChunkSizeLimit`. -/
def getChunkSizeLimit (c : DomainConfig) : Nat := c._chunkSizeLimit
/-- Getter `getChunkAgeLimit`. -/
def getChunkAgeLimit (c : DomainConfig) : Int := c._chunkAgeLimit
/-- Getter `getCompressionlevel`. -/
def getCompressionlevel (c : DomainConfig) : Nat := c._compressionLevel

end DomainConfig

/-! ## DomainPart and Session (declared in domainpart.h and session.h, which
are not among the sources) -/

/-- Modelled from the spec: a Part, `{partId, range, file}`, the file being the
encoded chunk records in append order; `_synced` is the serial up to which the
file has been flushed to stable storage. -/
structure DomainPart where
  _id : Int
  _range : SerialNumRange
  _file : List (List Byte)
  _synced : Nat
deriving DecidableEq, Repr

namespace DomainPart

/-- Modelled from the spec: a new, empty Part whose range starts at `first`. -/
def create (partId : Int) (first : Nat) : DomainPart :=
  ⟨partId, ⟨first, first⟩, [], first⟩

/-- Modelled from the spec: `range()` of a Part. -/
def range (p : DomainPart) : SerialNumRange := p._range

/-- Modelled from the spec: `getSynced()` of a Part. -/
def getSynced (p : DomainPart) : Nat := p._synced

/-- Modelled from the spec: `byteSize()`, the size of the file. -/
def byteSize (p : DomainPart) : Nat := (p._file.map List.length).sum

/-- Modelled from the spec: `append(encoded chunk)`; the range grows to the end
of the appended chunk. -/
def append (p : DomainPart) (chunkRange : SerialNumRange) (record : List Byte) : DomainPart :=
  { p with _range := ⟨p._range.from_, chunkRange.to_⟩, _file := p._file ++ [record] }

/-- Modelled from the spec: the file is flushed to stable storage. -/
def sync (p : DomainPart) : DomainPart := { p with _synced := p._range.to_ }

/-- Modelled from the spec: `scanForRecovery()`, "walk records from the start,
stop at first checksum failure or EOF"; the entries of the valid records, and
whether every record was valid. -/
def scan (c : Codec) : List (List Byte) → List Entry × Bool
  | [] => ([], true)
  | r :: rs =>
    match IChunk.decode c r with
    | Except.error _ => ([], false)
    | Except.ok es => ((es ++ (scan c rs).1), (scan c rs).2)

/-- Modelled from the spec: `readRange(from,to)`, the decoded entries
restricted to `[from,to)` in file order, and whether every record decoded. -/
def readRange (c : Codec) (p : DomainPart) (r : SerialNumRange) : List Entry × Bool :=
  (((scan c p._file).1.filter fun e => r.contains e.serial), (scan c p._file).2)

end DomainPart

/-- Modelled from the spec: states of a Session,
`CREATED → RUNNING → {COMPLETED, FAILED, CLOSED}`. -/
inductive SessionState where
  | CREATED
  | RUNNING
  | COMPLETED
  | FAILED
  | CLOSED
deriving DecidableEq, Repr

/-- Modelled from the spec: a Session, `{id, range requested, destination
sink, state}`; the sink is represented by the entries it has been given. -/
structure Session where
  _id : Int
  _range : SerialNumRange
  _state : SessionState
  _destination : List Entry
deriving DecidableEq, Repr

/-- A session that is registered and not yet finished. -/
def Session.active (s : Session) : Bool :=
  s._state = SessionState.CREATED || s._state = SessionState.RUNNING

/-! ## Domain (domain.h, lines 63-164) -/

/-- Class `Domain`: the members the log operations read and write. -/
structure Domain where
  _config : DomainConfig
  _currentChunk : List Entry
  _lastSerial : Nat
  _sessionId : Int
  _pendingSync : Bool
  _parts : List DomainPart
  _sessions : List Session
  _markedDeleted : Bool
deriving DecidableEq, Repr

namespace Domain

/-- Static method `getDir`: `base + "/" + domain`. -/
def getDir (base domain : String) : String := base ++ "/" ++ domain

/-- Method `getMarkedDeleted`. -/
def getMarkedDeleted (d : Domain) : Bool := d._markedDeleted

/-- Method `markDeleted`. -/
def markDeleted (d : Domain) : Domain := { d with _markedDeleted := true }

/-- Method `getNumSessions`: `_sessions.size()`. -/
def getNumSessions (d : Domain) : Nat := d._sessions.length

/-- Modelled from the spec: `begin()`, the start of the oldest Part. -/
def begin (d : Domain) : Nat :=
  match d._parts.head? with
  | some p => p._range.from_
  | Option.none => 0

/-- Modelled from the spec: `end()`, one past the last committed serial. -/
def end_ (d : Domain) : Nat := d._lastSerial + 1

/-- Modelled from the spec: `getSynced()`, the synced serial of the active
(newest) Part. -/
def getSynced (d : Domain) : Nat :=
  match d._parts.getLast? with
  | some p => p._synced
  | Option.none => 0

/-- Modelled from the spec: `byteSize()`. -/
def byteSize (d : Domain) : Nat := (d._parts.map DomainPart.byteSize).sum

/-- Modelled from the spec: `Chunk::sizeBytes()`, the serialised size of the
accumulated entries. -/
def chunkSizeBytes (d : Domain) : Nat := (IChunk.serializeEntries d._currentChunk).length

/-- Modelled from the spec: `setConfig(cfg)` replaces the configuration, which
"affects future chunks/parts only". -/
def setConfig (d : Domain) (cfg : DomainConfig) : Domain := { d with _config := cfg }

/-- Modelled from the spec: `findOldestActiveVisit()`, "the minimum `from`
among all registered, not-yet-finished Sessions; `+∞` if none are active". -/
def findOldestActiveVisit (d : Domain) : Nat :=
  d._sessions.foldl (fun oldest s => if s.active then min oldest s._range.from_ else oldest)
    SerialNum.max

/-- Modelled from the spec: `findPart(serial)`, the Part whose range contains
the serial. -/
def findPart (d : Domain) (s : Nat) : Option DomainPart :=
  d._parts.find? fun p => p._range.contains s

/-- Modelled from the spec: `addPart(partId, isLastPart)` on rotation: the
active Part is sealed (its file is synced and it is no longer the last) and a
new Part starts at the next serial. -/
def addPart (d : Domain) (partId : Int) : Domain :=
  match d._parts.getLast? with
  | Option.none => { d with _parts := [DomainPart.create partId (d._lastSerial + 1)] }
  | some p =>
    { d with _parts := d._parts.dropLast ++ [p.sync, DomainPart.create partId p._range.to_] }

/-- Modelled from the spec: the constructor on an empty directory; no serial
has been committed and the first Part is added. -/
def create (cfg : DomainConfig) : Domain :=
  addPart ⟨cfg, [], 0, 0, false, [], [], false⟩ 0

/-- Modelled from the spec: rotation check of the flush path, "when the
active Part's byte size reaches `partSizeLimit` ... a new Part is created with
`partId` one greater and range starting at the next serial". -/
def rotateIfFull (d : Domain) : Domain :=
  match d._parts.getLast? with
  | Option.none => d
  | some p =>
    if d._config.getPartSizeLimit ≤ p.byteSize then d.addPart (p._id + 1) else d

/-- Modelled from the spec: `doCommit`, the flush path: encodes the handed-off
chunk with the configured encoding and appends the record to the active Part,
after the rotation check. -/
def doCommit (c : Codec) (d : Domain) (chunk : List Entry) : Domain :=
  if chunk = [] then d
  else
    let d1 := d.rotateIfFull
    let ch := (IChunk.create d1._config.getEncoding d1._config.getCompressionlevel).addAll chunk
    let record := (IChunk.encode c ch).2
    match d1._parts.getLast? with
    | Option.none => d1
    | some p => { d1 with _parts := d1._parts.dropLast ++ [p.append ch.range record] }

/-- Modelled from the spec: `grabCurrentChunk` followed by `commitChunk`: the
current chunk is swapped for an empty one and handed to the flush path. -/
def flush (c : Codec) (d : Domain) : Domain :=
  doCommit c { d with _currentChunk := [] } d._currentChunk

/-- Modelled from the spec: `commitIfFull`. -/
def commitIfFull (c : Codec) (d : Domain) : Domain :=
  if d._config.getChunkSizeLimit < d.chunkSizeBytes then d.flush c else d

/-- Modelled from the spec: `commitIfStale`; `age` is the age of the current
chunk read from the clock. -/
def commitIfStale (c : Codec) (d : Domain) (age : Int) : Domain :=
  if d._config.getChunkAgeLimit < age ∧ d._currentChunk ≠ [] then d.flush c else d

/-- Modelled from the spec: the contract of `commit`: the serials of the
packet are ordered and contiguous with the end of the log, and the new end is
a `SerialNum`. -/
def packetOk (d : Domain) (packet : List Entry) : Bool :=
  decide (packet.map Entry.serial = List.range' d.end_ packet.length) &&
    decide (d.end_ + packet.length ≤ SerialNum.max)

/-- Modelled from the spec: `Chunk::add(packet, onDone)` on the current chunk:
the entries of the packet are appended and the last serial advances. -/
def chunkAdd (d : Domain) (packet : List Entry) : Domain :=
  { d with _currentChunk := d._currentChunk ++ packet,
           _lastSerial := d._lastSerial + packet.length }

/-- Modelled from the spec: `commit(packet, onDone)`; the result tells whether
the packet was accepted. -/
def commit (c : Codec) (d : Domain) (packet : List Entry) : Domain × Bool :=
  if d.packetOk packet then (commitIfFull c (d.chunkAdd packet), true)
  else (d, false)

/-- Modelled from the spec: `triggerSyncNow()`: hands the current chunk to the
flush path and requests a sync (a flag, not a counter). -/
def triggerSyncNow (c : Codec) (d : Domain) : Domain :=
  { d.flush c with _pendingSync := true }

/-- Modelled from the spec: the sync task: the active Part's file is flushed to
stable storage and `getSynced()` advances. -/
def sync (d : Domain) : Domain :=
  if d._pendingSync then
    match d._parts.getLast? with
    | Option.none => { d with _pendingSync := false }
    | some p => { d with _parts := d._parts.dropLast ++ [p.sync], _pendingSync := false }
  else d

/-- Modelled from the spec: `erase(to)`, "removes every Part whose range lies
entirely below `min(to, findOldestActiveVisit())`"; the active Part is never
removed. -/
def erase (d : Domain) (to_ : Nat) : Domain :=
  let bound := min to_ d.findOldestActiveVisit
  match d._parts.getLast? with
  | Option.none => d
  | some p =>
    { d with _parts := (d._parts.dropLast.filter fun q => ¬ q._range.to_ ≤ bound) ++ [p] }

/-- Two half-open ranges share a serial. -/
def overlaps (a b : SerialNumRange) : Bool :=
  decide (a.from_ < b.to_) && decide (b.from_ < a.to_)

/-- Modelled from the spec: the walk of a visit over the Parts overlapping the
range, in order; the entries delivered, and whether every record decoded. -/
def visitParts (c : Codec) (r : SerialNumRange) : List DomainPart → List Entry × Bool
  | [] => ([], true)
  | p :: ps =>
    if overlaps p._range r then
      match p.readRange c r with
      | (es, false) => (es, false)
      | (es, true) => (es ++ (visitParts c r ps).1, (visitParts c r ps).2)
    else visitParts c r ps

/-- Modelled from the spec: the task of a visit: "walks all Parts (and, if `to`
extends into the live range, the current Chunk) overlapping `[from,to)`". -/
def visitEntries (c : Codec) (d : Domain) (r : SerialNumRange) : List Entry × Bool :=
  match visitParts c r d._parts with
  | (es, false) => (es, false)
  | (es, true) =>
    if overlaps (IChunk.rangeOf d._currentChunk) r then
      (es ++ d._currentChunk.filter fun e => r.contains e.serial, true)
    else (es, true)

/-- Modelled from the spec: `visit(self, from, to, dest)`: validates
`from ≤ to` and registers a Session; the result is the session id, or `-1`. -/
def visit (d : Domain) (from_ to_ : Nat) : Domain × Int :=
  let f := from_ % 2 ^ 64
  let t := to_ % 2 ^ 64
  if f ≤ t then
    let id := d._sessionId + 1
    ({ d with _sessionId := id,
              _sessions := d._sessions ++ [⟨id, ⟨f, t⟩, SessionState.CREATED, []⟩] }, id)
  else (d, -1)

/-- Modelled from the spec: `startSession(id)`: the registered session starts
running; `0` on success, `-1` when there is no such session. -/
def startSession (d : Domain) (sessionId : Int) : Domain × Int :=
  if d._sessions.any (fun s => s._id = sessionId ∧ s._state = SessionState.CREATED) then
    ({ d with _sessions := d._sessions.map fun s =>
        if s._id = sessionId ∧ s._state = SessionState.CREATED then
          { s with _state := SessionState.RUNNING } else s }, 0)
  else (d, -1)

/-- Modelled from the spec: the asynchronous task of a running session:
delivers the entries to the destination and finishes as `COMPLETED`, or as
`FAILED` after a codec failure. -/
def runSession (c : Codec) (d : Domain) (sessionId : Int) : Domain :=
  { d with _sessions := d._sessions.map fun s =>
      if s._id = sessionId ∧ s._state = SessionState.RUNNING then
        match d.visitEntries c s._range with
        | (es, true) => { s with _state := SessionState.COMPLETED, _destination := es }
        | (es, false) => { s with _state := SessionState.FAILED, _destination := es }
      else s }

/-- Modelled from the spec: `closeSession(id)`: removes the session from the
registry regardless of state; `0` on success, `-1` when there is none. -/
def closeSession (d : Domain) (sessionId : Int) : Domain × Int :=
  if d._sessions.any (fun s => s._id = sessionId) then
    ({ d with _sessions := d._sessions.filter fun s => s._id ≠ sessionId }, 0)
  else (d, -1)

/-- Modelled from the spec: `cleanSessions()`: reaps the finished sessions. -/
def cleanSessions (d : Domain) : Domain :=
  { d with _sessions := d._sessions.filter fun s =>
      s._state ≠ SessionState.COMPLETED ∧ s._state ≠ SessionState.FAILED }

/-- Modelled from the spec: the entries in the log: those of the Parts, in
order, then those of the current chunk. -/
def logEntries (c : Codec) (d : Domain) : List Entry :=
  (d._parts.map fun p => (DomainPart.scan c p._file).1).flatten ++ d._currentChunk

end Domain

/-- The operations on a Domain. -/
inductive Op where
  | commit (packet : List Entry)
  | commitIfStale (age : Int)
  | triggerSyncNow
  | sync
  | erase (to_ : Nat)
  | visit (from_ to_ : Nat)
  | startSession (sessionId : Int)
  | runSession (sessionId : Int)
  | closeSession (sessionId : Int)
  | cleanSessions
  | setConfig (cfg : DomainConfig)

/-- One operation applied to a Domain. -/
def Domain.step (c : Codec) (d : Domain) : Op → Domain
  | Op.commit packet => (d.commit c packet).1
  | Op.commitIfStale age => d.commitIfStale c age
  | Op.triggerSyncNow => d.triggerSyncNow c
  | Op.sync => d.sync
  | Op.erase t => d.erase t
  | Op.visit f t => (d.visit f t).1
  | Op.startSession i => (d.startSession i).1
  | Op.runSession i => d.runSession c i
  | Op.closeSession i => (d.closeSession i).1
  | Op.cleanSessions => d.cleanSessions
  | Op.setConfig cfg => d.setConfig cfg

/-- A sequence of operations applied in order. -/
def Domain.run (c : Codec) (d : Domain) (ops : List Op) : Domain :=
  ops.foldl (Domain.step c) d

/-- An entry whose fields fit the widths they are stored in. -/
def Entry.Representable (e : Entry) : Prop :=
  e.serial < 2 ^ 64 ∧ e.payload.length < 2 ^ 64

instance (e : Entry) : Decidable e.Representable := by
  unfold Entry.Representable; exact inferInstance

/-- A compressor that stores the data unchanged, used to run the codec on
concrete chunks. -/
def storeCodec (crc : Nat → List Byte → Nat) : Codec :=
  ⟨crc, fun _ _ b => b, fun _ b => some b⟩

/-! ## Invariants of the Domain -/

/-- The Parts, in order, are contiguous from `a` to `b`, and the synced serial
of each lies in its range. -/
def Contiguous : Nat → List DomainPart → Nat → Prop
  | a, [], b => a = b
  | a, p :: ps, b =>
    p._range.from_ = a ∧ a ≤ p._synced ∧ p._synced ≤ p._range.to_ ∧
      Contiguous p._range.to_ ps b

/-- The Parts are contiguous with ascending ids, there is an active (last)
Part, and the chunk holds the serials from the end of the active Part up to
the last serial. -/
def PartsInv (parts : List DomainPart) (chunk : List Entry) (lastSerial : Nat) : Prop :=
  ∃ a ini p, parts = ini ++ [p] ∧ Contiguous a parts p._range.to_ ∧
    parts.Pairwise (fun x y => x._id < y._id) ∧
    chunk.map Entry.serial = List.range' p._range.to_ chunk.length ∧
    lastSerial + 1 = p._range.to_ + chunk.length

/-- Invariant of the Domain: the Parts and the current chunk are consistent
with the last serial, the end of the log is a `SerialNum`, and the sessions
hold well-formed ranges. -/
def Domain.Inv (d : Domain) : Prop :=
  PartsInv d._parts d._currentChunk d._lastSerial ∧ d._lastSerial + 1 ≤ SerialNum.max ∧
    ∀ s ∈ d._sessions, s._range.from_ ≤ s._range.to_ ∧ s._range.to_ ≤ SerialNum.max

/-- An encoding held in one octet whose crc kind and compression kind are
among the three named kinds each. -/
def Encoding.Supported (e : Encoding) : Prop :=
  e._raw < 256 ∧ e.getCrc ≤ Encoding.xxh64 ∧ e.getCompression ≤ Encoding.zstd

instance (e : Encoding) : Decidable e.Supported := by
  unfold Encoding.Supported; exact inferInstance

/-- Well-formed arguments of an operation: payload sizes are `size_t` values,
and a configuration names a supported encoding. -/
def Op.WellFormed : Op → Prop
  | Op.commit packet => ∀ e ∈ packet, e.payload.length < 2 ^ 64
  | Op.setConfig cfg => cfg._encoding.Supported
  | _ => True

instance (op : Op) : Decidable op.WellFormed := by
  cases op <;> simp only [Op.WellFormed] <;> exact inferInstance

/-- Invariant of the stored data: the configured encoding is supported, the
entries of the current chunk fit their fields, and the file of every Part
decodes to the entries of its range. -/
def Domain.FilesInv (c : Codec) (d : Domain) : Prop :=
  d._config._encoding.Supported ∧ (∀ e ∈ d._currentChunk, e.Representable) ∧
    ∀ p ∈ d._parts, ∃ es, DomainPart.scan c p._file = (es, true) ∧
      es.map Entry.serial = List.range' p._range.from_ (p._range.to_ - p._range.from_)

/-! ## A chunk whose corruption the 32-bit `xxh64` checksum misses -/

/-- The codec with the checksums of `Encoding::calcCrc` and a compressor that
stores the data unchanged. -/
def plainCodec : Codec := stdCodec (fun _ _ b => b) (fun _ b => some b)

/-- A chunk of one entry, encoded with `xxh64` and no compression. -/
def collidingChunk : IChunk :=
  (IChunk.create (Encoding.mk2 Encoding.xxh64 Encoding.none) 9).addAll [⟨165419, [114]⟩]

/-- A chunk of one entry, encoded with `ccitt_crc32` and no compression. -/
def crcChunk : IChunk :=
  (IChunk.create (Encoding.mk2 Encoding.ccitt_crc32 Encoding.none) 9).addAll [⟨5, [1, 2, 3]⟩]

/-! ## A concrete run -/

/-- A configuration with small limits, so that a short run flushes and
rotates. -/
def sampleConfig : DomainConfig :=
  ⟨Encoding.mk2 Encoding.xxh64 Encoding.none, 9, 100, 60, 10⟩

/-- A short run: commits that fill a chunk and a Part, a visit that is started,
a sync and an erase. -/
def sampleOps : List Op :=
  [Op.commit [⟨1, [1]⟩, ⟨2, [2, 3]⟩], Op.commit [⟨3, [1]⟩, ⟨4, [2, 3]⟩, ⟨5, []⟩],
   Op.visit 2 5, Op.startSession 1, Op.commit [⟨6, [1]⟩, ⟨7, [2, 3]⟩, ⟨8, []⟩],
   Op.commit [⟨9, [1]⟩, ⟨10, [2, 3]⟩, ⟨11, []⟩], Op.triggerSyncNow, Op.sync,
   Op.commit [⟨12, [1]⟩], Op.erase 100]

/-- A configuration whose chunk limit holds ten small entries. -/
def roomyConfig : DomainConfig :=
  ⟨Encoding.mk2 Encoding.xxh64 Encoding.none, 9, 1000, 1000, 10⟩

/-- A configuration that flushes on every commit and rotates on every flush
after the first. -/
def tightConfig : DomainConfig :=
  ⟨Encoding.mk2 Encoding.ccitt_crc32 Encoding.none, 9, 1, 0, 10⟩

/-- The entries an operation adds to the log: the packet of a commit that is
accepted, nothing otherwise. -/
def Domain.acceptedBy (d : Domain) : Op → List Entry
  | Op.commit packet => if d.packetOk packet then packet else []
  | _ => []

/-- The entries accepted by the commits of a sequence of operations, in the
order of their acceptance. -/
def Domain.accepted (c : Codec) : Domain → List Op → List Entry
  | _, [] => []
  | d, op :: ops => d.acceptedBy op ++ Domain.accepted c (d.step c op) ops

/-- The entries in the log after a sequence of operations on a new Domain:
those accepted by its commits and not erased since, the erased ones being
those below `begin()`. -/
def Domain.heldEntries (c : Codec) (cfg : DomainConfig) (ops : List Op) : List Entry :=
  (Domain.accepted c (Domain.create cfg) ops).filter
    fun e => decide (((Domain.create cfg).run c ops).begin ≤ e.serial)

/-- Invariant relating the stored data to the entries `H` accepted so far:
every entry that the file of a Part decodes to, and every entry of the current
chunk, is one of `H`, and `H` holds the serials `1 .. lastSerial`. -/
def Domain.HistInv (c : Codec) (d : Domain) (H : List Entry) : Prop :=
  (∀ p ∈ d._parts, ∀ e ∈ (DomainPart.scan c p._file).1, e ∈ H) ∧
    (∀ e ∈ d._currentChunk, e ∈ H) ∧
    H.map Entry.serial = List.range' 1 d._lastSerial

/-- Entries with the serials `first, first + 1, ...` and empty payloads. -/
def entriesFrom (first n : Nat) : List Entry :=
  (List.range' first n).map fun s => ⟨s, []⟩

end search.transactionlog

/-! # GenerationHolder (vespalib/util/generationholder.h) -/

namespace vespalib

/-- Class `GenerationHeldBase`: the generation (`generation_t`, an unsigned
64-bit integer) and the size of the held element.  The constructor sets the
generation to `0u`. -/
structure GenerationHeldBase where
  _generation : Nat
  _size : Nat
deriving DecidableEq, Repr

/-- Constructor `GenerationHeldBase(size_t size)`: `_generation(0u)`,
`_size(size)`. -/
def GenerationHeldBase.create (size : Nat) : GenerationHeldBase := ⟨0, size % 2 ^ 64⟩

/-- Method `getSize`. -/
def GenerationHeldBase.getSize (e : GenerationHeldBase) : Nat := e._size

/-- Class `GenerationHolder`: the two hold lists and the number of held
bytes. -/
structure GenerationHolder where
  _hold1List : List GenerationHeldBase
  _hold2List : List GenerationHeldBase
  _heldBytes : Nat
deriving DecidableEq, Repr

namespace GenerationHolder

/-- The test `static_cast<sgeneration_t>(generation - usedGen) < 0` of the
code: the difference of the two unsigned 64-bit values, taken modulo `2^64`
and read as a signed 64-bit integer, is negative. -/
def signedLess (generation usedGen : Nat) : Bool :=
  decide (2 ^ 63 ≤ (generation % 2 ^ 64 + 2 ^ 64 - usedGen % 2 ^ 64) % 2 ^ 64)

/-- Modelled from the spec: `hold(data)` (declared in generationholder.h,
defined in generationholder.cpp which is not among the sources), "Add the
given data pointer to this holder": the element joins the first hold list. -/
def hold (h : GenerationHolder) (data : GenerationHeldBase) : GenerationHolder :=
  { h with _hold1List := h._hold1List ++ [data],
           _heldBytes := (h._heldBytes + data.getSize) % 2 ^ 64 }

/-- Modelled from the spec: `transferHoldListsSlow(generation)` (declared in
generationholder.h, defined in generationholder.cpp which is not among the
sources), "Transfer holds from hold1 to hold2 lists, assigning
generation". -/
def transferHoldListsSlow (h : GenerationHolder) (generation : Nat) : GenerationHolder :=
  { h with _hold1List := [],
           _hold2List := h._hold2List ++
             h._hold1List.map fun e => { e with _generation := generation % 2 ^ 64 } }

/-- Method `transferHoldLists(generation)`. -/
def transferHoldLists (h : GenerationHolder) (generation : Nat) : GenerationHolder :=
  if h._hold1List ≠ [] then h.transferHoldListsSlow generation else h

/-- Modelled from the spec: `trimHoldListsSlow(usedGen)` (declared in
generationholder.h, defined in generationholder.cpp which is not among the
sources), "Remove all data elements from this holder where generation <
usedGen": the elements of the second hold list, the ones that have been
assigned a generation, are compared with `usedGen` by the test that
`trimHoldLists` uses, and the held bytes shrink by the sizes removed. -/
def trimHoldListsSlow (h : GenerationHolder) (usedGen : Nat) : GenerationHolder :=
  { h with
    _hold2List := h._hold2List.filter fun e => !signedLess e._generation usedGen,
    _heldBytes := (h._heldBytes + 2 ^ 64 -
      ((h._hold2List.filter fun e => signedLess e._generation usedGen).map
        GenerationHeldBase.getSize).sum % 2 ^ 64) % 2 ^ 64 }

/-- Method `trimHoldLists(usedGen)`: the slow path runs only when the second
hold list is not empty and its front element is older than `usedGen`. -/
def trimHoldLists (h : GenerationHolder) (usedGen : Nat) : GenerationHolder :=
  match h._hold2List with
  | [] => h
  | front :: _ =>
    if signedLess front._generation usedGen then h.trimHoldListsSlow usedGen else h

/-- Method `getHeldBytes`. -/
def getHeldBytes (h : GenerationHolder) : Nat := h._heldBytes

end GenerationHolder

/-- A holder with one element waiting in the first hold list and a second hold
list that is not in ascending order of generation. -/
def unorderedHolder : GenerationHolder :=
  ⟨[⟨0, 8⟩], [⟨5, 10⟩, ⟨3, 10⟩], 28⟩

/-- A holder whose second hold list is in ascending order of generation. -/
def orderedHolder : GenerationHolder :=
  ⟨[⟨0, 8⟩], [⟨1, 10⟩, ⟨3, 10⟩, ⟨5, 10⟩], 38⟩

end vespalib

/-! # ConfigParser (config/common/configparser.h) -/

namespace config

/-- Failures of `ConfigParser::parse`: the exception that `throwNoDefaultValue`
raises for a key, or a failure `e` of `convert<T>`. -/
inductive ParseError (E : Type) where
  | noDefaultValue (key : String)
  | conversion (e : E)
deriving DecidableEq, Repr

/-- The static members of `ConfigParser` that the header only declares:
`getLinesForKey(key, config)` and, for the value type `T`, `convert<T>(lines)`,
which may fail. -/
structure ConfigParser (E T : Type) where
  getLinesForKey : String → List String → List String
  convert : List String → Except E T

namespace ConfigParser

/-- Modelled from the spec: `throwNoDefaultValue(key)` (declared in
configparser.h, defined in configparser.cpp which is not among the sources):
it does not return, it raises the exception for the key. -/
def throwNoDefaultValue {E : Type} (key : String) : Except (ParseError E) Unit :=
  Except.error (ParseError.noDefaultValue key)

/-- The call `convert<T>(lines)` inside the parser, its failure kept apart from
the one of `throwNoDefaultValue`. -/
def convertLines {E T : Type} (p : ConfigParser E T) (lines : List String) :
    Except (ParseError E) T :=
  match p.convert lines with
  | Except.ok v => Except.ok v
  | Except.error e => Except.error (ParseError.conversion e)

/-- Template `parseInternal(key, config)` without a default value
(configparser.h, lines 77-87). -/
def parseInternal {E T : Type} (p : ConfigParser E T) (key : String) (config : List String) :
    Except (ParseError E) T :=
  let lines := p.getLinesForKey key config
  (if lines.length = 0 then throwNoDefaultValue key else Except.ok ()) >>= fun _ =>
    p.convertLines lines

/-- Template `parseInternal(key, config, defaultValue)` (configparser.h, lines
89-100). -/
def parseInternalDefault {E T : Type} (p : ConfigParser E T) (key : String)
    (config : List String) (defaultValue : T) : Except (ParseError E) T :=
  let lines := p.getLinesForKey key config
  if lines.length = 0 then Except.ok defaultValue
  else p.convertLines lines

/-- Template `parse(key, config)`. -/
def parse {E T : Type} (p : ConfigParser E T) (key : String) (config : List String) :
    Except (ParseError E) T :=
  p.parseInternal key config

/-- Template `parse(key, config, defaultValue)`. -/
def parseDefault {E T : Type} (p : ConfigParser E T) (key : String) (config : List String)
    (defaultValue : T) : Except (ParseError E) T :=
  p.parseInternalDefault key config defaultValue

end ConfigParser

/-- A parser over texts, to run the templates: the lines for a key are the
rests of the config lines that start with the key and a blank, and
`convert<vespalib::string>` accepts exactly one line. -/
def sampleParser : ConfigParser String String where
  getLinesForKey := fun key config =>
    (config.filter fun l => l.data.takeWhile (fun ch => ch != ' ') == key.data).map
      fun l => String.mk ((l.data.dropWhile (fun ch => ch != ' ')).drop 1)
  convert := fun lines =>
    match lines with
    | [v] => Except.ok v
    | _ => Except.error "expected one line"

end config

/-! # The attribute feature (searchlib/features/attributefeature.cpp) -/

namespace search.features

/-- Enumeration `search::attribute::CollectionType`, the three kinds the
source tests for. -/
inductive CollectionType where
  | SINGLE
  | ARRAY
  | WSET
deriving DecidableEq, Repr

/-- Enumeration `search::attribute::BasicType::Type`: the enumerators the
source names, and `OTHER` for every other one. -/
inductive BasicType where
  | INT8
  | INT16
  | INT32
  | INT64
  | FLOAT
  | DOUBLE
  | TENSOR
  | OTHER
deriving DecidableEq, Repr

/-- The content classes the executors are instantiated with:
`ConstCharContent`/`WeightedConstCharContent`, `IntegerContent`/
`WeightedIntegerContent`, `FloatContent`/`WeightedFloatContent`. -/
inductive ContentKind where
  | ConstChar
  | Integer
  | Float
deriving DecidableEq, Repr

/-- What the source uses and does not define, for attribute values of type `V`
and feature values (`feature_t`) of type `F`: the feature values `0.0f` and
`1.0f`, `attribute::getUndefined<feature_t>()`, the conversions of a value
count and of a weight to `feature_t`, `util::getAsFeature`,
`search::attribute::isUndefined<T>` applied to the value cast to the type `T`
of a basic type, the comparison `==` (or `strcmp(...) == 0`) of two values, the
key made from the extra parameter (the text itself, `util::strToNum<int64_t>`
or `util::strToNum<double>`), and `util::strToNum<uint32_t>`. -/
structure Helpers (V F : Type) where
  zero : F
  one : F
  undefinedFeature : F
  countAsFeature : Nat → F
  weightAsFeature : Int → F
  getAsFeature : V → F
  attrIsUndefined : BasicType → V → Bool
  equalValues : V → V → Bool
  strToKey : ContentKind → String → V
  strToIdx : String → Nat

/-- The members of `IAttributeVector` the source calls; `content docId` is the
list of values, each with its weight, that the attribute holds for a document,
`getFast` the value of a single-value numeric attribute, and `singleNumeric`
tells whether one of the four `dynamic_cast`s to
`SingleValueNumericAttribute<T>` succeeds. -/
structure IAttributeVector (V : Type) where
  getBasicType : BasicType
  getCollectionType : CollectionType
  isStringType : Bool
  isIntegerType : Bool
  isFloatingPointType : Bool
  singleNumeric : Bool
  getFast : Nat → V
  content : Nat → List (V × Int)

/-- Modelled from the spec: `IAttributeVector::getValueCount(docId)` (declared
in a header that is not among the sources): the number of values the attribute
holds for the document. -/
def IAttributeVector.getValueCount {V : Type} (a : IAttributeVector V) (docId : Nat) : Nat :=
  (a.content docId).length

/-- Modelled from the spec: `AttributeContent<T>::fill(attribute, docId)`
(attributecontent.h is not among the sources): the buffer holds the values of
the document. -/
def fill {V : Type} (a : IAttributeVector V) (docId : Nat) : List (V × Int) :=
  a.content docId

/-- Template `equals(lhs, rhs)` (lines 39-47): `lhs == rhs`, or
`strcmp(lhs, rhs.c_str()) == 0` for texts. -/
def equals {V F : Type} (H : Helpers V F) (lhs rhs : V) : Bool := H.equalValues lhs rhs

/-- Template `isUndefined(value, type)` (lines 49-76): the marker test of the
basic type, `false` for every other basic type and for texts. -/
def isUndefined {V F : Type} (H : Helpers V F) (kind : ContentKind) (value : V)
    (type : BasicType) : Bool :=
  match kind with
  | ContentKind.ConstChar => false
  | _ =>
    match type with
    | BasicType.INT8 => H.attrIsUndefined BasicType.INT8 value
    | BasicType.INT16 => H.attrIsUndefined BasicType.INT16 value
    | BasicType.INT32 => H.attrIsUndefined BasicType.INT32 value
    | BasicType.INT64 => H.attrIsUndefined BasicType.INT64 value
    | BasicType.FLOAT => H.attrIsUndefined BasicType.FLOAT value
    | BasicType.DOUBLE => H.attrIsUndefined BasicType.DOUBLE value
    | _ => false

/-- Template `considerUndefined(value, type)` (lines 78-93). -/
def considerUndefined {V F : Type} (H : Helpers V F) (kind : ContentKind) (value : V)
    (type : BasicType) : F :=
  match kind with
  | ContentKind.ConstChar => H.getAsFeature value
  | _ => if isUndefined H kind value type then H.undefinedFeature else H.getAsFeature value

/-- The four outputs of an executor: `outputs()[0]` to `outputs()[3]`. -/
structure Outputs (F : Type) where
  value : F
  weight : F
  contains : F
  count : F
deriving DecidableEq, Repr

/-- The executors that `createAttributeExecutor` returns, with the members the
constructors set. -/
inductive Executor (V F : Type) where
  | ValueExecutor (values : List F)
  | SingleAttributeExecutor
  | CountOnlyAttributeExecutor
  | AttributeExecutor (kind : ContentKind) (_idx : Nat) (_defaultCount : F)
  | WeightedSetAttributeExecutor (kind : ContentKind) (_key : V) (_useKey : Bool)

/-- The loop of `WeightedSetAttributeExecutor::execute` (lines 261-268): the
value, weight and contains outputs, set at the first element whose value equals
the key. -/
def weightedSetLoop {V F : Type} (H : Helpers V F) (kind : ContentKind) (attrType : BasicType)
    (key : V) : List (V × Int) → F × F × F
  | [] => (H.zero, H.zero, H.zero)
  | e :: rest =>
    if equals H e.1 key then
      (considerUndefined H kind key attrType, H.weightAsFeature e.2, H.one)
    else weightedSetLoop H kind attrType key rest

/-- The `execute` methods (lines 189-276), and that of `ValueExecutor`, which
is modelled from the spec (valuefeature.h is not among the sources): it
outputs its values. -/
def execute {V F : Type} (H : Helpers V F) (a : IAttributeVector V) (docId : Nat) :
    Executor V F → Outputs F
  | Executor.ValueExecutor values =>
    ⟨values.getD 0 H.zero, values.getD 1 H.zero, values.getD 2 H.zero, values.getD 3 H.zero⟩
  | Executor.SingleAttributeExecutor =>
    ⟨if H.attrIsUndefined a.getBasicType (a.getFast docId) then H.undefinedFeature
      else H.getAsFeature (a.getFast docId), H.zero, H.zero, H.one⟩
  | Executor.CountOnlyAttributeExecutor =>
    ⟨H.zero, H.zero, H.zero, H.countAsFeature (a.getValueCount docId)⟩
  | Executor.AttributeExecutor kind idx defaultCount =>
    let buffer := fill a docId
    let value := if h : idx < buffer.length then
        considerUndefined H kind (buffer[idx]).1 a.getBasicType
      else H.zero
    ⟨value, H.zero, H.zero, defaultCount⟩
  | Executor.WeightedSetAttributeExecutor kind key useKey =>
    if useKey then
      match weightedSetLoop H kind a.getBasicType key (fill a docId) with
      | (value, weight, contains) => ⟨value, weight, contains, H.zero⟩
    else ⟨H.zero, H.zero, H.zero, H.countAsFeature (a.getValueCount docId)⟩

/-- Constructor `AttributeExecutor(attribute, idx)` (lines 212-222); `idx` is a
`uint32_t`. -/
def newAttributeExecutor {V F : Type} (H : Helpers V F) (a : IAttributeVector V)
    (kind : ContentKind) (idx : Nat) : Executor V F :=
  Executor.AttributeExecutor kind (idx % 2 ^ 32)
    (if a.getCollectionType = CollectionType.ARRAY then H.zero else H.one)

/-- The choice `isStringType` / `isIntegerType` / otherwise of
`createAttributeExecutor` (lines 348-357 and 375-381). -/
def contentKind {V : Type} (a : IAttributeVector V) : ContentKind :=
  if a.isStringType then ContentKind.ConstChar
  else if a.isIntegerType then ContentKind.Integer
  else ContentKind.Float

/-- Function `createAttributeExecutor(attribute, attrName, extraParam)` (lines
336-384); a null attribute is `none`. -/
def createAttributeExecutor {V F : Type} (H : Helpers V F)
    (attr : Option (IAttributeVector V)) (_attrName extraParam : String) : Executor V F :=
  match attr with
  | Option.none => Executor.ValueExecutor [H.zero, H.zero, H.zero, H.zero]
  | some a =>
    if a.getCollectionType = CollectionType.WSET then
      if extraParam ≠ "" then
        Executor.WeightedSetAttributeExecutor (contentKind a)
          (H.strToKey (contentKind a) extraParam) true
      else Executor.CountOnlyAttributeExecutor
    else
      if a.getCollectionType = CollectionType.SINGLE ∧
          (a.isIntegerType ∨ a.isFloatingPointType) ∧ a.singleNumeric then
        Executor.SingleAttributeExecutor
      else if extraParam ≠ "" then
        newAttributeExecutor H a (contentKind a) (H.strToIdx extraParam)
      else if a.getCollectionType = CollectionType.ARRAY then
        Executor.CountOnlyAttributeExecutor
      else newAttributeExecutor H a (contentKind a) 0

/-- The number that a text of decimal digits denotes. -/
def decimal (s : String) : Nat :=
  s.data.foldl (fun acc ch => acc * 10 + (ch.toNat - 48)) 0

/-- Helpers over integer values and integer features, to run the executors. -/
def intHelpers : Helpers Int Int where
  zero := 0
  one := 1
  undefinedFeature := -1
  countAsFeature := fun n => n
  weightAsFeature := fun w => w
  getAsFeature := fun v => v
  attrIsUndefined := fun _ v => v == -2147483648
  equalValues := fun x y => x == y
  strToKey := fun _ s => Int.ofNat (decimal s)
  strToIdx := fun s => decimal s

/-- An integer array attribute with three values for every document. -/
def arrayAttribute : IAttributeVector Int :=
  ⟨BasicType.INT32, CollectionType.ARRAY, false, true, false, false, fun _ => 0,
    fun _ => [(10, 1), (-2147483648, 1), (30, 1)]⟩

/-- An integer weighted set attribute with three elements for every
document. -/
def wsetAttribute : IAttributeVector Int :=
  ⟨BasicType.INT32, CollectionType.WSET, false, true, false, false, fun _ => 0,
    fun _ => [(10, 5), (20, 7), (20, 9)]⟩

end search.features

/-! # SimpleQueryStackItem (searchsummary/src/tests/extractkeywords/simplequerystackitem.h) -/

namespace search

namespace SimpleQueryStackItem

/-- Static method `GetCreator(uint8_t type)`:
`static_cast<ItemCreator>((type >> 3) & 0x01)`; the enumeration value is
represented by its underlying integer. -/
def GetCreator (type : Nat) : Nat := ((type % 256) >>> 3) &&& 0x01

/-- Static method `GetType(uint8_t type)`: `static_cast<ItemType>(type & 0x1F)`;
the enumeration value is represented by its underlying integer. -/
def GetType (type : Nat) : Nat := (type % 256) &&& 0x1F

/-- Static method `GetFeature(uint8_t type, uint8_t feature)`:
`(type & feature) != 0`. -/
def GetFeature (type feature : Nat) : Bool := ((type % 256) &&& (feature % 256)) != 0

end SimpleQueryStackItem

/-- Class `SimpleQueryStackItem`, its data members in the order of their
declaration: the two pointers are optional addresses, `query::Weight` is its
32-bit signed value, the two `double` arguments are their 64-bit patterns. -/
structure SimpleQueryStackItem where
  _next : Option Nat
  _sibling : Option Nat
  _weight : Int
  _uniqueId : Nat
  _arg1 : Nat
  _arg2 : Nat
  _arg3 : Nat
  _type : Nat
  _flags : Nat
  _arity : Nat
  _indexName : String
  _term : String
deriving DecidableEq, Repr

namespace SimpleQueryStackItem

/-- Method `Type()`: `GetType(_type)`. -/
def Type_ (item : SimpleQueryStackItem) : Nat := GetType item._type

/-- Method `Feature(uint8_t feature)`: `GetFeature(_type, feature)`. -/
def Feature (item : SimpleQueryStackItem) (feature : Nat) : Bool :=
  GetFeature item._type feature

/-- Method `SetType(ItemType type)`: `_type = (_type & ~0x1F) | type`.  The
operands are promoted to `int`, where `~0x1F` has every bit set but the five
lowest (`0xFFFFFFE0` on 32 bits); the assignment to the `uint8_t` member keeps
the eight low bits.  The enumeration value is its underlying integer. -/
def SetType (item : SimpleQueryStackItem) (type : Nat) : SimpleQueryStackItem :=
  { item with _type := ((item._type &&& 0xFFFFFFE0) ||| type) % 256 }

/-- A term item with the weight and unique-id feature bits set in its type
byte (`0x64`: item type 4, feature bits `0x60`). -/
def sampleItem : SimpleQueryStackItem :=
  ⟨none, none, 100, 7, 0, 0, 0, 0x64, 0, 0, "title", "vespa"⟩

end SimpleQueryStackItem

end search

/-! # Tensor lambda reshape (eval/src/tests/eval/tensor_lambda/tensor_lambda_test.cpp) -/

namespace vespalib.eval

/-- Modelled from the spec: a tensor value of the test model (simple_tensor.h
and tensor_model.hpp are not among the sources): the sizes of its indexed
dimensions and its cells, each an address (one label for every dimension) with
its value, listed in the order of the addresses.  The cells of the test are
small whole numbers, kept as natural numbers. -/
structure DenseTensor where
  sizes : List Nat
  cells : List (List Nat × Nat)
deriving DecidableEq, Repr

/-- Modelled from the spec: the sequence `N()` of the test model, `1, 2, 3,
...` (the test expects `tensor(x[3])(x3{x:(x)})` to be `[1,2,3]`). -/
def N (i : Nat) : Nat := 1 + i

/-- Modelled from the spec: the addresses of a tensor with the given sizes, in
the order in which nested loops over the dimensions reach them, the first
dimension in the outermost loop. -/
def addresses : List Nat → List (List Nat)
  | [] => [[]]
  | n :: sizes => (List.range n).flatMap fun i => (addresses sizes).map fun rest => i :: rest

/-- Modelled from the spec: `spec({dims...}, seq)` of the test model: the
addresses are generated in order, and the address generated as number `i`
gets the value `seq[i]`. -/
def spec (sizes : List Nat) (seq : Nat → Nat) : DenseTensor :=
  ⟨sizes, (addresses sizes).zip ((List.range (addresses sizes).length).map seq)⟩

/-- Modelled from the spec: tensor peek `t{x:(...),y:(...)}` with a label for
every dimension: the value of the cell with that address, `0` when the tensor
has no such cell (the test expects `tensor(x[3])(x3y5{x:1,y:(x+3)})` to be
`[9,10,0]`). -/
def peek (t : DenseTensor) (address : List Nat) : Nat :=
  match t.cells.lookup address with
  | some v => v
  | Option.none => 0

/-- Modelled from the spec: tensor lambda `tensor(x[..],y[..])(body)`: the cell
at every address is the value of the body there. -/
def lambda (sizes : List Nat) (body : List Nat → Nat) : DenseTensor :=
  ⟨sizes, (addresses sizes).map fun a => (a, body a)⟩

/-- Parameter `x3y5` of the test: `spec({x(3), y(5)}, N())`. -/
def x3y5 : DenseTensor := spec [3, 5] N

/-- Parameter `x15` of the test: `spec({x(15)}, N())`. -/
def x15 : DenseTensor := spec [15] N

/-- Expression `tensor(x[n])(t{x:(x/b),y:(x%b)})`, the reshape of a tensor `t`
with two dimensions, the second of size `b`, to one dimension; the label `x/b`
is the whole part of the quotient. -/
def reshapeFlat (t : DenseTensor) (n b : Nat) : DenseTensor :=
  lambda [n] fun a => peek t [a.getD 0 0 / b, a.getD 0 0 % b]

/-- Expression `tensor(x[a],y[b])(t{x:(x*b+y)})`, the reshape of a tensor `t`
with one dimension to two dimensions. -/
def reshapeGrid (t : DenseTensor) (a b : Nat) : DenseTensor :=
  lambda [a, b] fun ad => peek t [ad.getD 0 0 * b + ad.getD 1 0]

/-- Expression `tensor(x[15])(x3y5{x:(x/5),y:(x%5)})` of the test; the label
`x/5` is the whole part of the quotient. -/
def reshapeToX15 : DenseTensor :=
  lambda [15] fun a => peek x3y5 [a.getD 0 0 / 5, a.getD 0 0 % 5]

/-- Expression `tensor(x[3],y[5])(x15{x:(x*5+y)})` of the test. -/
def reshapeToX3Y5 : DenseTensor :=
  lambda [3, 5] fun a => peek x15 [a.getD 0 0 * 5 + a.getD 1 0]

end vespalib.eval

namespace search.transactionlog

/-! # Lemmas and theorems -/


/-! ## Lemmas on the encoding descriptor -/

theorem Encoding.getCrc_eq (e : Encoding) : e.getCrc = e._raw % 4 :=
  Nat.and_pow_two_sub_one_eq_mod e._raw 2

theorem Encoding.getCompression_eq (e : Encoding) : e.getCompression = e._raw / 4 % 16 := by
  unfold Encoding.getCompression
  rw [Nat.shiftRight_eq_div_pow]
  exact Nat.and_pow_two_sub_one_eq_mod (e._raw / 2 ^ 2) 4

/-! ## Lemmas on byte streams -/

theorem getBE_putBE (w n acc : Nat) (rest : List Byte) :
    getBE w acc (putBE w n ++ rest) = some (acc * 256 ^ w + n % 256 ^ w, rest) := by
  induction w generalizing acc with
  | zero => simp [getBE, putBE, Nat.mod_one]
  | succ w ih =>
    have hd : (Fin.ofNat (n / 256 ^ w % 256) : Byte).val = n / 256 ^ w % 256 := by
      simp [Fin.ofNat]
    show getBE w (acc * 256 + (Fin.ofNat (n / 256 ^ w % 256) : Byte).val) (putBE w n ++ rest) = _
    rw [ih, hd, Nat.mod_pow_succ, pow_succ]
    congr 2
    ring

theorem getBE_putBE_of_lt (w n : Nat) (rest : List Byte) (h : n < 256 ^ w) :
    getBE w 0 (putBE w n ++ rest) = some (n, rest) := by
  rw [getBE_putBE, Nat.mod_eq_of_lt h]
  simp

theorem Entry.deserialize_serialize (e : Entry) (rest : List Byte) (h : e.Representable) :
    Entry.deserialize (e.serialize ++ rest) = some (e, rest) := by
  obtain ⟨h1, h2⟩ := h
  have e1 : (256 : Nat) ^ 8 = 2 ^ 64 := by norm_num
  unfold Entry.deserialize Entry.serialize
  simp only [List.append_assoc]
  rw [getBE_putBE_of_lt 8 _ _ (by rw [e1]; exact h1)]
  simp only
  rw [getBE_putBE_of_lt 8 _ _ (by rw [e1]; exact h2)]
  simp

namespace IChunk

theorem deserializeEntries_serializeEntries (es : List Entry) (rest : List Byte)
    (h : ∀ e ∈ es, e.Representable) :
    deserializeEntries es.length (serializeEntries es ++ rest) = some (es, rest) := by
  induction es with
  | nil => simp [deserializeEntries, serializeEntries]
  | cons e es ih =>
    simp only [List.length_cons, deserializeEntries, serializeEntries, List.append_assoc]
    rw [Entry.deserialize_serialize e _ (h e (List.mem_cons_self _ _))]
    simp only
    rw [ih (fun x hx => h x (List.mem_cons_of_mem _ hx))]

theorem deserializeBody_serializeBody (es : List Entry)
    (h : ∀ e ∈ es, e.Representable) (hlen : es.length < 2 ^ 64) :
    deserializeBody (serializeBody es) = some es := by
  have e1 : (256 : Nat) ^ 8 = 2 ^ 64 := by norm_num
  unfold deserializeBody serializeBody
  simp only [List.append_assoc]
  rw [getBE_putBE_of_lt 8 _ _ (by rw [e1]; exact hlen)]
  simp only [getBE_putBE]
  have := deserializeEntries_serializeEntries es [] h
  rw [List.append_nil] at this
  rw [this]

theorem addAll_entries (c : IChunk) (es : List Entry) :
    (c.addAll es)._entries = c._entries ++ es ∧ (c.addAll es).encoding = c.encoding ∧
      (c.addAll es).compressionLevel = c.compressionLevel := by
  induction es generalizing c with
  | nil => simp [addAll]
  | cons e es ih =>
    have := ih (c.add e)
    simp only [addAll, List.foldl_cons] at this ⊢
    simpa [add] using this

theorem ofRaw_header (e : Encoding) (h : e._raw < 256) :
    Encoding.ofRaw (Fin.ofNat e.getRaw : Byte).val = e := by
  cases e with
  | mk r =>
    simp only [Encoding.ofRaw, Encoding.getRaw, Fin.ofNat, Nat.mod_mod] at h ⊢
    rw [Nat.mod_eq_of_lt h]

theorem decode_encode (c : Codec) (hc : c.Lossless) (ch : IChunk)
    (hraw : ch.encoding._raw < 256)
    (hcrc : ch.encoding.getCrc ≤ Encoding.xxh64)
    (hcomp : ch.encoding.getCompression ≤ Encoding.zstd)
    (hwf : ∀ e ∈ ch._entries, e.Representable) (hlen : ch._entries.length < 2 ^ 64) :
    decode c (encode c ch).2 = Except.ok ch._entries := by
  unfold encode decode encodedBody
  simp only [ofRaw_header _ hraw, getBE_putBE]
  rw [if_neg (not_or.mpr ⟨not_lt.mpr hcrc, not_lt.mpr hcomp⟩)]
  have e4 : (256 : Nat) ^ 4 = 2 ^ 32 := by norm_num
  rw [if_neg]
  · have hplain : (if ch.encoding.getCompression = Encoding.none then
          some (compressBody c ch.encoding.getCompression ch.compressionLevel
            (serializeBody ch._entries))
        else c.decompress ch.encoding.getCompression
          (compressBody c ch.encoding.getCompression ch.compressionLevel
            (serializeBody ch._entries))) = some (serializeBody ch._entries) := by
      by_cases hk : ch.encoding.getCompression = Encoding.none
      · simp [hk, compressBody]
      · rw [if_neg hk]
        simp only [compressBody, if_neg hk]
        apply hc
        have hsplit : ∀ k : Nat, k ≠ 0 → k ≤ 2 → k = 1 ∨ k = 2 := by omega
        exact hsplit _ hk hcomp
    simp only [hplain, deserializeBody_serializeBody _ hwf hlen]
  · rintro ⟨h1, h2⟩
    apply h2
    rw [if_neg h1, e4]
    simp

end IChunk

/-! ## Lemmas on contiguous Parts -/

theorem contiguous_nil (a b : Nat) : Contiguous a [] b ↔ a = b := Iff.rfl

theorem contiguous_cons (a b : Nat) (p : DomainPart) (ps : List DomainPart) :
    Contiguous a (p :: ps) b ↔ (p._range.from_ = a ∧ a ≤ p._synced ∧
      p._synced ≤ p._range.to_ ∧ Contiguous p._range.to_ ps b) := Iff.rfl

theorem contiguous_append (a b : Nat) (l1 l2 : List DomainPart) :
    Contiguous a (l1 ++ l2) b ↔ ∃ m, Contiguous a l1 m ∧ Contiguous m l2 b := by
  induction l1 generalizing a with
  | nil =>
    simp only [List.nil_append, Contiguous]
    constructor
    · intro h; exact ⟨a, rfl, h⟩
    · rintro ⟨m, rfl, h⟩; exact h
  | cons p ps ih =>
    rw [List.cons_append, contiguous_cons, ih]
    constructor
    · rintro ⟨h1, h2, h3, m, h4, h5⟩; exact ⟨m, ⟨h1, h2, h3, h4⟩, h5⟩
    · rintro ⟨m, ⟨h1, h2, h3, h4⟩, h5⟩; exact ⟨h1, h2, h3, m, h4, h5⟩

theorem contiguous_le (a b : Nat) (l : List DomainPart) (h : Contiguous a l b) : a ≤ b := by
  induction l generalizing a with
  | nil => exact Nat.le_of_eq h
  | cons p ps ih =>
    obtain ⟨_, h2, h3, h4⟩ := h
    have := ih _ h4
    omega

theorem contiguous_mem (a b : Nat) (l : List DomainPart) (h : Contiguous a l b)
    (p : DomainPart) (hp : p ∈ l) :
    a ≤ p._range.from_ ∧ p._range.from_ ≤ p._synced ∧ p._synced ≤ p._range.to_ ∧
      p._range.to_ ≤ b := by
  induction l generalizing a with
  | nil => cases hp
  | cons q qs ih =>
    obtain ⟨h1, h2, h3, h4⟩ := h
    rcases List.mem_cons.mp hp with rfl | hq
    · have := contiguous_le _ _ _ h4
      omega
    · have := ih _ h4 hq
      omega

theorem contiguous_cover (a b : Nat) (l : List DomainPart) (h : Contiguous a l b) (s : Nat) :
    (∃ p ∈ l, p._range.contains s = true) ↔ (a ≤ s ∧ s < b) := by
  induction l generalizing a with
  | nil =>
    have hab : a = b := h
    simp only [List.not_mem_nil, false_and, exists_false, false_iff]
    omega
  | cons q qs ih =>
    obtain ⟨h1, h2, h3, h4⟩ := h
    have hle := contiguous_le _ _ _ h4
    constructor
    · rintro ⟨p, hp, hc⟩
      rcases List.mem_cons.mp hp with rfl | hp
      · simp only [SerialNumRange.contains, Bool.and_eq_true, decide_eq_true_eq] at hc
        omega
      · have := (ih _ h4).mp ⟨p, hp, hc⟩
        omega
    · intro hs
      by_cases hlt : s < q._range.to_
      · refine ⟨q, List.mem_cons_self _ _, ?_⟩
        simp only [SerialNumRange.contains, Bool.and_eq_true, decide_eq_true_eq]
        omega
      · obtain ⟨p, hp, hc⟩ := (ih _ h4).mpr ⟨by omega, hs.2⟩
        exact ⟨p, List.mem_cons_of_mem _ hp, hc⟩

theorem contiguous_pairwise (a b : Nat) (l : List DomainPart) (h : Contiguous a l b) :
    l.Pairwise (fun p q => p._range.to_ ≤ q._range.from_) := by
  induction l generalizing a with
  | nil => exact List.Pairwise.nil
  | cons q qs ih =>
    obtain ⟨_, _, _, h4⟩ := h
    refine List.Pairwise.cons ?_ (ih _ h4)
    intro x hx
    exact (contiguous_mem _ _ _ h4 x hx).1

theorem contiguous_head (a b : Nat) (l : List DomainPart) (h : Contiguous a l b)
    (p : DomainPart) (hp : l.head? = some p) : p._range.from_ = a := by
  cases l with
  | nil => cases hp
  | cons q qs =>
    simp only [List.head?_cons, Option.some.injEq] at hp
    subst hp
    exact h.1

/-- Removing the Parts that end at or below a bound removes a front segment:
what remains is contiguous up to the same end. -/
theorem contiguous_filter (a b bound : Nat) (l : List DomainPart) (h : Contiguous a l b) :
    ∃ a2, Contiguous a2 (l.filter fun q => ¬ q._range.to_ ≤ bound) b := by
  induction l generalizing a with
  | nil => exact ⟨a, h⟩
  | cons q qs ih =>
    obtain ⟨h1, h2, h3, h4⟩ := h
    by_cases hq : q._range.to_ ≤ bound
    · simp only [List.filter_cons, hq, not_true_eq_false, decide_False, Bool.false_eq_true,
        if_false]
      exact ih _ h4
    · have hall : ∀ x ∈ qs, (decide ¬ x._range.to_ ≤ bound) = true := by
        intro x hx
        have := contiguous_mem _ _ _ h4 x hx
        simp only [decide_eq_true_eq]
        omega
      have hfil : (q :: qs).filter (fun q => ¬ q._range.to_ ≤ bound) = q :: qs := by
        rw [List.filter_eq_self]
        intro x hx
        rcases List.mem_cons.mp hx with rfl | hx
        · simpa using hq
        · exact hall x hx
      rw [hfil]
      exact ⟨a, h1, h2, h3, h4⟩


/-! ## The flush path keeps the Parts consistent -/

theorem rangeOf_consecutive (es : List Entry) (a : Nat)
    (h : es.map Entry.serial = List.range' a es.length) (hne : es ≠ []) :
    IChunk.rangeOf es = ⟨a, a + es.length⟩ := by
  have hlen : es.length ≠ 0 := fun h0 => hne (List.length_eq_zero.mp h0)
  have h1 : (es.map Entry.serial).head? = some a := by
    rw [h, List.head?_range', if_neg hlen]
  have h2 : (es.map Entry.serial).getLast? = some (a + es.length - 1) := by
    rw [h, List.getLast?_range', if_neg hlen]
  rw [List.head?_map] at h1
  rw [List.getLast?_map] at h2
  unfold IChunk.rangeOf
  cases hh : es.head? with
  | none => rw [hh] at h1; cases h1
  | some f =>
    cases hl : es.getLast? with
    | none => rw [hl] at h2; cases h2
    | some l =>
      rw [hh] at h1
      rw [hl] at h2
      simp only [Option.map_some', Option.some.injEq] at h1 h2
      simp only [h1, h2, SerialNumRange.mk.injEq, true_and]
      omega

theorem rotateIfFull_parts (d : Domain) (chunk : List Entry) (ls : Nat)
    (h : PartsInv d._parts chunk ls) : PartsInv d.rotateIfFull._parts chunk ls := by
  obtain ⟨a, ini, p, hp, hc, hid, hch, hls⟩ := h
  have hlast : d._parts.getLast? = some p := by rw [hp]; exact List.getLast?_concat _
  unfold Domain.rotateIfFull
  rw [hlast]
  simp only
  split_ifs with hfull
  · unfold Domain.addPart
    rw [hlast]
    simp only [hp, List.dropLast_concat]
    rw [hp] at hc hid
    obtain ⟨m, hc1, hc2⟩ := (contiguous_append _ _ _ _).mp hc
    obtain ⟨hm1, hm2, hm3, hm4⟩ := hc2
    refine ⟨a, ini ++ [p.sync], DomainPart.create (p._id + 1) p._range.to_, by simp, ?_, ?_,
      hch, hls⟩
    · show Contiguous a (ini ++ [p.sync, DomainPart.create (p._id + 1) p._range.to_]) p._range.to_
      refine (contiguous_append _ _ _ _).mpr ⟨m, hc1, ?_⟩
      refine ⟨hm1, ?_, le_refl _, rfl, le_refl _, le_refl _, rfl⟩
      show m ≤ p._range.to_
      omega
    · rw [List.pairwise_append] at hid ⊢
      obtain ⟨hi1, _, hi3⟩ := hid
      refine ⟨hi1, ?_, ?_⟩
      · refine List.Pairwise.cons ?_ (List.pairwise_singleton _ _)
        intro x hx
        rw [List.mem_singleton] at hx
        subst hx
        show p._id < p._id + 1
        omega
      · intro x hx y hy
        have hxp := hi3 x hx p (List.mem_singleton_self _)
        simp only [List.mem_cons, List.mem_singleton, List.not_mem_nil, or_false] at hy
        rcases hy with rfl | rfl
        · exact hxp
        · show x._id < p._id + 1
          omega
  · exact ⟨a, ini, p, hp, hc, hid, hch, hls⟩

theorem addAll_create_entries (e : Encoding) (lvl : Nat) (es : List Entry) :
    ((IChunk.create e lvl).addAll es)._entries = es := by
  rw [(IChunk.addAll_entries _ _).1]
  rfl

theorem doCommit_parts (c : Codec) (d : Domain) (chunk : List Entry) (ls : Nat)
    (h : PartsInv d._parts chunk ls) : PartsInv (d.doCommit c chunk)._parts [] ls := by
  unfold Domain.doCommit
  split_ifs with hne
  · subst hne
    exact h
  · have h1 := rotateIfFull_parts d chunk ls h
    obtain ⟨a, ini, p, hp, hc, hid, hch, hls⟩ := h1
    have hlast : d.rotateIfFull._parts.getLast? = some p := by
      rw [hp]; exact List.getLast?_concat _
    simp only [hlast]
    simp only [hp, List.dropLast_concat]
    rw [hp] at hc hid
    obtain ⟨m, hc1, hc2⟩ := (contiguous_append _ _ _ _).mp hc
    obtain ⟨hm1, hm2, hm3, hm4⟩ := hc2
    have hr : (IChunk.range ((IChunk.create d.rotateIfFull._config.getEncoding
        d.rotateIfFull._config.getCompressionlevel).addAll chunk)) =
        ⟨p._range.to_, p._range.to_ + chunk.length⟩ := by
      unfold IChunk.range
      rw [addAll_create_entries]
      exact rangeOf_consecutive chunk _ hch hne
    rw [hr]
    refine ⟨a, ini, _, rfl, ?_, ?_, ?_, ?_⟩
    · refine (contiguous_append _ _ _ _).mpr ⟨m, hc1, ?_⟩
      refine ⟨hm1, hm2, ?_, rfl⟩
      show p._synced ≤ p._range.to_ + chunk.length
      omega
    · rw [List.pairwise_append] at hid ⊢
      obtain ⟨hi1, _, hi3⟩ := hid
      refine ⟨hi1, List.pairwise_singleton _ _, ?_⟩
      intro x hx y hy
      rw [List.mem_singleton] at hy
      subst hy
      exact hi3 x hx p (List.mem_singleton_self _)
    · rfl
    · show ls + 1 = p._range.to_ + chunk.length + 0
      omega


theorem doCommit_fields (c : Codec) (d : Domain) (chunk : List Entry) :
    (d.doCommit c chunk)._currentChunk = d._currentChunk ∧
      (d.doCommit c chunk)._lastSerial = d._lastSerial ∧
      (d.doCommit c chunk)._sessions = d._sessions ∧
      (d.doCommit c chunk)._config = d._config := by
  have hrot : d.rotateIfFull._currentChunk = d._currentChunk ∧
      d.rotateIfFull._lastSerial = d._lastSerial ∧
      d.rotateIfFull._sessions = d._sessions ∧ d.rotateIfFull._config = d._config := by
    unfold Domain.rotateIfFull Domain.addPart
    cases d._parts.getLast? with
    | none => exact ⟨rfl, rfl, rfl, rfl⟩
    | some p =>
      simp only
      split_ifs
      · exact ⟨rfl, rfl, rfl, rfl⟩
      · exact ⟨rfl, rfl, rfl, rfl⟩
  unfold Domain.doCommit
  split_ifs
  · exact ⟨rfl, rfl, rfl, rfl⟩
  · simp only
    cases d.rotateIfFull._parts.getLast? with
    | none => exact hrot
    | some p => exact hrot

theorem flush_fields (c : Codec) (d : Domain) :
    (d.flush c)._currentChunk = [] ∧ (d.flush c)._lastSerial = d._lastSerial ∧
      (d.flush c)._sessions = d._sessions ∧ (d.flush c)._config = d._config := by
  unfold Domain.flush
  exact doCommit_fields c _ _

theorem flush_inv (c : Codec) (d : Domain) (h : d.Inv) : (d.flush c).Inv := by
  obtain ⟨h1, h2, h3⟩ := h
  obtain ⟨f1, f2, f3, _⟩ := flush_fields c d
  refine ⟨?_, ?_, ?_⟩
  · rw [f1, f2]
    unfold Domain.flush
    exact doCommit_parts c _ _ _ h1
  · rw [f2]; exact h2
  · rw [f3]; exact h3

theorem create_inv (cfg : DomainConfig) : (Domain.create cfg).Inv := by
  refine ⟨⟨1, [], DomainPart.create 0 1, rfl, ?_, ?_, rfl, rfl⟩, ?_, ?_⟩
  · exact ⟨rfl, le_refl _, le_refl _, rfl⟩
  · exact List.pairwise_singleton _ _
  · show 0 + 1 ≤ SerialNum.max
    unfold SerialNum.max
    omega
  · intro s hs
    cases hs

theorem commitIfFull_inv (c : Codec) (d : Domain) (h : d.Inv) : (d.commitIfFull c).Inv := by
  unfold Domain.commitIfFull
  split_ifs
  · exact flush_inv c d h
  · exact h

theorem chunkAdd_inv (d : Domain) (packet : List Entry) (hok : d.packetOk packet = true)
    (h : d.Inv) : (d.chunkAdd packet).Inv := by
  obtain ⟨⟨a, ini, p, hp, hc, hid, hch, hls⟩, h2, h3⟩ := h
  simp only [Domain.packetOk, Domain.end_, Bool.and_eq_true, decide_eq_true_eq] at hok
  obtain ⟨hk1, hk2⟩ := hok
  refine ⟨⟨a, ini, p, hp, hc, hid, ?_, ?_⟩, ?_, h3⟩
  · show (d._currentChunk ++ packet).map Entry.serial =
      List.range' p._range.to_ (d._currentChunk ++ packet).length
    rw [List.map_append, List.length_append, hch, hk1, hls, List.range'_append_1,
      Nat.add_comm]
  · show d._lastSerial + packet.length + 1 = p._range.to_ + (d._currentChunk ++ packet).length
    rw [List.length_append]
    omega
  · show d._lastSerial + packet.length + 1 ≤ SerialNum.max
    omega

theorem commit_inv (c : Codec) (d : Domain) (packet : List Entry) (h : d.Inv) :
    (d.commit c packet).1.Inv := by
  unfold Domain.commit
  split_ifs with hok
  · exact commitIfFull_inv c _ (chunkAdd_inv d packet hok h)
  · exact h

theorem commitIfStale_inv (c : Codec) (d : Domain) (age : Int) (h : d.Inv) :
    (d.commitIfStale c age).Inv := by
  unfold Domain.commitIfStale
  split_ifs
  · exact flush_inv c d h
  · exact h

theorem triggerSyncNow_inv (c : Codec) (d : Domain) (h : d.Inv) :
    (d.triggerSyncNow c).Inv := flush_inv c d h

theorem sync_inv (d : Domain) (h : d.Inv) : d.sync.Inv := by
  obtain ⟨⟨a, ini, p, hp, hc, hid, hch, hls⟩, h2, h3⟩ := h
  have hlast : d._parts.getLast? = some p := by rw [hp]; exact List.getLast?_concat _
  unfold Domain.sync
  split_ifs
  · rw [hlast]
    simp only [hp, List.dropLast_concat]
    rw [hp] at hc hid
    obtain ⟨m, hc1, hc2⟩ := (contiguous_append _ _ _ _).mp hc
    obtain ⟨hm1, hm2, hm3, hm4⟩ := hc2
    refine ⟨⟨a, ini, p.sync, rfl, ?_, ?_, hch, hls⟩, h2, h3⟩
    · refine (contiguous_append _ _ _ _).mpr ⟨m, hc1, ?_⟩
      refine ⟨hm1, ?_, le_refl _, rfl⟩
      show m ≤ p._range.to_
      omega
    · rw [List.pairwise_append] at hid ⊢
      obtain ⟨hi1, _, hi3⟩ := hid
      refine ⟨hi1, List.pairwise_singleton _ _, ?_⟩
      intro x hx y hy
      rw [List.mem_singleton] at hy
      subst hy
      exact hi3 x hx p (List.mem_singleton_self _)
  · exact ⟨⟨a, ini, p, hp, hc, hid, hch, hls⟩, h2, h3⟩

theorem erase_inv (d : Domain) (t : Nat) (h : d.Inv) : (d.erase t).Inv := by
  obtain ⟨⟨a, ini, p, hp, hc, hid, hch, hls⟩, h2, h3⟩ := h
  have hlast : d._parts.getLast? = some p := by rw [hp]; exact List.getLast?_concat _
  unfold Domain.erase
  simp only [hlast]
  simp only [hp, List.dropLast_concat]
  rw [hp] at hc hid
  obtain ⟨m, hc1, hc2⟩ := (contiguous_append _ _ _ _).mp hc
  obtain ⟨a2, hf⟩ := contiguous_filter a m (min t d.findOldestActiveVisit) ini hc1
  refine ⟨⟨a2, _, p, rfl, ?_, ?_, hch, hls⟩, h2, h3⟩
  · exact (contiguous_append _ _ _ _).mpr ⟨m, hf, hc2⟩
  · rw [List.pairwise_append] at hid ⊢
    obtain ⟨hi1, hi2, hi3⟩ := hid
    refine ⟨hi1.filter _, hi2, ?_⟩
    intro x hx y hy
    exact hi3 x (List.mem_of_mem_filter hx) y hy

theorem visit_inv (d : Domain) (f t : Nat) (h : d.Inv) : (d.visit f t).1.Inv := by
  obtain ⟨h1, h2, h3⟩ := h
  unfold Domain.visit
  simp only
  split_ifs with hft
  · refine ⟨h1, h2, ?_⟩
    intro s hs
    simp only [List.mem_append, List.mem_singleton] at hs
    rcases hs with hs | rfl
    · exact h3 s hs
    · refine ⟨hft, ?_⟩
      show t % 2 ^ 64 ≤ SerialNum.max
      unfold SerialNum.max
      omega
  · exact ⟨h1, h2, h3⟩

theorem startSession_inv (d : Domain) (i : Int) (h : d.Inv) : (d.startSession i).1.Inv := by
  obtain ⟨h1, h2, h3⟩ := h
  unfold Domain.startSession
  split_ifs
  · refine ⟨h1, h2, ?_⟩
    intro s hs
    simp only [List.mem_map] at hs
    obtain ⟨s0, hs0, rfl⟩ := hs
    split_ifs
    · exact h3 s0 hs0
    · exact h3 s0 hs0
  · exact ⟨h1, h2, h3⟩

theorem runSession_inv (c : Codec) (d : Domain) (i : Int) (h : d.Inv) :
    (d.runSession c i).Inv := by
  obtain ⟨h1, h2, h3⟩ := h
  unfold Domain.runSession
  refine ⟨h1, h2, ?_⟩
  intro s hs
  simp only [List.mem_map] at hs
  obtain ⟨s0, hs0, rfl⟩ := hs
  split_ifs
  · rcases hv : d.visitEntries c s0._range with ⟨es, ok⟩
    cases ok
    · exact h3 s0 hs0
    · exact h3 s0 hs0
  · exact h3 s0 hs0

theorem closeSession_inv (d : Domain) (i : Int) (h : d.Inv) : (d.closeSession i).1.Inv := by
  obtain ⟨h1, h2, h3⟩ := h
  unfold Domain.closeSession
  split_ifs
  · exact ⟨h1, h2, fun s hs => h3 s (List.mem_of_mem_filter hs)⟩
  · exact ⟨h1, h2, h3⟩

theorem cleanSessions_inv (d : Domain) (h : d.Inv) : d.cleanSessions.Inv := by
  obtain ⟨h1, h2, h3⟩ := h
  exact ⟨h1, h2, fun s hs => h3 s (List.mem_of_mem_filter hs)⟩

theorem step_inv (c : Codec) (d : Domain) (op : Op) (h : d.Inv) : (d.step c op).Inv := by
  cases op with
  | commit packet => exact commit_inv c d packet h
  | commitIfStale age => exact commitIfStale_inv c d age h
  | triggerSyncNow => exact triggerSyncNow_inv c d h
  | sync => exact sync_inv d h
  | erase t => exact erase_inv d t h
  | visit f t => exact visit_inv d f t h
  | startSession i => exact startSession_inv d i h
  | runSession i => exact runSession_inv c d i h
  | closeSession i => exact closeSession_inv d i h
  | cleanSessions => exact cleanSessions_inv d h
  | setConfig cfg => exact h

theorem run_inv (c : Codec) (d : Domain) (ops : List Op) (h : d.Inv) : (d.run c ops).Inv := by
  induction ops generalizing d with
  | nil => exact h
  | cons op ops ih => exact ih _ (step_inv c d op h)

theorem reachable_inv (c : Codec) (cfg : DomainConfig) (ops : List Op) :
    ((Domain.create cfg).run c ops).Inv :=
  run_inv c _ ops (create_inv cfg)


/-! ## Consequences of the invariant -/

theorem inv_begin (d : Domain) (a : Nat) (ini : List DomainPart) (p : DomainPart)
    (hp : d._parts = ini ++ [p]) (hc : Contiguous a d._parts p._range.to_) : d.begin = a := by
  unfold Domain.begin
  cases hh : d._parts.head? with
  | none =>
    rw [hp] at hh
    cases ini <;> simp at hh
  | some q => exact contiguous_head _ _ _ hc q hh

theorem inv_getSynced (d : Domain) (ini : List DomainPart) (p : DomainPart)
    (hp : d._parts = ini ++ [p]) : d.getSynced = p._synced := by
  unfold Domain.getSynced
  rw [hp, List.getLast?_concat]

theorem inv_begin_synced_end (d : Domain) (h : d.Inv) :
    d.begin ≤ d.getSynced ∧ d.getSynced ≤ d.end_ := by
  obtain ⟨⟨a, ini, p, hp, hc, _, _, hls⟩, _, _⟩ := h
  rw [inv_begin d a ini p hp hc, inv_getSynced d ini p hp]
  have hm := contiguous_mem _ _ _ hc p (by rw [hp]; simp)
  unfold Domain.end_
  omega

theorem rangeOf_nil_contains (s : Nat) : (IChunk.rangeOf []).contains s = false := by
  simp [IChunk.rangeOf, SerialNumRange.contains]

theorem inv_cover (d : Domain) (h : d.Inv) (s : Nat) :
    ((∃ p ∈ d._parts, p._range.contains s = true) ∨
      (IChunk.rangeOf d._currentChunk).contains s = true) ↔ (d.begin ≤ s ∧ s < d.end_) := by
  obtain ⟨⟨a, ini, p, hp, hc, _, hch, hls⟩, _, _⟩ := h
  rw [inv_begin d a ini p hp hc, contiguous_cover _ _ _ hc s]
  have hle := contiguous_le _ _ _ hc
  unfold Domain.end_
  by_cases hne : d._currentChunk = []
  · rw [hne] at hls ⊢
    rw [rangeOf_nil_contains]
    simp only [List.length_nil, Nat.add_zero] at hls
    simp only [Bool.false_eq_true, or_false]
    omega
  · rw [rangeOf_consecutive _ _ hch hne]
    simp only [SerialNumRange.contains, Bool.and_eq_true, decide_eq_true_eq]
    omega

theorem inv_findPart_none (d : Domain) (h : d.Inv) (s : Nat)
    (hs : s < d.begin ∨ d.end_ ≤ s) : d.findPart s = Option.none := by
  unfold Domain.findPart
  rw [List.find?_eq_none]
  intro x hx hcon
  have := (inv_cover d h s).mp (Or.inl ⟨x, hx, hcon⟩)
  omega

theorem inv_findPart_some (d : Domain) (h : d.Inv) (s : Nat) (p : DomainPart)
    (hp : p ∈ d._parts) (hcon : p._range.contains s = true) : d.findPart s = some p := by
  obtain ⟨⟨a, ini, q, _, hc, _, _, _⟩, _, _⟩ := h
  have hpw := contiguous_pairwise _ _ _ hc
  have hpw2 : d._parts.Pairwise (fun x y => x._range.to_ ≤ y._range.from_ ∨
      y._range.to_ ≤ x._range.from_) := hpw.imp (fun hxy => Or.inl hxy)
  have hsymm : Symmetric (fun x y : DomainPart => x._range.to_ ≤ y._range.from_ ∨
      y._range.to_ ≤ x._range.from_) := fun x y hxy => hxy.symm
  unfold Domain.findPart
  cases hf : d._parts.find? (fun p => p._range.contains s) with
  | none =>
    rw [List.find?_eq_none] at hf
    exact absurd hcon (hf p hp)
  | some r =>
    have hr1 := List.find?_some hf
    have hr2 := List.mem_of_find?_eq_some hf
    by_cases hrp : r = p
    · rw [hrp]
    · have := hpw2.forall hsymm hr2 hp hrp
      simp only [SerialNumRange.contains, Bool.and_eq_true, decide_eq_true_eq] at hr1 hcon
      omega

/-! ## The oldest active visit -/

theorem foldl_oldest_le (l : List Session) (acc : Nat) :
    (l.foldl (fun oldest s => if s.active then min oldest s._range.from_ else oldest) acc ≤ acc) ∧
    ∀ s ∈ l, s.active = true →
      l.foldl (fun oldest s => if s.active then min oldest s._range.from_ else oldest) acc
        ≤ s._range.from_ := by
  induction l generalizing acc with
  | nil => exact ⟨le_refl _, fun s hs => by cases hs⟩
  | cons x xs ih =>
    rw [List.foldl_cons]
    obtain ⟨i1, i2⟩ := ih (if x.active then min acc x._range.from_ else acc)
    have hstep : (if x.active then min acc x._range.from_ else acc) ≤ acc := by
      split_ifs
      · exact Nat.min_le_left _ _
      · exact le_refl _
    refine ⟨le_trans i1 hstep, ?_⟩
    intro s hs hact
    rcases List.mem_cons.mp hs with rfl | hs
    · refine le_trans i1 ?_
      rw [if_pos hact]
      exact Nat.min_le_right _ _
    · exact i2 s hs hact

theorem foldl_oldest_attained (l : List Session) (acc : Nat) :
    l.foldl (fun oldest s => if s.active then min oldest s._range.from_ else oldest) acc = acc ∨
    ∃ s ∈ l, s.active = true ∧ s._range.from_ =
      l.foldl (fun oldest s => if s.active then min oldest s._range.from_ else oldest) acc := by
  induction l generalizing acc with
  | nil => exact Or.inl rfl
  | cons x xs ih =>
    rw [List.foldl_cons]
    rcases ih (if x.active then min acc x._range.from_ else acc) with h | ⟨s, hs, ha, he⟩
    · rw [h]
      by_cases hx : x.active = true
      · rw [if_pos hx]
        rcases Nat.le_total acc x._range.from_ with hle | hle
        · left; exact Nat.min_eq_left hle
        · right
          exact ⟨x, List.mem_cons_self _ _, hx, (Nat.min_eq_right hle).symm⟩
      · rw [if_neg hx]
        exact Or.inl rfl
    · exact Or.inr ⟨s, List.mem_cons_of_mem _ hs, ha, he⟩

theorem foldl_oldest_inactive (l : List Session) (acc : Nat)
    (h : ∀ s ∈ l, s.active = false) :
    l.foldl (fun oldest s => if s.active then min oldest s._range.from_ else oldest) acc
      = acc := by
  induction l generalizing acc with
  | nil => rfl
  | cons x xs ih =>
    rw [List.foldl_cons, h x (List.mem_cons_self _ _)]
    simp only [Bool.false_eq_true, if_false]
    exact ih acc (fun s hs => h s (List.mem_cons_of_mem _ hs))

theorem inv_findOldestActiveVisit (d : Domain) (h : d.Inv) :
    ((∀ s ∈ d._sessions, s.active = false) → d.findOldestActiveVisit = SerialNum.max) ∧
    ((∃ s ∈ d._sessions, s.active = true) →
      (∃ s ∈ d._sessions, s.active = true ∧ s._range.from_ = d.findOldestActiveVisit) ∧
      ∀ s ∈ d._sessions, s.active = true → d.findOldestActiveVisit ≤ s._range.from_) := by
  obtain ⟨_, _, h3⟩ := h
  unfold Domain.findOldestActiveVisit
  refine ⟨foldl_oldest_inactive _ _, ?_⟩
  rintro ⟨s, hs, hact⟩
  obtain ⟨l1, l2⟩ := foldl_oldest_le d._sessions SerialNum.max
  refine ⟨?_, l2⟩
  rcases foldl_oldest_attained d._sessions SerialNum.max with he | hex
  · refine ⟨s, hs, hact, ?_⟩
    have hb := h3 s hs
    have hle := l2 s hs hact
    rw [he] at hle ⊢
    omega
  · exact hex

/-! ## Erase -/

theorem erase_parts (d : Domain) (t : Nat) (ini : List DomainPart) (p : DomainPart)
    (hp : d._parts = ini ++ [p]) :
    (d.erase t)._parts =
      (ini.filter fun q => ¬ q._range.to_ ≤ min t d.findOldestActiveVisit) ++ [p] := by
  unfold Domain.erase
  have hlast : d._parts.getLast? = some p := by rw [hp]; exact List.getLast?_concat _
  simp only [hlast]
  rw [hp, List.dropLast_concat]

theorem erase_parts_nil (d : Domain) (t : Nat) (hp : d._parts = []) :
    (d.erase t)._parts = d._parts := by
  unfold Domain.erase
  simp only [hp, List.getLast?_nil]

theorem parts_split (l : List DomainPart) : l = [] ∨ ∃ ini p, l = ini ++ [p] := by
  rcases List.eq_nil_or_concat l with h | ⟨ini, p, h⟩
  · exact Or.inl h
  · exact Or.inr ⟨ini, p, by rw [h, List.concat_eq_append]⟩


/-! ## The files of the Parts decode to the committed entries -/

theorem scan_append_record (c : Codec) (l : List (List Byte)) (r : List Byte)
    (es ch : List Entry) (h : DomainPart.scan c l = (es, true))
    (hr : IChunk.decode c r = Except.ok ch) :
    DomainPart.scan c (l ++ [r]) = (es ++ ch, true) := by
  induction l generalizing es with
  | nil =>
    simp only [DomainPart.scan, Prod.mk.injEq, and_true] at h
    subst h
    simp [DomainPart.scan, hr]
  | cons x xs ih =>
    rw [List.cons_append]
    unfold DomainPart.scan at h ⊢
    cases hx : IChunk.decode c x with
    | error e =>
      rw [hx] at h
      simp at h
    | ok xe =>
      rw [hx] at h
      simp only [Prod.mk.injEq] at h
      obtain ⟨h1, h2⟩ := h
      have := ih (DomainPart.scan c xs).1 (by rw [← h2])
      simp only [this, Prod.mk.injEq, and_true]
      rw [← h1, List.append_assoc]

theorem rotateIfFull_config (d : Domain) : d.rotateIfFull._config = d._config := by
  unfold Domain.rotateIfFull Domain.addPart
  cases d._parts.getLast? with
  | none => rfl
  | some p =>
    simp only
    split_ifs
    · rfl
    · rfl

theorem rotateIfFull_files (c : Codec) (d : Domain)
    (h : ∀ p ∈ d._parts, ∃ es, DomainPart.scan c p._file = (es, true) ∧
      es.map Entry.serial = List.range' p._range.from_ (p._range.to_ - p._range.from_)) :
    ∀ p ∈ d.rotateIfFull._parts, ∃ es, DomainPart.scan c p._file = (es, true) ∧
      es.map Entry.serial = List.range' p._range.from_ (p._range.to_ - p._range.from_) := by
  unfold Domain.rotateIfFull Domain.addPart
  cases hl : d._parts.getLast? with
  | none => exact h
  | some q =>
    simp only
    split_ifs
    · simp only
      obtain ⟨ini, hq⟩ := List.getLast?_eq_some_iff.mp hl
      rw [hq, List.dropLast_concat]
      intro p hp
      simp only [List.mem_append, List.mem_cons, List.mem_singleton, List.not_mem_nil,
        or_false] at hp
      rcases hp with hp | rfl | rfl
      · exact h p (by rw [hq]; exact List.mem_append_left _ hp)
      · exact h q (by rw [hq]; simp)
      · exact ⟨[], rfl, by simp [DomainPart.create]⟩
    · exact h

theorem doCommit_files (c : Codec) (hc : c.Lossless) (d : Domain) (chunk : List Entry)
    (ls : Nat) (hinv : PartsInv d._parts chunk ls) (hls : ls + 1 ≤ SerialNum.max)
    (hsup : d._config._encoding.Supported) (hrep : ∀ e ∈ chunk, e.Representable)
    (h : ∀ p ∈ d._parts, ∃ es, DomainPart.scan c p._file = (es, true) ∧
      es.map Entry.serial = List.range' p._range.from_ (p._range.to_ - p._range.from_)) :
    ∀ p ∈ (d.doCommit c chunk)._parts, ∃ es, DomainPart.scan c p._file = (es, true) ∧
      es.map Entry.serial = List.range' p._range.from_ (p._range.to_ - p._range.from_) := by
  unfold Domain.doCommit
  split_ifs with hne
  · exact h
  · have h1 := rotateIfFull_parts d chunk ls hinv
    have h2 := rotateIfFull_files c d h
    obtain ⟨a, ini, q, hq, hcq, _, hch, hlsq⟩ := h1
    have hlast : d.rotateIfFull._parts.getLast? = some q := by
      rw [hq]; exact List.getLast?_concat _
    simp only [hlast]
    rw [hq, List.dropLast_concat]
    have hqm := contiguous_mem _ _ _ hcq q (by rw [hq]; simp)
    have hr : (IChunk.range ((IChunk.create d.rotateIfFull._config.getEncoding
        d.rotateIfFull._config.getCompressionlevel).addAll chunk)) =
        ⟨q._range.to_, q._range.to_ + chunk.length⟩ := by
      unfold IChunk.range
      rw [addAll_create_entries]
      exact rangeOf_consecutive chunk _ hch hne
    have hdec : IChunk.decode c (IChunk.encode c ((IChunk.create d.rotateIfFull._config.getEncoding
        d.rotateIfFull._config.getCompressionlevel).addAll chunk)).2 = Except.ok chunk := by
      have hent := addAll_create_entries d.rotateIfFull._config.getEncoding
        d.rotateIfFull._config.getCompressionlevel chunk
      have henc : ((IChunk.create d.rotateIfFull._config.getEncoding
          d.rotateIfFull._config.getCompressionlevel).addAll chunk).encoding =
          d._config._encoding := by
        rw [(IChunk.addAll_entries _ _).2.1]
        show d.rotateIfFull._config._encoding = _
        rw [rotateIfFull_config]
      have := IChunk.decode_encode c hc ((IChunk.create d.rotateIfFull._config.getEncoding
        d.rotateIfFull._config.getCompressionlevel).addAll chunk)
        (by rw [henc]; exact hsup.1) (by rw [henc]; exact hsup.2.1)
        (by rw [henc]; exact hsup.2.2) (by rw [hent]; exact hrep)
        (by
          rw [hent]
          unfold SerialNum.max at hls
          omega)
      rw [this, hent]
    intro p hp
    simp only [List.mem_append, List.mem_singleton] at hp
    rcases hp with hp | rfl
    · exact h2 p (by rw [hq]; exact List.mem_append_left _ hp)
    · obtain ⟨es, he1, he2⟩ := h2 q (by rw [hq]; simp)
      refine ⟨es ++ chunk, scan_append_record c _ _ es chunk he1 hdec, ?_⟩
      rw [hr]
      show (es ++ chunk).map Entry.serial =
        List.range' q._range.from_ (q._range.to_ + chunk.length - q._range.from_)
      rw [List.map_append, he2, hch]
      have e1 : q._range.to_ = q._range.from_ + (q._range.to_ - q._range.from_) := by omega
      have e2 : q._range.to_ + chunk.length - q._range.from_ =
          chunk.length + (q._range.to_ - q._range.from_) := by omega
      rw [e2]
      nth_rewrite 2 [e1]
      rw [List.range'_append_1]


theorem flush_files (c : Codec) (hc : c.Lossless) (d : Domain) (h : d.Inv)
    (hf : d.FilesInv c) : (d.flush c).FilesInv c := by
  obtain ⟨h1, h2, _⟩ := h
  obtain ⟨f1, f2, f3⟩ := hf
  obtain ⟨g1, _, _, g4⟩ := flush_fields c d
  refine ⟨by rw [g4]; exact f1, ?_, ?_⟩
  · rw [g1]
    intro e he
    cases he
  · unfold Domain.flush
    exact doCommit_files c hc _ _ d._lastSerial h1 h2 f1 f2 f3

theorem create_files (c : Codec) (cfg : DomainConfig) (hcfg : cfg._encoding.Supported) :
    (Domain.create cfg).FilesInv c := by
  refine ⟨hcfg, ?_, ?_⟩
  · intro e he
    cases he
  · intro p hp
    have hp2 : p = DomainPart.create 0 1 := by
      simpa [Domain.create, Domain.addPart] using hp
    subst hp2
    exact ⟨[], rfl, rfl⟩

theorem chunkAdd_files (c : Codec) (d : Domain) (packet : List Entry)
    (hwf : ∀ e ∈ packet, e.payload.length < 2 ^ 64) (hok : d.packetOk packet = true)
    (hf : d.FilesInv c) : (d.chunkAdd packet).FilesInv c := by
  obtain ⟨f1, f2, f3⟩ := hf
  refine ⟨f1, ?_, f3⟩
  intro e he
  rcases List.mem_append.mp he with he | he
  · exact f2 e he
  · simp only [Domain.packetOk, Domain.end_, Bool.and_eq_true, decide_eq_true_eq] at hok
    obtain ⟨hk1, hk2⟩ := hok
    have hs : e.serial ∈ List.range' (d._lastSerial + 1) packet.length := by
      rw [← hk1]
      exact List.mem_map_of_mem _ he
    rw [List.mem_range'_1] at hs
    refine ⟨?_, hwf e he⟩
    unfold SerialNum.max at hk2
    omega

theorem commit_files (c : Codec) (hc : c.Lossless) (d : Domain) (packet : List Entry)
    (hwf : ∀ e ∈ packet, e.payload.length < 2 ^ 64) (h : d.Inv) (hf : d.FilesInv c) :
    (d.commit c packet).1.FilesInv c := by
  unfold Domain.commit
  split_ifs with hok
  · show (Domain.commitIfFull c (d.chunkAdd packet)).FilesInv c
    unfold Domain.commitIfFull
    split_ifs
    · exact flush_files c hc _ (chunkAdd_inv d packet hok h) (chunkAdd_files c d packet hwf hok hf)
    · exact chunkAdd_files c d packet hwf hok hf
  · exact hf

theorem sync_files (c : Codec) (d : Domain) (hf : d.FilesInv c) : d.sync.FilesInv c := by
  obtain ⟨f1, f2, f3⟩ := hf
  unfold Domain.sync
  split_ifs
  · cases hl : d._parts.getLast? with
    | none => exact ⟨f1, f2, f3⟩
    | some q =>
      obtain ⟨ini, hq⟩ := List.getLast?_eq_some_iff.mp hl
      refine ⟨f1, f2, ?_⟩
      simp only
      rw [hq, List.dropLast_concat]
      intro p hp
      simp only [List.mem_append, List.mem_singleton] at hp
      rcases hp with hp | rfl
      · exact f3 p (by rw [hq]; exact List.mem_append_left _ hp)
      · exact f3 q (by rw [hq]; simp)
  · exact ⟨f1, f2, f3⟩

theorem erase_files (c : Codec) (d : Domain) (t : Nat) (hf : d.FilesInv c) :
    (d.erase t).FilesInv c := by
  obtain ⟨f1, f2, f3⟩ := hf
  rcases parts_split d._parts with hnil | ⟨ini, q, hq⟩
  · refine ⟨?_, ?_, ?_⟩
    · unfold Domain.erase; cases d._parts.getLast? <;> exact f1
    · unfold Domain.erase; cases d._parts.getLast? <;> exact f2
    · rw [erase_parts_nil d t hnil]; exact f3
  · refine ⟨?_, ?_, ?_⟩
    · unfold Domain.erase; cases d._parts.getLast? <;> exact f1
    · unfold Domain.erase; cases d._parts.getLast? <;> exact f2
    · rw [erase_parts d t ini q hq]
      intro p hp
      simp only [List.mem_append, List.mem_singleton] at hp
      rcases hp with hp | rfl
      · exact f3 p (by rw [hq]; exact List.mem_append_left _ (List.mem_of_mem_filter hp))
      · exact f3 p (by rw [hq]; simp)

theorem step_files (c : Codec) (hc : c.Lossless) (d : Domain) (op : Op) (hwf : op.WellFormed)
    (h : d.Inv) (hf : d.FilesInv c) : (d.step c op).FilesInv c := by
  cases op with
  | commit packet => exact commit_files c hc d packet hwf h hf
  | commitIfStale age =>
    show (d.commitIfStale c age).FilesInv c
    unfold Domain.commitIfStale
    split_ifs
    · exact flush_files c hc d h hf
    · exact hf
  | triggerSyncNow =>
    have := flush_files c hc d h hf
    exact this
  | sync => exact sync_files c d hf
  | erase t => exact erase_files c d t hf
  | visit f t =>
    show (d.visit f t).1.FilesInv c
    unfold Domain.visit
    simp only
    split_ifs
    · exact hf
    · exact hf
  | startSession i =>
    show (d.startSession i).1.FilesInv c
    unfold Domain.startSession
    split_ifs
    · exact hf
    · exact hf
  | runSession i => exact hf
  | closeSession i =>
    show (d.closeSession i).1.FilesInv c
    unfold Domain.closeSession
    split_ifs
    · exact hf
    · exact hf
  | cleanSessions => exact hf
  | setConfig cfg => exact ⟨hwf, hf.2.1, hf.2.2⟩

theorem run_files (c : Codec) (hc : c.Lossless) (d : Domain) (ops : List Op)
    (hwf : ∀ op ∈ ops, op.WellFormed) (h : d.Inv) (hf : d.FilesInv c) :
    (d.run c ops).Inv ∧ (d.run c ops).FilesInv c := by
  induction ops generalizing d with
  | nil => exact ⟨h, hf⟩
  | cons op ops ih =>
    exact ih _ (fun o ho => hwf o (List.mem_cons_of_mem _ ho)) (step_inv c d op h)
      (step_files c hc d op (hwf op (List.mem_cons_self _ _)) h hf)


/-! ## Visit -/

theorem visitParts_eq (c : Codec) (r : SerialNumRange) (l : List DomainPart)
    (h : ∀ p ∈ l, ∃ es, DomainPart.scan c p._file = (es, true) ∧
      es.map Entry.serial = List.range' p._range.from_ (p._range.to_ - p._range.from_)) :
    Domain.visitParts c r l =
      (((l.map fun p => (DomainPart.scan c p._file).1).flatten.filter
        fun e => r.contains e.serial), true) := by
  induction l with
  | nil => rfl
  | cons p ps ih =>
    have ihp := ih (fun x hx => h x (List.mem_cons_of_mem _ hx))
    obtain ⟨es, he1, he2⟩ := h p (List.mem_cons_self _ _)
    unfold Domain.visitParts
    rw [ihp]
    simp only [List.map_cons, List.flatten_cons, List.filter_append]
    split_ifs with hov
    · simp only [DomainPart.readRange, he1]
    · rw [he1]
      have hnone : es.filter (fun e => r.contains e.serial) = [] := by
        rw [List.filter_eq_nil_iff]
        intro e he
        have hs : e.serial ∈ List.range' p._range.from_ (p._range.to_ - p._range.from_) := by
          rw [← he2]
          exact List.mem_map_of_mem _ he
        rw [List.mem_range'_1] at hs
        simp only [Domain.overlaps, Bool.and_eq_true, decide_eq_true_eq, not_and, not_lt] at hov
        simp only [SerialNumRange.contains, Bool.and_eq_true, decide_eq_true_eq, not_and,
          not_lt]
        intro h1
        by_contra h2
        have := hov (by omega)
        omega
      rw [hnone, List.nil_append]

theorem visitEntries_eq (c : Codec) (d : Domain) (r : SerialNumRange) (h : d.Inv)
    (hf : d.FilesInv c) :
    d.visitEntries c r = ((d.logEntries c).filter (fun e => r.contains e.serial), true) := by
  obtain ⟨⟨a, ini, p, hp, hc, _, hch, hls⟩, _, _⟩ := h
  unfold Domain.visitEntries Domain.logEntries
  rw [visitParts_eq c r d._parts hf.2.2]
  simp only [List.filter_append]
  split_ifs with hov
  · rfl
  · have hnone : d._currentChunk.filter (fun e => r.contains e.serial) = [] := by
      by_cases hne : d._currentChunk = []
      · rw [hne]; rfl
      · rw [rangeOf_consecutive _ _ hch hne] at hov
        rw [List.filter_eq_nil_iff]
        intro e he
        have hs : e.serial ∈ List.range' p._range.to_ d._currentChunk.length := by
          rw [← hch]
          exact List.mem_map_of_mem _ he
        rw [List.mem_range'_1] at hs
        simp only [Domain.overlaps, Bool.and_eq_true, decide_eq_true_eq, not_and, not_lt] at hov
        simp only [SerialNumRange.contains, Bool.and_eq_true, decide_eq_true_eq, not_and,
          not_lt]
        intro h1
        by_contra h2
        have := hov (by omega)
        omega
    rw [hnone, List.append_nil]

theorem parts_entries_serials (c : Codec) (a b : Nat) (l : List DomainPart)
    (hc : Contiguous a l b)
    (h : ∀ p ∈ l, ∃ es, DomainPart.scan c p._file = (es, true) ∧
      es.map Entry.serial = List.range' p._range.from_ (p._range.to_ - p._range.from_)) :
    ((l.map fun p => (DomainPart.scan c p._file).1).flatten).map Entry.serial =
      List.range' a (b - a) := by
  induction l generalizing a with
  | nil =>
    have hab : a = b := hc
    subst hab
    simp
  | cons p ps ih =>
    obtain ⟨h1, h2, h3, h4⟩ := hc
    obtain ⟨es, he1, he2⟩ := h p (List.mem_cons_self _ _)
    have ihp := ih _ h4 (fun x hx => h x (List.mem_cons_of_mem _ hx))
    have hle := contiguous_le _ _ _ h4
    simp only [List.map_cons, List.flatten_cons, List.map_append, he1, he2, ihp]
    rw [h1]
    have e1 : p._range.to_ = a + (p._range.to_ - a) := by omega
    have e2 : b - a = (b - p._range.to_) + (p._range.to_ - a) := by omega
    rw [e2]
    nth_rewrite 2 [e1]
    rw [List.range'_append_1]

theorem logEntries_serials (c : Codec) (d : Domain) (h : d.Inv) (hf : d.FilesInv c) :
    (d.logEntries c).map Entry.serial = List.range' d.begin (d.end_ - d.begin) := by
  obtain ⟨⟨a, ini, p, hp, hc, _, hch, hls⟩, _, _⟩ := h
  rw [inv_begin d a ini p hp hc]
  unfold Domain.logEntries Domain.end_
  rw [List.map_append, parts_entries_serials c a _ _ hc hf.2.2, hch]
  have hle := contiguous_le _ _ _ hc
  have e1 : p._range.to_ = a + (p._range.to_ - a) := by omega
  have e2 : d._lastSerial + 1 - a = d._currentChunk.length + (p._range.to_ - a) := by omega
  rw [e2]
  nth_rewrite 2 [e1]
  rw [List.range'_append_1]

theorem filter_serials_ascending (l : List Entry) (a n : Nat) (q : Entry → Bool)
    (h : l.map Entry.serial = List.range' a n) :
    ((l.filter q).map Entry.serial).Pairwise (fun x y => x < y) := by
  have h1 : (l.map Entry.serial).Pairwise (fun x y => x < y) := by
    rw [h]
    exact List.pairwise_lt_range' a n
  rw [List.pairwise_map] at h1 ⊢
  exact h1.filter q


theorem runSession_delivers (c : Codec) (d : Domain) (h : d.Inv) (hf : d.FilesInv c)
    (s : Session) (hs : s ∈ d._sessions) (hrun : s._state = SessionState.RUNNING) :
    ∃ s2 ∈ (d.runSession c s._id)._sessions, s2._id = s._id ∧ s2._range = s._range ∧
      s2._state = SessionState.COMPLETED ∧
      s2._destination = (d.logEntries c).filter (fun e => s._range.contains e.serial) := by
  refine ⟨{ s with _state := SessionState.COMPLETED,
                   _destination := (d.logEntries c).filter (fun e => s._range.contains e.serial) },
    ?_, rfl, rfl, rfl, rfl⟩
  unfold Domain.runSession
  simp only [List.mem_map]
  refine ⟨s, hs, ?_⟩
  rw [if_pos ⟨rfl, hrun⟩, visitEntries_eq c d s._range h hf]

theorem visit_registers (d : Domain) (f t : Nat) (hft : f ≤ t) (ht : t < 2 ^ 64) :
    (d.visit f t).2 = d._sessionId + 1 ∧
    (d.visit f t).1._parts = d._parts ∧ (d.visit f t).1._currentChunk = d._currentChunk ∧
    (⟨d._sessionId + 1, ⟨f, t⟩, SessionState.CREATED, []⟩ : Session) ∈
      (d.visit f t).1._sessions := by
  have h1 : f % 2 ^ 64 = f := Nat.mod_eq_of_lt (by omega)
  have h2 : t % 2 ^ 64 = t := Nat.mod_eq_of_lt ht
  unfold Domain.visit
  simp only [h1, h2, if_pos hft]
  exact ⟨trivial, trivial, trivial, List.mem_append_right _ (List.mem_singleton_self _)⟩

theorem startSession_starts (d : Domain) (s : Session) (hs : s ∈ d._sessions)
    (hst : s._state = SessionState.CREATED) :
    (d.startSession s._id).2 = 0 ∧
    (d.startSession s._id).1._parts = d._parts ∧
    (d.startSession s._id).1._currentChunk = d._currentChunk ∧
    ({ s with _state := SessionState.RUNNING } : Session) ∈ (d.startSession s._id).1._sessions := by
  have hany : d._sessions.any (fun x => x._id = s._id ∧ x._state = SessionState.CREATED) = true := by
    rw [List.any_eq_true]
    exact ⟨s, hs, by simp [hst]⟩
  unfold Domain.startSession
  rw [if_pos hany]
  refine ⟨rfl, rfl, rfl, ?_⟩
  simp only [List.mem_map]
  exact ⟨s, hs, by rw [if_pos ⟨rfl, hst⟩]⟩

theorem logEntries_congr (c : Codec) (d d2 : Domain) (hp : d2._parts = d._parts)
    (hc : d2._currentChunk = d._currentChunk) : d2.logEntries c = d.logEntries c := by
  unfold Domain.logEntries
  rw [hp, hc]

theorem run_append (c : Codec) (d : Domain) (ops1 ops2 : List Op) :
    d.run c (ops1 ++ ops2) = (d.run c ops1).run c ops2 := by
  unfold Domain.run
  exact List.foldl_append _ _ _ _

theorem contains_eq (f t : Nat) :
    (fun e : Entry => (⟨f, t⟩ : SerialNumRange).contains e.serial) =
      fun e => decide (f ≤ e.serial ∧ e.serial < t) := by
  funext e
  simp [SerialNumRange.contains, Bool.decide_and]


/-! ## The Parts hold the accepted entries -/

theorem scan_append_mem (c : Codec) (l : List (List Byte)) (r : List Byte) (e : Entry)
    (he : e ∈ (DomainPart.scan c (l ++ [r])).1) :
    e ∈ (DomainPart.scan c l).1 ∨ ∃ ch, IChunk.decode c r = Except.ok ch ∧ e ∈ ch := by
  induction l with
  | nil =>
    right
    rw [List.nil_append] at he
    cases hr : IChunk.decode c r with
    | error x =>
      simp [DomainPart.scan, hr] at he
    | ok ch =>
      simp only [DomainPart.scan, hr, List.append_nil] at he
      exact ⟨ch, rfl, he⟩
  | cons x xs ih =>
    rw [List.cons_append] at he
    cases hx : IChunk.decode c x with
    | error y =>
      simp [DomainPart.scan, hx] at he
    | ok xe =>
      have he2 : e ∈ xe ++ (DomainPart.scan c (xs ++ [r])).1 := by
        simpa only [DomainPart.scan, hx] using he
      have hgoal : (DomainPart.scan c (x :: xs)).1 = xe ++ (DomainPart.scan c xs).1 := by
        simp only [DomainPart.scan, hx]
      rw [hgoal]
      rcases List.mem_append.mp he2 with h | h
      · exact Or.inl (List.mem_append_left _ h)
      · rcases ih h with h2 | h2
        · exact Or.inl (List.mem_append_right _ h2)
        · exact Or.inr h2

theorem rotateIfFull_hist (c : Codec) (d : Domain) (H : List Entry)
    (h : ∀ p ∈ d._parts, ∀ e ∈ (DomainPart.scan c p._file).1, e ∈ H) :
    ∀ p ∈ d.rotateIfFull._parts, ∀ e ∈ (DomainPart.scan c p._file).1, e ∈ H := by
  unfold Domain.rotateIfFull Domain.addPart
  cases hl : d._parts.getLast? with
  | none => exact h
  | some q =>
    simp only
    split_ifs
    · simp only
      obtain ⟨ini, hq⟩ := List.getLast?_eq_some_iff.mp hl
      rw [hq, List.dropLast_concat]
      intro p hp
      simp only [List.mem_append, List.mem_cons, List.mem_singleton, List.not_mem_nil,
        or_false] at hp
      rcases hp with hp | rfl | rfl
      · exact h p (by rw [hq]; exact List.mem_append_left _ hp)
      · exact h q (by rw [hq]; simp)
      · intro e he
        simp [DomainPart.create, DomainPart.scan] at he
    · exact h

theorem doCommit_record_decodes (c : Codec) (hc : c.Lossless) (d : Domain)
    (chunk : List Entry) (ls : Nat) (hinv : PartsInv d._parts chunk ls)
    (hls : ls + 1 ≤ SerialNum.max) (hsup : d._config._encoding.Supported)
    (hrep : ∀ e ∈ chunk, e.Representable) :
    IChunk.decode c (IChunk.encode c ((IChunk.create d.rotateIfFull._config.getEncoding
      d.rotateIfFull._config.getCompressionlevel).addAll chunk)).2 = Except.ok chunk := by
  obtain ⟨a, ini, q, hq, hcq, _, hch, hlsq⟩ := hinv
  have hent := addAll_create_entries d.rotateIfFull._config.getEncoding
    d.rotateIfFull._config.getCompressionlevel chunk
  have henc : ((IChunk.create d.rotateIfFull._config.getEncoding
      d.rotateIfFull._config.getCompressionlevel).addAll chunk).encoding =
      d._config._encoding := by
    rw [(IChunk.addAll_entries _ _).2.1]
    show d.rotateIfFull._config._encoding = _
    rw [rotateIfFull_config]
  have := IChunk.decode_encode c hc ((IChunk.create d.rotateIfFull._config.getEncoding
    d.rotateIfFull._config.getCompressionlevel).addAll chunk)
    (by rw [henc]; exact hsup.1) (by rw [henc]; exact hsup.2.1)
    (by rw [henc]; exact hsup.2.2) (by rw [hent]; exact hrep)
    (by
      rw [hent]
      unfold SerialNum.max at hls
      omega)
  rw [this, hent]

theorem doCommit_hist (c : Codec) (hc : c.Lossless) (d : Domain) (chunk : List Entry)
    (ls : Nat) (hinv : PartsInv d._parts chunk ls) (hls : ls + 1 ≤ SerialNum.max)
    (hsup : d._config._encoding.Supported) (hrep : ∀ e ∈ chunk, e.Representable)
    (H : List Entry) (hchunk : ∀ e ∈ chunk, e ∈ H)
    (h : ∀ p ∈ d._parts, ∀ e ∈ (DomainPart.scan c p._file).1, e ∈ H) :
    ∀ p ∈ (d.doCommit c chunk)._parts, ∀ e ∈ (DomainPart.scan c p._file).1, e ∈ H := by
  have hdec := doCommit_record_decodes c hc d chunk ls hinv hls hsup hrep
  unfold Domain.doCommit
  split_ifs with hne
  · exact h
  · have h1 := rotateIfFull_parts d chunk ls hinv
    have h2 := rotateIfFull_hist c d H h
    obtain ⟨a, ini, q, hq, _, _, _, _⟩ := h1
    have hlast : d.rotateIfFull._parts.getLast? = some q := by
      rw [hq]; exact List.getLast?_concat _
    simp only [hlast]
    rw [hq, List.dropLast_concat]
    intro p hp
    simp only [List.mem_append, List.mem_singleton] at hp
    rcases hp with hp | rfl
    · exact h2 p (by rw [hq]; exact List.mem_append_left _ hp)
    · intro e he
      rcases scan_append_mem c q._file _ e he with h3 | ⟨ch, h3, h4⟩
      · exact h2 q (by rw [hq]; simp) e h3
      · rw [hdec] at h3
        cases h3
        exact hchunk e h4

theorem flush_hist (c : Codec) (hc : c.Lossless) (d : Domain) (H : List Entry) (h : d.Inv)
    (hf : d.FilesInv c) (hh : d.HistInv c H) : (d.flush c).HistInv c H := by
  obtain ⟨h1, h2, _⟩ := h
  obtain ⟨f1, f2, _⟩ := hf
  obtain ⟨k1, k2, k3⟩ := hh
  obtain ⟨g1, g2, _, _⟩ := flush_fields c d
  refine ⟨?_, ?_, ?_⟩
  · unfold Domain.flush
    exact doCommit_hist c hc { d with _currentChunk := [] } d._currentChunk d._lastSerial
      h1 h2 f1 f2 H k2 k1
  · rw [g1]
    intro e he
    cases he
  · rw [g2]
    exact k3

theorem chunkAdd_hist (c : Codec) (d : Domain) (packet : List Entry) (H : List Entry)
    (hok : d.packetOk packet = true) (hh : d.HistInv c H) :
    (d.chunkAdd packet).HistInv c (H ++ packet) := by
  obtain ⟨k1, k2, k3⟩ := hh
  simp only [Domain.packetOk, Domain.end_, Bool.and_eq_true, decide_eq_true_eq] at hok
  obtain ⟨hk1, _⟩ := hok
  refine ⟨?_, ?_, ?_⟩
  · intro p hp e he
    exact List.mem_append_left _ (k1 p hp e he)
  · intro e he
    rcases List.mem_append.mp he with he | he
    · exact List.mem_append_left _ (k2 e he)
    · exact List.mem_append_right _ he
  · show (H ++ packet).map Entry.serial = List.range' 1 (d._lastSerial + packet.length)
    rw [List.map_append, k3, hk1, Nat.add_comm d._lastSerial 1, List.range'_append_1,
      Nat.add_comm]

theorem histInv_weaken (c : Codec) (d : Domain) (H : List Entry) (hh : d.HistInv c H) :
    d.HistInv c (H ++ []) := by
  rw [List.append_nil]
  exact hh

theorem commit_hist (c : Codec) (hc : c.Lossless) (d : Domain) (packet : List Entry)
    (H : List Entry) (hwf : ∀ e ∈ packet, e.payload.length < 2 ^ 64) (h : d.Inv)
    (hf : d.FilesInv c) (hh : d.HistInv c H) :
    (d.commit c packet).1.HistInv c (H ++ d.acceptedBy (Op.commit packet)) := by
  have hacc : d.acceptedBy (Op.commit packet) = if d.packetOk packet then packet else [] :=
    rfl
  rw [hacc]
  unfold Domain.commit
  split_ifs with hok
  · show (Domain.commitIfFull c (d.chunkAdd packet)).HistInv c (H ++ packet)
    unfold Domain.commitIfFull
    split_ifs
    · exact flush_hist c hc _ _ (chunkAdd_inv d packet hok h)
        (chunkAdd_files c d packet hwf hok hf) (chunkAdd_hist c d packet H hok hh)
    · exact chunkAdd_hist c d packet H hok hh
  · exact histInv_weaken c d H hh

theorem sync_hist (c : Codec) (d : Domain) (H : List Entry) (hh : d.HistInv c H) :
    d.sync.HistInv c H := by
  obtain ⟨k1, k2, k3⟩ := hh
  unfold Domain.sync
  split_ifs
  · cases hl : d._parts.getLast? with
    | none => exact ⟨k1, k2, k3⟩
    | some q =>
      obtain ⟨ini, hq⟩ := List.getLast?_eq_some_iff.mp hl
      refine ⟨?_, k2, k3⟩
      simp only
      rw [hq, List.dropLast_concat]
      intro p hp
      simp only [List.mem_append, List.mem_singleton] at hp
      rcases hp with hp | rfl
      · exact k1 p (by rw [hq]; exact List.mem_append_left _ hp)
      · exact k1 q (by rw [hq]; simp)
  · exact ⟨k1, k2, k3⟩

theorem erase_hist (c : Codec) (d : Domain) (t : Nat) (H : List Entry)
    (hh : d.HistInv c H) : (d.erase t).HistInv c H := by
  obtain ⟨k1, k2, k3⟩ := hh
  rcases parts_split d._parts with hnil | ⟨ini, q, hq⟩
  · refine ⟨?_, ?_, ?_⟩
    · rw [erase_parts_nil d t hnil]; exact k1
    · unfold Domain.erase; cases d._parts.getLast? <;> exact k2
    · unfold Domain.erase; cases d._parts.getLast? <;> exact k3
  · refine ⟨?_, ?_, ?_⟩
    · rw [erase_parts d t ini q hq]
      intro p hp
      simp only [List.mem_append, List.mem_singleton] at hp
      rcases hp with hp | rfl
      · exact k1 p (by rw [hq]; exact List.mem_append_left _ (List.mem_of_mem_filter hp))
      · exact k1 p (by rw [hq]; simp)
    · unfold Domain.erase; cases d._parts.getLast? <;> exact k2
    · unfold Domain.erase; cases d._parts.getLast? <;> exact k3

theorem step_hist (c : Codec) (hc : c.Lossless) (d : Domain) (op : Op) (H : List Entry)
    (hwf : op.WellFormed) (h : d.Inv) (hf : d.FilesInv c) (hh : d.HistInv c H) :
    (d.step c op).HistInv c (H ++ d.acceptedBy op) := by
  cases op with
  | commit packet => exact commit_hist c hc d packet H hwf h hf hh
  | commitIfStale age =>
    apply histInv_weaken
    show (d.commitIfStale c age).HistInv c H
    unfold Domain.commitIfStale
    split_ifs
    · exact flush_hist c hc d H h hf hh
    · exact hh
  | triggerSyncNow =>
    apply histInv_weaken
    have := flush_hist c hc d H h hf hh
    exact this
  | sync => exact histInv_weaken c _ H (sync_hist c d H hh)
  | erase t => exact histInv_weaken c _ H (erase_hist c d t H hh)
  | visit f t =>
    apply histInv_weaken
    show (d.visit f t).1.HistInv c H
    unfold Domain.visit
    simp only
    split_ifs
    · exact hh
    · exact hh
  | startSession i =>
    apply histInv_weaken
    show (d.startSession i).1.HistInv c H
    unfold Domain.startSession
    split_ifs
    · exact hh
    · exact hh
  | runSession i => exact histInv_weaken c _ H hh
  | closeSession i =>
    apply histInv_weaken
    show (d.closeSession i).1.HistInv c H
    unfold Domain.closeSession
    split_ifs
    · exact hh
    · exact hh
  | cleanSessions => exact histInv_weaken c _ H hh
  | setConfig cfg => exact histInv_weaken c _ H hh

theorem run_hist (c : Codec) (hc : c.Lossless) (d : Domain) (ops : List Op) (H : List Entry)
    (hwf : ∀ op ∈ ops, op.WellFormed) (h : d.Inv) (hf : d.FilesInv c)
    (hh : d.HistInv c H) : (d.run c ops).HistInv c (H ++ d.accepted c ops) := by
  induction ops generalizing d H with
  | nil => exact histInv_weaken c d H hh
  | cons op ops ih =>
    have hop := hwf op (List.mem_cons_self _ _)
    have := ih (d.step c op) (H ++ d.acceptedBy op)
      (fun o ho => hwf o (List.mem_cons_of_mem _ ho)) (step_inv c d op h)
      (step_files c hc d op hop h hf) (step_hist c hc d op H hop h hf hh)
    rw [List.append_assoc] at this
    exact this

theorem create_hist (c : Codec) (cfg : DomainConfig) : (Domain.create cfg).HistInv c [] := by
  refine ⟨?_, ?_, rfl⟩
  · intro p hp e he
    have hp2 : p = DomainPart.create 0 1 := by
      simpa [Domain.create, Domain.addPart] using hp
    subst hp2
    simp [DomainPart.create, DomainPart.scan] at he
  · intro e he
    cases he

theorem range'_filter_ge (a n b : Nat) (h1 : a ≤ b) (h2 : b ≤ a + n) :
    (List.range' a n).filter (fun x => decide (b ≤ x)) = List.range' b (a + n - b) := by
  induction n generalizing a with
  | zero =>
    have : a + 0 - b = 0 := by omega
    rw [this]
    rfl
  | succ n ih =>
    by_cases hab : b = a
    · subst hab
      have hn : b + (n + 1) - b = n + 1 := by omega
      rw [hn, List.filter_eq_self]
      intro x hx
      rw [List.mem_range'_1] at hx
      exact decide_eq_true hx.1
    · have hlt : ¬ b ≤ a := by omega
      rw [List.range'_succ, List.filter_cons]
      simp only [hlt, decide_False, Bool.false_eq_true, if_false]
      rw [ih (a + 1) (by omega) (by omega)]
      congr 1
      omega

theorem eq_of_map_serial (H : List Entry) (hH : (H.map Entry.serial).Nodup)
    (l1 l2 : List Entry) (h1 : ∀ e ∈ l1, e ∈ H) (h2 : ∀ e ∈ l2, e ∈ H)
    (hm : l1.map Entry.serial = l2.map Entry.serial) : l1 = l2 := by
  induction l1 generalizing l2 with
  | nil =>
    cases l2 with
    | nil => rfl
    | cons y ys => simp at hm
  | cons x xs ih =>
    cases l2 with
    | nil => simp at hm
    | cons y ys =>
      simp only [List.map_cons, List.cons.injEq] at hm
      have hxy : x = y :=
        List.inj_on_of_nodup_map hH (h1 x (List.mem_cons_self _ _))
          (h2 y (List.mem_cons_self _ _)) hm.1
      rw [hxy, ih ys (fun e he => h1 e (List.mem_cons_of_mem _ he))
        (fun e he => h2 e (List.mem_cons_of_mem _ he)) hm.2]

/-- The log holds exactly the accepted entries at or above `begin()`. -/
theorem hist_logEntries (c : Codec) (d : Domain) (H : List Entry) (h : d.Inv)
    (hf : d.FilesInv c) (hh : d.HistInv c H) :
    d.logEntries c = H.filter (fun e => decide (d.begin ≤ e.serial)) := by
  obtain ⟨k1, k2, k3⟩ := hh
  have hs := logEntries_serials c d h hf
  have hb := inv_begin_synced_end d h
  have hmem : ∀ e ∈ d.logEntries c, e ∈ H := by
    intro e he
    unfold Domain.logEntries at he
    rcases List.mem_append.mp he with he | he
    · obtain ⟨l, hl, hel⟩ := List.mem_flatten.mp he
      obtain ⟨p, hp, rfl⟩ := List.mem_map.mp hl
      exact k1 p hp e hel
    · exact k2 e he
  have hone : 1 ≤ d.begin := by
    by_cases hz : d.end_ - d.begin = 0
    · unfold Domain.end_ at hz hb
      omega
    · have hin : d.begin ∈ (d.logEntries c).map Entry.serial := by
        rw [hs, List.mem_range'_1]
        omega
      obtain ⟨e, he, hes⟩ := List.mem_map.mp hin
      have : e.serial ∈ H.map Entry.serial := List.mem_map_of_mem _ (hmem e he)
      rw [k3, List.mem_range'_1] at this
      omega
  apply eq_of_map_serial H (by rw [k3]; exact List.nodup_range' 1 _) _ _ hmem
    (fun e he => List.mem_of_mem_filter he)
  rw [hs]
  have hfm : (H.filter (fun e => decide (d.begin ≤ e.serial))).map Entry.serial =
      (H.map Entry.serial).filter (fun x => decide (d.begin ≤ x)) := by
    rw [List.filter_map]
    rfl
  rw [hfm, k3, range'_filter_ge 1 d._lastSerial d.begin hone
    (by unfold Domain.end_ at hb; omega)]
  unfold Domain.end_
  congr 1
  omega

/-- After any run on a new Domain the log holds exactly the entries accepted
by the commits and not erased since. -/
theorem run_logEntries (c : Codec) (hc : c.Lossless) (cfg : DomainConfig)
    (hcfg : cfg._encoding.Supported) (ops : List Op) (hops : ∀ op ∈ ops, op.WellFormed) :
    ((Domain.create cfg).run c ops).logEntries c = Domain.heldEntries c cfg ops := by
  obtain ⟨hinv, hfiles⟩ := run_files c hc (Domain.create cfg) ops hops (create_inv cfg)
    (create_files c cfg hcfg)
  have hh := run_hist c hc (Domain.create cfg) ops [] hops (create_inv cfg)
    (create_files c cfg hcfg) (create_hist c cfg)
  rw [List.nil_append] at hh
  exact hist_logEntries c _ _ hinv hfiles hh


/-! ## Check values of the checksums -/

set_option maxRecDepth 100000 in
theorem crc32_check_value : crc32 (asciiBytes "123456789") = 0xCBF43926 := by decide

theorem XXH64_empty : XXH64 [] 0 = 0xEF46DB3751D8E999 := by decide

theorem XXH64_abc : XXH64 (asciiBytes "abc") 0 = 0x44BC2CF5AD770999 := by decide

set_option maxRecDepth 100000 in
theorem XXH64_stripes :
    XXH64 (asciiBytes "Nobody inspects the spammish repetition") 0 = 0xFBCEA83C8A378BF1 := by
  decide

/-! ## CRC-32 detects every change of a single octet -/

theorem crc32Bit_lt (x : Nat) (h : x < 2 ^ 32) : crc32Bit x < 2 ^ 32 := by
  unfold crc32Bit
  split_ifs
  · exact Nat.xor_lt_two_pow (by omega) (by norm_num)
  · omega

theorem crc32Bit_odd_high (x : Nat) (h : x < 2 ^ 32) :
    ((x / 2) ^^^ 0xEDB88320).testBit 31 = true := by
  have h1 : (x / 2).testBit 31 = false := Nat.testBit_lt_two_pow (by omega)
  have h2 : (0xEDB88320 : Nat).testBit 31 = true := by decide
  rw [Nat.testBit_xor, h1, h2]
  rfl

theorem crc32Bit_even_high (x : Nat) (h : x < 2 ^ 32) : (x / 2).testBit 31 = false :=
  Nat.testBit_lt_two_pow (by omega)

theorem crc32Bit_inj (x y : Nat) (hx : x < 2 ^ 32) (hy : y < 2 ^ 32)
    (h : crc32Bit x = crc32Bit y) : x = y := by
  unfold crc32Bit at h
  by_cases h1 : x % 2 = 1 <;> by_cases h2 : y % 2 = 1
  · rw [if_pos h1, if_pos h2] at h
    have := Nat.xor_left_injective h
    simp only at this
    omega
  · rw [if_pos h1, if_neg h2] at h
    have e1 := crc32Bit_odd_high x hx
    have e2 := crc32Bit_even_high y hy
    rw [h, e2] at e1
    cases e1
  · rw [if_neg h1, if_pos h2] at h
    have e1 := crc32Bit_odd_high y hy
    have e2 := crc32Bit_even_high x hx
    rw [← h, e2] at e1
    cases e1
  · rw [if_neg h1, if_neg h2] at h
    omega

theorem crc32_fold_lt (s : Nat) (b : Byte) (h : s < 2 ^ 32) : s ^^^ b.val < 2 ^ 32 :=
  Nat.xor_lt_two_pow h (by have := b.isLt; omega)

theorem crc32Byte_lt (s : Nat) (b : Byte) (h : s < 2 ^ 32) : crc32Byte s b < 2 ^ 32 := by
  unfold crc32Byte
  have h0 := crc32_fold_lt s b h
  exact crc32Bit_lt _ (crc32Bit_lt _ (crc32Bit_lt _ (crc32Bit_lt _ (crc32Bit_lt _
    (crc32Bit_lt _ (crc32Bit_lt _ (crc32Bit_lt _ h0)))))))

theorem crc32Bit8_inj (x y : Nat) (hx : x < 2 ^ 32) (hy : y < 2 ^ 32)
    (h : crc32Bit (crc32Bit (crc32Bit (crc32Bit (crc32Bit (crc32Bit (crc32Bit (crc32Bit x)))))))
      = crc32Bit (crc32Bit (crc32Bit (crc32Bit (crc32Bit (crc32Bit (crc32Bit (crc32Bit y)))))))) :
    x = y := by
  have x1 := crc32Bit_lt _ hx
  have x2 := crc32Bit_lt _ x1
  have x3 := crc32Bit_lt _ x2
  have x4 := crc32Bit_lt _ x3
  have x5 := crc32Bit_lt _ x4
  have x6 := crc32Bit_lt _ x5
  have x7 := crc32Bit_lt _ x6
  have y1 := crc32Bit_lt _ hy
  have y2 := crc32Bit_lt _ y1
  have y3 := crc32Bit_lt _ y2
  have y4 := crc32Bit_lt _ y3
  have y5 := crc32Bit_lt _ y4
  have y6 := crc32Bit_lt _ y5
  have y7 := crc32Bit_lt _ y6
  have e7 := crc32Bit_inj _ _ x7 y7 h
  have e6 := crc32Bit_inj _ _ x6 y6 e7
  have e5 := crc32Bit_inj _ _ x5 y5 e6
  have e4 := crc32Bit_inj _ _ x4 y4 e5
  have e3 := crc32Bit_inj _ _ x3 y3 e4
  have e2 := crc32Bit_inj _ _ x2 y2 e3
  have e1 := crc32Bit_inj _ _ x1 y1 e2
  exact crc32Bit_inj _ _ hx hy e1

theorem crc32Byte_inj_state (s1 s2 : Nat) (b : Byte) (h1 : s1 < 2 ^ 32) (h2 : s2 < 2 ^ 32)
    (h : crc32Byte s1 b = crc32Byte s2 b) : s1 = s2 := by
  unfold crc32Byte at h
  have := crc32Bit8_inj _ _ (crc32_fold_lt s1 b h1) (crc32_fold_lt s2 b h2) h
  exact Nat.xor_left_injective this

theorem crc32Byte_inj_byte (s : Nat) (b1 b2 : Byte) (hs : s < 2 ^ 32)
    (h : crc32Byte s b1 = crc32Byte s b2) : b1 = b2 := by
  unfold crc32Byte at h
  have := crc32Bit8_inj _ _ (crc32_fold_lt s b1 hs) (crc32_fold_lt s b2 hs) h
  exact Fin.ext (Nat.xor_right_injective this)

theorem crc32_foldl_lt (l : List Byte) (s : Nat) (h : s < 2 ^ 32) :
    l.foldl crc32Byte s < 2 ^ 32 := by
  induction l generalizing s with
  | nil => exact h
  | cons x xs ih => exact ih _ (crc32Byte_lt s x h)

theorem crc32_foldl_inj (l : List Byte) (s1 s2 : Nat) (h1 : s1 < 2 ^ 32) (h2 : s2 < 2 ^ 32)
    (h : l.foldl crc32Byte s1 = l.foldl crc32Byte s2) : s1 = s2 := by
  induction l generalizing s1 s2 with
  | nil => exact h
  | cons x xs ih =>
    have := ih _ _ (crc32Byte_lt s1 x h1) (crc32Byte_lt s2 x h2) h
    exact crc32Byte_inj_state s1 s2 x h1 h2 this

theorem crc32_foldl_set_ne (l : List Byte) (i : Nat) (b : Byte) (s : Nat) (hs : s < 2 ^ 32)
    (hi : i < l.length) (hb : l[i]? ≠ some b) :
    (l.set i b).foldl crc32Byte s ≠ l.foldl crc32Byte s := by
  induction l generalizing i s with
  | nil => simp at hi
  | cons x xs ih =>
    cases i with
    | zero =>
      simp only [List.set_cons_zero, List.foldl_cons]
      intro h
      have e := crc32_foldl_inj xs _ _ (crc32Byte_lt s b hs) (crc32Byte_lt s x hs) h
      have := crc32Byte_inj_byte s b x hs e
      apply hb
      simp [this]
    | succ j =>
      simp only [List.set_cons_succ, List.foldl_cons]
      refine ih j _ (crc32Byte_lt s x hs) ?_ ?_
      · simpa using hi
      · simpa using hb

theorem crc32_lt (l : List Byte) : crc32 l < 2 ^ 32 :=
  Nat.xor_lt_two_pow (crc32_foldl_lt l _ (by norm_num)) (by norm_num)

theorem crc32_set_ne (l : List Byte) (i : Nat) (b : Byte) (hi : i < l.length)
    (hb : l[i]? ≠ some b) : crc32 (l.set i b) ≠ crc32 l := by
  unfold crc32
  intro h
  exact crc32_foldl_set_ne l i b _ (by norm_num) hi hb (Nat.xor_left_injective h)


/-! ## Decoding a record whose body was changed -/

theorem putBE_length (w n : Nat) : (putBE w n).length = w := by
  induction w with
  | zero => rfl
  | succ w ih => simp [putBE, ih]

theorem encode_record (c : Codec) (ch : IChunk) :
    (IChunk.encode c ch).2 = Fin.ofNat ch.encoding.getRaw ::
      (putBE 4 (if ch.encoding.getCrc = Encoding.nocrc then 0
        else c.calcCrc ch.encoding.getCrc (IChunk.encodedBody c ch)) ++
        IChunk.encodedBody c ch) := rfl

theorem record_set_body (hdr : Byte) (crc : Nat) (body : List Byte) (j : Nat) (b : Byte) :
    (hdr :: (putBE 4 crc ++ body)).set (5 + j) b = hdr :: (putBE 4 crc ++ body.set j b) := by
  have e : 5 + j = (4 + j) + 1 := by omega
  rw [e, List.set_cons_succ, List.set_append, putBE_length, if_neg (by omega)]
  congr 3
  omega

theorem decode_changed_body (c : Codec) (enc : Encoding) (hsup : enc.Supported)
    (hcrc : enc.getCrc ≠ Encoding.nocrc) (stored : Nat) (body : List Byte)
    (hne : c.calcCrc enc.getCrc body % 2 ^ 32 ≠ stored % 2 ^ 32) :
    IChunk.decode c (Fin.ofNat enc.getRaw :: (putBE 4 stored ++ body)) =
      Except.error DecodeError.corruption := by
  have e4 : (256 : Nat) ^ 4 = 2 ^ 32 := by norm_num
  unfold IChunk.decode
  simp only [IChunk.ofRaw_header _ hsup.1, getBE_putBE]
  rw [if_neg (not_or.mpr ⟨not_lt.mpr hsup.2.1, not_lt.mpr hsup.2.2⟩)]
  rw [if_pos]
  refine ⟨hcrc, ?_⟩
  rw [e4]
  simpa using hne


/-! ## The scenarios of the specification -/

set_option maxRecDepth 100000 in
theorem scenario_commit_sync :
    ((Domain.create roomyConfig).run plainCodec
      [Op.commit (entriesFrom 1 10), Op.triggerSyncNow, Op.sync]).begin = 1 ∧
    ((Domain.create roomyConfig).run plainCodec
      [Op.commit (entriesFrom 1 10), Op.triggerSyncNow, Op.sync]).end_ = 11 ∧
    ((Domain.create roomyConfig).run plainCodec
      [Op.commit (entriesFrom 1 10), Op.triggerSyncNow, Op.sync]).getSynced = 11 ∧
    (((Domain.create roomyConfig).run plainCodec
      [Op.commit (entriesFrom 1 10), Op.triggerSyncNow, Op.sync]).visitEntries plainCodec
        ⟨1, 11⟩) = (entriesFrom 1 10, true) := by
  decide

set_option maxRecDepth 100000 in
theorem scenario_rotation_erase :
    (((Domain.create tightConfig).run plainCodec
      [Op.commit (entriesFrom 1 2), Op.commit (entriesFrom 3 3)])._parts.map
        fun p => (p._range.from_, p._range.to_)) = [(1, 3), (3, 6)] ∧
    (((Domain.create tightConfig).run plainCodec
      [Op.commit (entriesFrom 1 2), Op.commit (entriesFrom 3 3), Op.erase 3])._parts.map
        fun p => (p._range.from_, p._range.to_)) = [(3, 6)] ∧
    ((Domain.create tightConfig).run plainCodec
      [Op.commit (entriesFrom 1 2), Op.commit (entriesFrom 3 3), Op.erase 3]).begin = 3 := by
  decide

set_option maxRecDepth 100000 in
theorem scenario_erase_waits_for_session :
    (((Domain.create tightConfig).run plainCodec
      [Op.commit (entriesFrom 1 2), Op.commit (entriesFrom 3 3), Op.visit 1 100,
        Op.erase 50])._parts.map fun p => (p._range.from_, p._range.to_))
      = [(1, 3), (3, 6)] ∧
    (((Domain.create tightConfig).run plainCodec
      [Op.commit (entriesFrom 1 2), Op.commit (entriesFrom 3 3), Op.visit 1 100,
        Op.erase 50, Op.closeSession 1, Op.erase 50])._parts.map
        fun p => (p._range.from_, p._range.to_)) = [(3, 6)] := by
  decide

set_option maxRecDepth 100000 in
/-- The sample run holds the twelve committed entries, and a visit of `[2, 9)`
on it delivers the seven entries with the serials 2 to 8. -/
theorem scenario_visit_sample :
    Domain.heldEntries (storeCodec fun _ b => b.length) sampleConfig sampleOps =
      [⟨1, [1]⟩, ⟨2, [2, 3]⟩, ⟨3, [1]⟩, ⟨4, [2, 3]⟩, ⟨5, []⟩, ⟨6, [1]⟩, ⟨7, [2, 3]⟩, ⟨8, []⟩,
        ⟨9, [1]⟩, ⟨10, [2, 3]⟩, ⟨11, []⟩, ⟨12, [1]⟩] ∧
    ((((((Domain.create sampleConfig).run (storeCodec fun _ b => b.length)
        sampleOps).visit 2 9).1.startSession 2).1.runSession (storeCodec fun _ b => b.length)
        2)._sessions.map fun s => (s._id, s._state, s._destination)) =
      [(1, SessionState.RUNNING, []),
        (2, SessionState.COMPLETED,
          [⟨2, [2, 3]⟩, ⟨3, [1]⟩, ⟨4, [2, 3]⟩, ⟨5, []⟩, ⟨6, [1]⟩, ⟨7, [2, 3]⟩, ⟨8, []⟩])] := by
  decide

/-! # The claims -/

/-- C1: for every chunk, built by adding a finite list of entries with
`IChunk::add`, and every combination of a crc kind (`nocrc`, `ccitt_crc32`,
`xxh64`) and a compression kind (`none`, `lz4`, `zstd`), decoding the bytes
produced by `IChunk::encode` yields exactly the original entries in the same
order, and `encode` reports the encoding of the chunk.  The compressors are
assumed lossless, and the entries fit the fields they are stored in. -/
theorem encode_decode_roundtrip (c : Codec) (hc : c.Lossless) (crc comp lvl : Nat)
    (hcrc : crc = Encoding.nocrc ∨ crc = Encoding.ccitt_crc32 ∨ crc = Encoding.xxh64)
    (hcomp : comp = Encoding.none ∨ comp = Encoding.lz4 ∨ comp = Encoding.zstd)
    (es : List Entry) (hrep : ∀ e ∈ es, e.Representable) (hlen : es.length < 2 ^ 64) :
    IChunk.decode c (IChunk.encode c ((IChunk.create (Encoding.mk2 crc comp) lvl).addAll es)).2
        = Except.ok es ∧
      (IChunk.encode c ((IChunk.create (Encoding.mk2 crc comp) lvl).addAll es)).1
        = Encoding.mk2 crc comp := by
  have hent := addAll_create_entries (Encoding.mk2 crc comp) lvl es
  have henc : ((IChunk.create (Encoding.mk2 crc comp) lvl).addAll es).encoding =
      Encoding.mk2 crc comp := by
    rw [(IChunk.addAll_entries _ _).2.1]
    rfl
  have hsup : (Encoding.mk2 crc comp).Supported := by
    rcases hcrc with rfl | rfl | rfl <;> rcases hcomp with rfl | rfl | rfl <;> decide
  refine ⟨?_, henc⟩
  have := IChunk.decode_encode c hc ((IChunk.create (Encoding.mk2 crc comp) lvl).addAll es)
    (by rw [henc]; exact hsup.1) (by rw [henc]; exact hsup.2.1) (by rw [henc]; exact hsup.2.2)
    (by rw [hent]; exact hrep) (by rw [hent]; exact hlen)
  rw [this, hent]

/-- Witness of C1: an `xxh64`/`lz4` chunk of two entries, with a compressor
that stores the data unchanged and the length as checksum. -/
theorem encode_decode_roundtrip_witness :
    IChunk.decode (storeCodec fun _ b => b.length)
      (IChunk.encode (storeCodec fun _ b => b.length)
        ((IChunk.create (Encoding.mk2 Encoding.xxh64 Encoding.lz4) 9).addAll
          [⟨5, [1, 2, 3]⟩, ⟨6, []⟩])).2 = Except.ok [⟨5, [1, 2, 3]⟩, ⟨6, []⟩] :=
  (encode_decode_roundtrip (storeCodec fun _ b => b.length) (fun _ _ _ _ => rfl)
    Encoding.xxh64 Encoding.lz4 9 (Or.inr (Or.inr rfl)) (Or.inr (Or.inl rfl))
    [⟨5, [1, 2, 3]⟩, ⟨6, []⟩] (by decide) (by decide)).1

/-- C2, as stated, fails for `xxh64`: in the record of the chunk holding the
entry with serial 165419 and payload `[114]`, the last octet of the body is
114; with that octet changed to 116 the 32-bit checksum is the same, and
`decode` returns the changed entry instead of a corruption error. -/
theorem xxh64_corruption_counterexample :
    (IChunk.encode plainCodec collidingChunk).1.getCrc = Encoding.xxh64 ∧
    (IChunk.encode plainCodec collidingChunk).2.length = 46 ∧
    (IChunk.encode plainCodec collidingChunk).2[45]? = some 114 ∧
    IChunk.decode plainCodec ((IChunk.encode plainCodec collidingChunk).2.set 45 116) =
      Except.ok [⟨165419, [116]⟩] ∧
    IChunk.decode plainCodec ((IChunk.encode plainCodec collidingChunk).2.set 45 116) ≠
      Except.error DecodeError.corruption := by
  have h : IChunk.decode plainCodec ((IChunk.encode plainCodec collidingChunk).2.set 45 116) =
      Except.ok [⟨165419, [116]⟩] := by decide
  refine ⟨by decide, by decide, by decide, h, ?_⟩
  rw [h]
  exact fun e => Except.noConfusion e

/-- C2, amended: for every chunk encoded with `ccitt_crc32` and every change of
a single octet of the encoded body, `IChunk::decode` fails with a corruption
error; for a chunk encoded with `ccitt_crc32` or `xxh64` it fails with a
corruption error whenever the 32-bit checksum of the changed body differs from
that of the encoded body. -/
theorem corruption_detected (compress : Nat → Nat → List Byte → List Byte)
    (decompress : Nat → List Byte → Option (List Byte)) (crc comp lvl : Nat)
    (hcrc : crc = Encoding.ccitt_crc32 ∨ crc = Encoding.xxh64)
    (hcomp : comp = Encoding.none ∨ comp = Encoding.lz4 ∨ comp = Encoding.zstd)
    (es : List Entry) (j : Nat) (b : Byte)
    (hj : j < (IChunk.encodedBody (stdCodec compress decompress)
      ((IChunk.create (Encoding.mk2 crc comp) lvl).addAll es)).length)
    (hb : (IChunk.encodedBody (stdCodec compress decompress)
      ((IChunk.create (Encoding.mk2 crc comp) lvl).addAll es))[j]? ≠ some b) :
    (crc = Encoding.ccitt_crc32 →
      IChunk.decode (stdCodec compress decompress)
        ((IChunk.encode (stdCodec compress decompress)
          ((IChunk.create (Encoding.mk2 crc comp) lvl).addAll es)).2.set (5 + j) b) =
        Except.error DecodeError.corruption) ∧
    (Encoding.calcCrc crc ((IChunk.encodedBody (stdCodec compress decompress)
        ((IChunk.create (Encoding.mk2 crc comp) lvl).addAll es)).set j b) ≠
      Encoding.calcCrc crc (IChunk.encodedBody (stdCodec compress decompress)
        ((IChunk.create (Encoding.mk2 crc comp) lvl).addAll es)) →
      IChunk.decode (stdCodec compress decompress)
        ((IChunk.encode (stdCodec compress decompress)
          ((IChunk.create (Encoding.mk2 crc comp) lvl).addAll es)).2.set (5 + j) b) =
        Except.error DecodeError.corruption) := by
  have henc : ((IChunk.create (Encoding.mk2 crc comp) lvl).addAll es).encoding =
      Encoding.mk2 crc comp := by
    rw [(IChunk.addAll_entries _ _).2.1]
    rfl
  have hsup : (Encoding.mk2 crc comp).Supported ∧ (Encoding.mk2 crc comp).getCrc = crc := by
    rcases hcrc with rfl | rfl <;> rcases hcomp with rfl | rfl | rfl <;> decide
  have hnz : crc ≠ Encoding.nocrc := by
    rcases hcrc with rfl | rfl <;> decide
  have hmod : ∀ buf, Encoding.calcCrc crc buf % 2 ^ 32 = Encoding.calcCrc crc buf := by
    intro buf
    unfold Encoding.calcCrc
    split_ifs
    · exact Nat.mod_mod _ _
    · exact Nat.mod_mod _ _
    · rfl
  have main : Encoding.calcCrc crc ((IChunk.encodedBody (stdCodec compress decompress)
        ((IChunk.create (Encoding.mk2 crc comp) lvl).addAll es)).set j b) ≠
      Encoding.calcCrc crc (IChunk.encodedBody (stdCodec compress decompress)
        ((IChunk.create (Encoding.mk2 crc comp) lvl).addAll es)) →
      IChunk.decode (stdCodec compress decompress)
        ((IChunk.encode (stdCodec compress decompress)
          ((IChunk.create (Encoding.mk2 crc comp) lvl).addAll es)).2.set (5 + j) b) =
        Except.error DecodeError.corruption := by
    intro hne
    rw [encode_record, record_set_body, henc, hsup.2, if_neg hnz]
    apply decode_changed_body _ _ hsup.1 (by rw [hsup.2]; exact hnz)
    rw [hsup.2]
    show Encoding.calcCrc crc _ % 2 ^ 32 ≠ Encoding.calcCrc crc _ % 2 ^ 32
    rw [hmod, hmod]
    exact hne
  refine ⟨?_, main⟩
  intro hc
  apply main
  subst hc
  have e1 : ∀ buf, Encoding.calcCrc Encoding.ccitt_crc32 buf = crc32 buf := by
    intro buf
    unfold Encoding.calcCrc
    rw [if_neg (by decide), if_pos rfl]
    exact Nat.mod_eq_of_lt (crc32_lt buf)
  rw [e1, e1]
  exact crc32_set_ne _ j b hj hb

/-- Witness of the amended C2: the last octet of the record of a `ccitt_crc32`
chunk changed from 3 to 9. -/
theorem corruption_detected_witness :
    IChunk.decode plainCodec ((IChunk.encode plainCodec crcChunk).2.set (5 + 42) 9) =
      Except.error DecodeError.corruption :=
  (corruption_detected (fun _ _ b => b) (fun _ b => some b) Encoding.ccitt_crc32 Encoding.none 9
    (Or.inl rfl) (Or.inl rfl) [⟨5, [1, 2, 3]⟩] 42 9 (by decide) (by decide)).1 rfl

/-- C3: in every reachable Domain state, that is after every sequence of
commit, flush, sync, rotation, erase, visit and session operations on a new
Domain, `begin() ≤ getSynced() ≤ end()`. -/
theorem begin_le_synced_le_end (c : Codec) (cfg : DomainConfig) (ops : List Op) :
    ((Domain.create cfg).run c ops).begin ≤ ((Domain.create cfg).run c ops).getSynced ∧
      ((Domain.create cfg).run c ops).getSynced ≤ ((Domain.create cfg).run c ops).end_ :=
  inv_begin_synced_end _ (reachable_inv c cfg ops)

/-- C4: for every Domain state and every bound `to`, `erase(to)` removes only
Parts whose whole range lies below `min(to, findOldestActiveVisit())` and adds
none; no Part that holds a serial of `[findOldestActiveVisit(), end())` is
removed; and when no Part qualifies, the Parts and `begin()` are unchanged. -/
theorem erase_removes_only_below (d : Domain) (t : Nat) :
    (∀ p ∈ d._parts, p ∉ (d.erase t)._parts →
      p._range.to_ ≤ min t d.findOldestActiveVisit) ∧
    (∀ p ∈ (d.erase t)._parts, p ∈ d._parts) ∧
    (∀ p ∈ d._parts, (∃ s, p._range.contains s = true ∧ d.findOldestActiveVisit ≤ s ∧
      s < d.end_) → p ∈ (d.erase t)._parts) ∧
    ((∀ p ∈ d._parts, ¬ p._range.to_ ≤ min t d.findOldestActiveVisit) →
      (d.erase t)._parts = d._parts ∧ (d.erase t).begin = d.begin) := by
  have key : ∀ p ∈ d._parts, p ∉ (d.erase t)._parts →
      p._range.to_ ≤ min t d.findOldestActiveVisit := by
    intro p hp hnot
    rcases parts_split d._parts with hnil | ⟨ini, q, hq⟩
    · rw [erase_parts_nil d t hnil] at hnot
      exact absurd hp hnot
    · rw [erase_parts d t ini q hq] at hnot
      rw [hq] at hp
      simp only [List.mem_append, List.mem_singleton, List.mem_filter, decide_eq_true_eq,
        not_or, not_and, not_not] at hnot hp
      rcases hp with hp | rfl
      · exact hnot.1 hp
      · exact absurd rfl hnot.2
  refine ⟨key, ?_, ?_, ?_⟩
  · intro p hp
    rcases parts_split d._parts with hnil | ⟨ini, q, hq⟩
    · rw [erase_parts_nil d t hnil] at hp
      exact hp
    · rw [erase_parts d t ini q hq] at hp
      rw [hq]
      simp only [List.mem_append, List.mem_singleton] at hp ⊢
      rcases hp with hp | rfl
      · exact Or.inl (List.mem_of_mem_filter hp)
      · exact Or.inr rfl
  · rintro p hp ⟨s, hcon, hold, _⟩
    by_contra hnot
    have hle := key p hp hnot
    simp only [SerialNumRange.contains, Bool.and_eq_true, decide_eq_true_eq] at hcon
    have hmin : min t d.findOldestActiveVisit ≤ d.findOldestActiveVisit := Nat.min_le_right _ _
    omega
  · intro hall
    have hparts : (d.erase t)._parts = d._parts := by
      rcases parts_split d._parts with hnil | ⟨ini, q, hq⟩
      · exact erase_parts_nil d t hnil
      · rw [erase_parts d t ini q hq, hq]
        congr 1
        rw [List.filter_eq_self]
        intro x hx
        exact decide_eq_true (hall x (by rw [hq]; exact List.mem_append_left _ hx))
    refine ⟨hparts, ?_⟩
    unfold Domain.begin
    rw [hparts]

theorem sampleOps_wellFormed : ∀ op ∈ sampleOps, op.WellFormed := by
  decide

/-- C6: in every reachable Domain state `findOldestActiveVisit()` is the
largest `SerialNum` when no registered session is unfinished, and otherwise it
is the `from` of an unfinished registered session and not above the `from` of
any unfinished registered session. -/
theorem findOldestActiveVisit_is_minimum (c : Codec) (cfg : DomainConfig) (ops : List Op) :
    ((∀ s ∈ ((Domain.create cfg).run c ops)._sessions, s.active = false) →
      ((Domain.create cfg).run c ops).findOldestActiveVisit = SerialNum.max) ∧
    ((∃ s ∈ ((Domain.create cfg).run c ops)._sessions, s.active = true) →
      (∃ s ∈ ((Domain.create cfg).run c ops)._sessions, s.active = true ∧
        s._range.from_ = ((Domain.create cfg).run c ops).findOldestActiveVisit) ∧
      ∀ s ∈ ((Domain.create cfg).run c ops)._sessions, s.active = true →
        ((Domain.create cfg).run c ops).findOldestActiveVisit ≤ s._range.from_) :=
  inv_findOldestActiveVisit _ (reachable_inv c cfg ops)

/-- C7: in every reachable Domain state and for every serial `s`,
`findPart(s)` returns the Part whose range contains `s` (every Part containing
`s` is the one returned, and a returned Part is a Part of the Domain that
contains `s`), and returns no Part when `s < begin()` or `s ≥ end()`. -/
theorem findPart_returns_containing_part (c : Codec) (cfg : DomainConfig) (ops : List Op)
    (s : Nat) :
    (∀ p ∈ ((Domain.create cfg).run c ops)._parts, p._range.contains s = true →
      ((Domain.create cfg).run c ops).findPart s = some p) ∧
    (∀ p, ((Domain.create cfg).run c ops).findPart s = some p →
      p ∈ ((Domain.create cfg).run c ops)._parts ∧ p._range.contains s = true) ∧
    (s < ((Domain.create cfg).run c ops).begin ∨ ((Domain.create cfg).run c ops).end_ ≤ s →
      ((Domain.create cfg).run c ops).findPart s = Option.none) := by
  have hinv := reachable_inv c cfg ops
  refine ⟨fun p hp hcon => inv_findPart_some _ hinv s p hp hcon, ?_,
    fun hs => inv_findPart_none _ hinv s hs⟩
  intro p hp
  have hp2 : ((Domain.create cfg).run c ops)._parts.find? (fun q => q._range.contains s)
      = some p := hp
  have hp3 := List.find?_some hp2
  exact ⟨List.mem_of_find?_eq_some hp2, hp3⟩

/-- C9, as stated, fails: the descriptor byte 15 has crc value 3 and
compression value 3, neither of which is a named kind. -/
theorem encoding_kinds_counterexample :
    ¬ (((Encoding.ofRaw 15).getCrc = Encoding.nocrc ∨
        (Encoding.ofRaw 15).getCrc = Encoding.ccitt_crc32 ∨
        (Encoding.ofRaw 15).getCrc = Encoding.xxh64) ∧
      ((Encoding.ofRaw 15).getCompression = Encoding.none ∨
        (Encoding.ofRaw 15).getCompression = Encoding.lz4 ∨
        (Encoding.ofRaw 15).getCompression = Encoding.zstd)) := by
  decide

/-- C9, amended: for every 8-bit raw descriptor, `getCrc()` is a value in
`0..3`, one of `nocrc`, `ccitt_crc32`, `xxh64` exactly when the two low bits
of the byte are not both set, and `getCompression()` is a value in `0..15`,
one of `none`, `lz4`, `zstd` exactly when bits 2-5 of the byte hold at most
2. -/
theorem encoding_kinds_amended (raw : Nat) :
    (Encoding.ofRaw raw).getCrc ≤ 3 ∧ (Encoding.ofRaw raw).getCompression ≤ 15 ∧
    (((Encoding.ofRaw raw).getCrc = Encoding.nocrc ∨
        (Encoding.ofRaw raw).getCrc = Encoding.ccitt_crc32 ∨
        (Encoding.ofRaw raw).getCrc = Encoding.xxh64) ↔ raw % 4 ≠ 3) ∧
    (((Encoding.ofRaw raw).getCompression = Encoding.none ∨
        (Encoding.ofRaw raw).getCompression = Encoding.lz4 ∨
        (Encoding.ofRaw raw).getCompression = Encoding.zstd) ↔ raw / 4 % 16 ≤ 2) := by
  rw [Encoding.getCrc_eq, Encoding.getCompression_eq]
  show raw % 256 % 4 ≤ 3 ∧ raw % 256 / 4 % 16 ≤ 15 ∧
    ((raw % 256 % 4 = 0 ∨ raw % 256 % 4 = 1 ∨ raw % 256 % 4 = 2) ↔ raw % 4 ≠ 3) ∧
    ((raw % 256 / 4 % 16 = 0 ∨ raw % 256 / 4 % 16 = 1 ∨ raw % 256 / 4 % 16 = 2) ↔
      raw / 4 % 16 ≤ 2)
  omega

/-- C10: for every header byte `raw`, `Encoding(raw).getRaw() = raw`, and
`getCrc()` and `getCompression()` are functions of that byte alone: two
Encodings with the same raw byte report the same crc and compression, namely
the two low bits and the next four bits of the byte. -/
theorem encoding_self_describing (raw : Byte) :
    (Encoding.ofRaw raw.val).getRaw = raw.val ∧
    (∀ e1 e2 : Encoding, e1.getRaw = e2.getRaw →
      e1.getCrc = e2.getCrc ∧ e1.getCompression = e2.getCompression) ∧
    (Encoding.ofRaw raw.val).getCrc = raw.val % 4 ∧
    (Encoding.ofRaw raw.val).getCompression = raw.val / 4 % 16 := by
  refine ⟨?_, ?_, ?_, ?_⟩
  · exact Nat.mod_eq_of_lt raw.isLt
  · intro e1 e2 h
    cases e1
    cases e2
    simp only [Encoding.getRaw] at h
    subst h
    exact ⟨rfl, rfl⟩
  · rw [Encoding.getCrc_eq]
    show raw.val % 256 % 4 = raw.val % 4
    omega
  · rw [Encoding.getCompression_eq]
    show raw.val % 256 / 4 % 16 = raw.val / 4 % 16
    omega


/-- C11: for every DomainConfig `c` and every value `v` of the type of the
setter's parameter, each setter followed by its getter returns `v`:
`setEncoding`/`getEncoding`, `setPartSizeLimit`/`getPartSizeLimit`,
`setChunkSizeLimit`/`getChunkSizeLimit` (`size_t` values),
`setChunkAgeLimit`/`getChunkAgeLimit` and
`setCompressionLevel`/`getCompressionlevel` (`uint8_t` values). -/
theorem domainConfig_setter_then_getter (c : DomainConfig) (enc : Encoding)
    (partSize chunkSize : Nat) (age : Int) (level : Nat)
    (hpart : partSize < 2 ^ 64) (hchunk : chunkSize < 2 ^ 64) (hlevel : level < 2 ^ 8) :
    (c.setEncoding enc).getEncoding = enc ∧
    (c.setPartSizeLimit partSize).getPartSizeLimit = partSize ∧
    (c.setChunkSizeLimit chunkSize).getChunkSizeLimit = chunkSize ∧
    (c.setChunkAgeLimit age).getChunkAgeLimit = age ∧
    (c.setCompressionLevel level).getCompressionlevel = level :=
  ⟨rfl, Nat.mod_eq_of_lt hpart, Nat.mod_eq_of_lt hchunk, rfl, Nat.mod_eq_of_lt hlevel⟩

/-- Witness of C11: the setters applied to the sample configuration. -/
theorem domainConfig_setter_then_getter_witness :
    (sampleConfig.setEncoding (Encoding.ofRaw 6)).getEncoding = Encoding.ofRaw 6 ∧
    (sampleConfig.setPartSizeLimit 4096).getPartSizeLimit = 4096 ∧
    (sampleConfig.setChunkSizeLimit 512).getChunkSizeLimit = 512 ∧
    (sampleConfig.setChunkAgeLimit 7).getChunkAgeLimit = 7 ∧
    (sampleConfig.setCompressionLevel 3).getCompressionlevel = 3 :=
  domainConfig_setter_then_getter sampleConfig (Encoding.ofRaw 6) 4096 512 7 3
    (by decide) (by decide) (by decide)

theorem string_append_left_cancel (a b c : String) (h : a ++ b = a ++ c) : b = c := by
  have hd := congrArg String.data h
  simp only [String.data_append] at hd
  exact String.ext (List.append_cancel_left hd)

/-- C12: `Domain::getDir(base, domain)` is `base` followed by `"/"` followed by
`domain`, and for a fixed base two different domain names give two different
directories. -/
theorem getDir_is_base_slash_domain_injective (base domain domain2 : String) :
    Domain.getDir base domain = base ++ "/" ++ domain ∧
    (domain ≠ domain2 → Domain.getDir base domain ≠ Domain.getDir base domain2) := by
  refine ⟨rfl, ?_⟩
  intro hne heq
  unfold Domain.getDir at heq
  rw [String.append_assoc, String.append_assoc] at heq
  exact hne (string_append_left_cancel "/" _ _ (string_append_left_cancel base _ _ heq))

/-- C21: `Encoding` keeps the crc kind in bits 0-1 and the compression kind in
bits 2-5 of the raw byte: for `c` in `0..3` and `k` in `0..15` the byte
`c + 4*k` has `getCrc() = c` and `getCompression() = k`, and every raw byte has
the same `getCrc()` and `getCompression()` as the byte reduced modulo 64, so
bits 6 and 7 are ignored. -/
theorem encoding_bit_layout (c k : Nat) (hc : c < 4) (hk : k < 16) :
    (Encoding.ofRaw (c + 4 * k)).getCrc = c ∧
    (Encoding.ofRaw (c + 4 * k)).getCompression = k ∧
    ∀ raw : Nat,
      (Encoding.ofRaw raw).getCrc = (Encoding.ofRaw (raw % 64)).getCrc ∧
      (Encoding.ofRaw raw).getCompression = (Encoding.ofRaw (raw % 64)).getCompression := by
  refine ⟨?_, ?_, ?_⟩
  · rw [Encoding.getCrc_eq]
    show (c + 4 * k) % 256 % 4 = c
    omega
  · rw [Encoding.getCompression_eq]
    show (c + 4 * k) % 256 / 4 % 16 = k
    omega
  · intro raw
    rw [Encoding.getCrc_eq, Encoding.getCrc_eq, Encoding.getCompression_eq,
      Encoding.getCompression_eq]
    show raw % 256 % 4 = raw % 64 % 256 % 4 ∧ raw % 256 / 4 % 16 = raw % 64 % 256 / 4 % 16
    omega

/-- Witness of C21: crc kind `xxh64` (2) with compression kind `lz4` (1) is the
byte 6. -/
theorem encoding_bit_layout_witness :
    (Encoding.ofRaw (2 + 4 * 1)).getCrc = 2 ∧
    (Encoding.ofRaw (2 + 4 * 1)).getCompression = 1 ∧
    ∀ raw : Nat,
      (Encoding.ofRaw raw).getCrc = (Encoding.ofRaw (raw % 64)).getCrc ∧
      (Encoding.ofRaw raw).getCompression = (Encoding.ofRaw (raw % 64)).getCompression :=
  encoding_bit_layout 2 1 (by decide) (by decide)

/-- C22: each `DomainConfig` setter changes only its own field: after
`setEncoding`, `setPartSizeLimit`, `setChunkSizeLimit`, `setChunkAgeLimit` or
`setCompressionLevel` the four other getters return what they returned before
the call, and two setters of different fields give the same configuration in
either order. -/
theorem domainConfig_setters_frame (c : DomainConfig) (enc : Encoding)
    (partSize chunkSize : Nat) (age : Int) (level : Nat) :
    ((c.setEncoding enc).getPartSizeLimit = c.getPartSizeLimit ∧
      (c.setEncoding enc).getChunkSizeLimit = c.getChunkSizeLimit ∧
      (c.setEncoding enc).getChunkAgeLimit = c.getChunkAgeLimit ∧
      (c.setEncoding enc).getCompressionlevel = c.getCompressionlevel) ∧
    ((c.setPartSizeLimit partSize).getEncoding = c.getEncoding ∧
      (c.setPartSizeLimit partSize).getChunkSizeLimit = c.getChunkSizeLimit ∧
      (c.setPartSizeLimit partSize).getChunkAgeLimit = c.getChunkAgeLimit ∧
      (c.setPartSizeLimit partSize).getCompressionlevel = c.getCompressionlevel) ∧
    ((c.setChunkSizeLimit chunkSize).getEncoding = c.getEncoding ∧
      (c.setChunkSizeLimit chunkSize).getPartSizeLimit = c.getPartSizeLimit ∧
      (c.setChunkSizeLimit chunkSize).getChunkAgeLimit = c.getChunkAgeLimit ∧
      (c.setChunkSizeLimit chunkSize).getCompressionlevel = c.getCompressionlevel) ∧
    ((c.setChunkAgeLimit age).getEncoding = c.getEncoding ∧
      (c.setChunkAgeLimit age).getPartSizeLimit = c.getPartSizeLimit ∧
      (c.setChunkAgeLimit age).getChunkSizeLimit = c.getChunkSizeLimit ∧
      (c.setChunkAgeLimit age).getCompressionlevel = c.getCompressionlevel) ∧
    ((c.setCompressionLevel level).getEncoding = c.getEncoding ∧
      (c.setCompressionLevel level).getPartSizeLimit = c.getPartSizeLimit ∧
      (c.setCompressionLevel level).getChunkSizeLimit = c.getChunkSizeLimit ∧
      (c.setCompressionLevel level).getChunkAgeLimit = c.getChunkAgeLimit) ∧
    ((c.setEncoding enc).setPartSizeLimit partSize =
        (c.setPartSizeLimit partSize).setEncoding enc ∧
      (c.setEncoding enc).setChunkSizeLimit chunkSize =
        (c.setChunkSizeLimit chunkSize).setEncoding enc ∧
      (c.setEncoding enc).setChunkAgeLimit age =
        (c.setChunkAgeLimit age).setEncoding enc ∧
      (c.setEncoding enc).setCompressionLevel level =
        (c.setCompressionLevel level).setEncoding enc ∧
      (c.setPartSizeLimit partSize).setChunkSizeLimit chunkSize =
        (c.setChunkSizeLimit chunkSize).setPartSizeLimit partSize ∧
      (c.setPartSizeLimit partSize).setChunkAgeLimit age =
        (c.setChunkAgeLimit age).setPartSizeLimit partSize ∧
      (c.setPartSizeLimit partSize).setCompressionLevel level =
        (c.setCompressionLevel level).setPartSizeLimit partSize ∧
      (c.setChunkSizeLimit chunkSize).setChunkAgeLimit age =
        (c.setChunkAgeLimit age).setChunkSizeLimit chunkSize ∧
      (c.setChunkSizeLimit chunkSize).setCompressionLevel level =
        (c.setCompressionLevel level).setChunkSizeLimit chunkSize ∧
      (c.setChunkAgeLimit age).setCompressionLevel level =
        (c.setCompressionLevel level).setChunkAgeLimit age) :=
  ⟨⟨rfl, rfl, rfl, rfl⟩, ⟨rfl, rfl, rfl, rfl⟩, ⟨rfl, rfl, rfl, rfl⟩, ⟨rfl, rfl, rfl, rfl⟩,
    ⟨rfl, rfl, rfl, rfl⟩, ⟨rfl, rfl, rfl, rfl, rfl, rfl, rfl, rfl, rfl, rfl⟩⟩

end search.transactionlog

/-! # GenerationHolder -/

namespace vespalib

theorem signedLess_iff_lt (g u : Nat) (hg : g < 2 ^ 63) (hu : u < 2 ^ 63) :
    GenerationHolder.signedLess g u = true ↔ g < u := by
  unfold GenerationHolder.signedLess
  rw [decide_eq_true_eq]
  have h1 : g % 2 ^ 64 = g := Nat.mod_eq_of_lt (by omega)
  have h2 : u % 2 ^ 64 = u := Nat.mod_eq_of_lt (by omega)
  rw [h1, h2]
  by_cases h : g < u
  · have : (g + 2 ^ 64 - u) % 2 ^ 64 = g + 2 ^ 64 - u := Nat.mod_eq_of_lt (by omega)
    rw [this]
    omega
  · have : (g + 2 ^ 64 - u) % 2 ^ 64 = g - u := by
      have e : g + 2 ^ 64 - u = (g - u) + 2 ^ 64 := by omega
      rw [e, Nat.add_mod_right]
      exact Nat.mod_eq_of_lt (by omega)
    rw [this]
    omega

/-- C13, as stated, fails: in a holder with an element waiting in the first
hold list and a second hold list `[5, 3]`, `trimHoldLists(4)` looks at the
front element only (generation 5) and changes nothing, so the elements with
generation 0 and 3 remain. -/
theorem trimHoldLists_counterexample :
    unorderedHolder.trimHoldLists 4 = unorderedHolder ∧
    (∃ e ∈ (unorderedHolder.trimHoldLists 4)._hold2List, e._generation < 4) ∧
    (∃ e ∈ (unorderedHolder.trimHoldLists 4)._hold1List, e._generation < 4) := by
  decide

/-- C13, amended: for every holder whose second hold list is in ascending order
of generation, with the generations and `usedGen` below `2^63`, after
`trimHoldLists(usedGen)` no element of the second hold list has a generation
below `usedGen`, every element of that list with a generation of at least
`usedGen` is kept, and the first hold list is unchanged. -/
theorem trimHoldLists_removes_older (h : GenerationHolder) (usedGen : Nat)
    (hsorted : h._hold2List.Pairwise (fun a b => a._generation ≤ b._generation))
    (hgen : ∀ e ∈ h._hold2List, e._generation < 2 ^ 63) (hused : usedGen < 2 ^ 63) :
    (∀ e ∈ (h.trimHoldLists usedGen)._hold2List, ¬ e._generation < usedGen) ∧
    (∀ e ∈ h._hold2List, usedGen ≤ e._generation → e ∈ (h.trimHoldLists usedGen)._hold2List) ∧
    (h.trimHoldLists usedGen)._hold1List = h._hold1List := by
  unfold GenerationHolder.trimHoldLists
  cases hl : h._hold2List with
  | nil =>
    simp [hl]
  | cons front rest =>
    simp only
    rw [hl] at hsorted hgen
    split_ifs with hfront
    · refine ⟨?_, ?_, rfl⟩
      · intro e he
        simp only [GenerationHolder.trimHoldListsSlow, hl, List.mem_filter,
          Bool.not_eq_true', ← Bool.not_eq_true] at he
        intro hlt
        exact he.2 ((signedLess_iff_lt _ _ (hgen e he.1) hused).mpr hlt)
      · intro e he hge
        simp only [GenerationHolder.trimHoldListsSlow, hl, List.mem_filter,
          Bool.not_eq_true', ← Bool.not_eq_true]
        refine ⟨he, ?_⟩
        intro hs
        have := (signedLess_iff_lt _ _ (hgen e he) hused).mp hs
        omega
    · have hfr : ¬ front._generation < usedGen := fun hlt =>
        hfront ((signedLess_iff_lt _ _ (hgen front (List.mem_cons_self _ _)) hused).mpr hlt)
      refine ⟨?_, ?_, rfl⟩
      · intro e he
        rw [hl] at he
        rcases List.mem_cons.mp he with rfl | her
        · exact hfr
        · have := (List.pairwise_cons.mp hsorted).1 e her
          omega
      · intro e he _
        rw [hl]
        exact he

/-- Witness of the amended C13: the ordered holder trimmed at generation 4. -/
theorem trimHoldLists_removes_older_witness :
    (∀ e ∈ (orderedHolder.trimHoldLists 4)._hold2List, ¬ e._generation < 4) ∧
    (∀ e ∈ orderedHolder._hold2List, 4 ≤ e._generation →
      e ∈ (orderedHolder.trimHoldLists 4)._hold2List) ∧
    (orderedHolder.trimHoldLists 4)._hold1List = orderedHolder._hold1List :=
  trimHoldLists_removes_older orderedHolder 4 (by decide) (by decide) (by decide)

end vespalib

/-! # ConfigParser -/

namespace config

theorem parseInternal_empty {E T : Type} (p : ConfigParser E T) (key : String)
    (config : List String) (h : p.getLinesForKey key config = []) :
    p.parseInternal key config = Except.error (ParseError.noDefaultValue key) := by
  unfold ConfigParser.parseInternal
  simp only [h, List.length_nil, if_true]
  rfl

theorem parseInternal_lines {E T : Type} (p : ConfigParser E T) (key : String)
    (config : List String) (h : p.getLinesForKey key config ≠ []) :
    p.parseInternal key config = p.convertLines (p.getLinesForKey key config) := by
  unfold ConfigParser.parseInternal
  have hlen : (p.getLinesForKey key config).length ≠ 0 := fun h0 => h (List.length_eq_zero.mp h0)
  simp only [if_neg hlen]
  rfl

theorem convertLines_ne_noDefaultValue {E T : Type} (p : ConfigParser E T)
    (lines : List String) (key : String) :
    p.convertLines lines ≠ Except.error (ParseError.noDefaultValue key) := by
  unfold ConfigParser.convertLines
  cases p.convert lines with
  | ok v => exact fun h => Except.noConfusion h
  | error e =>
    intro h
    have := Except.error.inj h
    cases this

theorem sampleParser_runs :
    sampleParser.parse "b" ["a 1", "b 2"] = Except.ok "2" ∧
    sampleParser.parse "c" ["a 1", "b 2"] = Except.error (ParseError.noDefaultValue "c") ∧
    sampleParser.parse "a" ["a 1", "a 2"] =
      Except.error (ParseError.conversion "expected one line") ∧
    sampleParser.parseDefault "c" ["a 1", "b 2"] "9" = Except.ok "9" ∧
    sampleParser.parseDefault "b" ["a 1", "b 2"] "9" = Except.ok "2" :=
  ⟨rfl, rfl, rfl, rfl, rfl⟩

/-- C14: for every key, config and default value `d`,
`ConfigParser::parse(key, config, d)` returns `d` when
`getLinesForKey(key, config)` is empty, and otherwise behaves as `convert<T>`
of those lines, which is what `parse(key, config)` without a default does. -/
theorem parse_with_default {E T : Type} (p : ConfigParser E T) (key : String)
    (config : List String) (d : T) :
    (p.getLinesForKey key config = [] → p.parseDefault key config d = Except.ok d) ∧
    (p.getLinesForKey key config ≠ [] →
      p.parseDefault key config d = p.convertLines (p.getLinesForKey key config) ∧
      p.parseDefault key config d = p.parse key config ∧
      ∀ v, p.convert (p.getLinesForKey key config) = Except.ok v →
        p.parseDefault key config d = Except.ok v) := by
  constructor
  · intro h
    unfold ConfigParser.parseDefault ConfigParser.parseInternalDefault
    simp only [h, List.length_nil, if_true]
  · intro h
    have hlen : (p.getLinesForKey key config).length ≠ 0 :=
      fun h0 => h (List.length_eq_zero.mp h0)
    have h1 : p.parseDefault key config d = p.convertLines (p.getLinesForKey key config) := by
      unfold ConfigParser.parseDefault ConfigParser.parseInternalDefault
      simp only [if_neg hlen]
    refine ⟨h1, ?_, ?_⟩
    · rw [h1]
      exact (parseInternal_lines p key config h).symm
    · intro v hv
      rw [h1]
      unfold ConfigParser.convertLines
      rw [hv]

/-- C15, as stated, fails: with the two lines `1` and `2` for the key `a`,
`parse` neither raises the exception of `throwNoDefaultValue` nor returns a
value; it fails inside `convert<T>`. -/
theorem parse_without_default_counterexample :
    sampleParser.getLinesForKey "a" ["a 1", "a 2"] = ["1", "2"] ∧
    sampleParser.parse "a" ["a 1", "a 2"] =
      Except.error (ParseError.conversion "expected one line") ∧
    ¬ ∃ v, sampleParser.parse "a" ["a 1", "a 2"] = Except.ok v := by
  refine ⟨rfl, rfl, ?_⟩
  rintro ⟨v, hv⟩
  have h : sampleParser.parse "a" ["a 1", "a 2"] =
      Except.error (ParseError.conversion "expected one line") := rfl
  rw [h] at hv
  exact Except.noConfusion hv

/-- C15, amended: `ConfigParser::parse(key, config)` without a default value
fails through `throwNoDefaultValue(key)` if and only if the config has no
lines for the key; when there is at least one line it behaves as `convert<T>`
of the lines: it returns the value that `convert<T>` returns, and it fails
exactly when `convert<T>` fails, with the failure of `convert<T>`. -/
theorem parse_without_default {E T : Type} (p : ConfigParser E T) (key : String)
    (config : List String) :
    (p.parse key config = Except.error (ParseError.noDefaultValue key) ↔
      p.getLinesForKey key config = []) ∧
    (p.getLinesForKey key config ≠ [] →
      p.parse key config = p.convertLines (p.getLinesForKey key config) ∧
      (∀ v, p.convert (p.getLinesForKey key config) = Except.ok v →
        p.parse key config = Except.ok v) ∧
      (∀ e, p.convert (p.getLinesForKey key config) = Except.error e →
        p.parse key config = Except.error (ParseError.conversion e)) ∧
      ((∃ v, p.parse key config = Except.ok v) ↔
        ∃ v, p.convert (p.getLinesForKey key config) = Except.ok v)) := by
  constructor
  · constructor
    · intro h
      by_contra hne
      have := parseInternal_lines p key config hne
      unfold ConfigParser.parse at h
      rw [this] at h
      exact convertLines_ne_noDefaultValue p _ key h
    · intro h
      exact parseInternal_empty p key config h
  · intro h
    have h1 : p.parse key config = p.convertLines (p.getLinesForKey key config) :=
      parseInternal_lines p key config h
    have hok : ∀ v, p.convert (p.getLinesForKey key config) = Except.ok v →
        p.parse key config = Except.ok v := by
      intro v hv
      rw [h1]
      unfold ConfigParser.convertLines
      rw [hv]
    have herr : ∀ e, p.convert (p.getLinesForKey key config) = Except.error e →
        p.parse key config = Except.error (ParseError.conversion e) := by
      intro e he
      rw [h1]
      unfold ConfigParser.convertLines
      rw [he]
    refine ⟨h1, hok, herr, ?_⟩
    constructor
    · rintro ⟨v, hv⟩
      cases hc : p.convert (p.getLinesForKey key config) with
      | ok w => exact ⟨w, rfl⟩
      | error e =>
        rw [herr e hc] at hv
        exact Except.noConfusion hv
    · rintro ⟨v, hv⟩
      exact ⟨v, hok v hv⟩

end config

/-! # The attribute feature -/

namespace search.features

theorem weightedSetLoop_found {V F : Type} (H : Helpers V F) (kind : ContentKind)
    (attrType : BasicType) (key : V) (buffer : List (V × Int)) (e : V × Int)
    (h : buffer.find? (fun x => H.equalValues x.1 key) = some e) :
    weightedSetLoop H kind attrType key buffer =
      (considerUndefined H kind key attrType, H.weightAsFeature e.2, H.one) := by
  induction buffer with
  | nil => simp at h
  | cons x xs ih =>
    unfold weightedSetLoop
    by_cases hx : H.equalValues x.1 key = true
    · simp only [equals, hx, if_true]
      simp only [List.find?_cons, hx, Option.some.injEq] at h
      rw [h]
    · have hxf : H.equalValues x.1 key = false := by simpa using hx
      simp only [equals, hxf, Bool.false_eq_true, if_false]
      simp only [List.find?_cons, hxf] at h
      exact ih h

theorem weightedSetLoop_absent {V F : Type} (H : Helpers V F) (kind : ContentKind)
    (attrType : BasicType) (key : V) (buffer : List (V × Int))
    (h : buffer.find? (fun x => H.equalValues x.1 key) = Option.none) :
    weightedSetLoop H kind attrType key buffer = (H.zero, H.zero, H.zero) := by
  induction buffer with
  | nil => rfl
  | cons x xs ih =>
    unfold weightedSetLoop
    by_cases hx : H.equalValues x.1 key = true
    · simp only [List.find?_cons, hx] at h
      cases h
    · have hxf : H.equalValues x.1 key = false := by simpa using hx
      simp only [equals, hxf, Bool.false_eq_true, if_false]
      simp only [List.find?_cons, hxf] at h
      exact ih h

theorem create_wset_key {V F : Type} (H : Helpers V F) (a : IAttributeVector V)
    (name extra : String) (hw : a.getCollectionType = CollectionType.WSET) (hx : extra ≠ "") :
    createAttributeExecutor H (some a) name extra =
      Executor.WeightedSetAttributeExecutor (contentKind a)
        (H.strToKey (contentKind a) extra) true := by
  unfold createAttributeExecutor
  simp only [hw, if_true, hx, ne_eq, not_false_eq_true]

theorem create_wset_count {V F : Type} (H : Helpers V F) (a : IAttributeVector V)
    (name : String) (hw : a.getCollectionType = CollectionType.WSET) :
    createAttributeExecutor H (some a) name "" = Executor.CountOnlyAttributeExecutor := by
  unfold createAttributeExecutor
  simp only [hw, if_true, ne_eq, not_true_eq_false, if_false]

theorem create_array_index {V F : Type} (H : Helpers V F) (a : IAttributeVector V)
    (name extra : String) (ha : a.getCollectionType = CollectionType.ARRAY) (hx : extra ≠ "") :
    createAttributeExecutor H (some a) name extra =
      Executor.AttributeExecutor (contentKind a) (H.strToIdx extra % 2 ^ 32) H.zero := by
  unfold createAttributeExecutor newAttributeExecutor
  simp [ha, hx]

theorem create_array_count {V F : Type} (H : Helpers V F) (a : IAttributeVector V)
    (name : String) (ha : a.getCollectionType = CollectionType.ARRAY) :
    createAttributeExecutor H (some a) name "" = Executor.CountOnlyAttributeExecutor := by
  unfold createAttributeExecutor
  simp [ha]

/-- C16: for a weighted set attribute queried with a key,
`createAttributeExecutor` returns a `WeightedSetAttributeExecutor` that uses
the key, and its `execute` sets the contains output to 1 if the key equals the
value of some element of the document's weighted set and to 0 otherwise; in
the first case the weight output is the weight of the first element equal to
the key. -/
theorem weightedSet_contains_and_weight {V F : Type} (H : Helpers V F)
    (a : IAttributeVector V) (name extra : String) (docId : Nat)
    (hw : a.getCollectionType = CollectionType.WSET) (hx : extra ≠ "") :
    createAttributeExecutor H (some a) name extra =
      Executor.WeightedSetAttributeExecutor (contentKind a)
        (H.strToKey (contentKind a) extra) true ∧
    ((∃ e ∈ a.content docId, equals H e.1 (H.strToKey (contentKind a) extra) = true) →
      (execute H a docId (createAttributeExecutor H (some a) name extra)).contains = H.one) ∧
    ((¬ ∃ e ∈ a.content docId, equals H e.1 (H.strToKey (contentKind a) extra) = true) →
      (execute H a docId (createAttributeExecutor H (some a) name extra)).contains = H.zero) ∧
    (∀ e, (a.content docId).find?
        (fun x => equals H x.1 (H.strToKey (contentKind a) extra)) = some e →
      (execute H a docId (createAttributeExecutor H (some a) name extra)).weight =
        H.weightAsFeature e.2) := by
  have hc := create_wset_key H a name extra hw hx
  refine ⟨hc, ?_, ?_, ?_⟩
  · rintro ⟨e, he, heq⟩
    cases hf : (a.content docId).find? (fun x => H.equalValues x.1
        (H.strToKey (contentKind a) extra)) with
    | none =>
      rw [List.find?_eq_none] at hf
      exact absurd heq (hf e he)
    | some f =>
      rw [hc]
      simp only [execute, fill, if_true, weightedSetLoop_found H _ _ _ _ f hf]
  · intro hno
    have hf : (a.content docId).find? (fun x => H.equalValues x.1
        (H.strToKey (contentKind a) extra)) = Option.none := by
      rw [List.find?_eq_none]
      intro x hxm hxe
      exact hno ⟨x, hxm, hxe⟩
    rw [hc]
    simp only [execute, fill, if_true, weightedSetLoop_absent H _ _ _ _ hf]
  · intro e he
    rw [hc]
    simp only [execute, fill, if_true]
    rw [weightedSetLoop_found H _ _ _ _ e he]

/-- Witness of C16: the integer weighted set queried with the key 20, which
its second and third elements hold. -/
theorem weightedSet_contains_and_weight_witness :
    (execute intHelpers wsetAttribute 0
      (createAttributeExecutor intHelpers (some wsetAttribute) "a" "20")).weight =
      intHelpers.weightAsFeature 7 :=
  (weightedSet_contains_and_weight intHelpers wsetAttribute "a" "20" 0 rfl (by decide)).2.2.2
    (20, 7) (by decide)

/-- C17, as stated, fails: for the integer array attribute with three values
queried with index 1, and for the integer weighted set with three elements
queried with key 20, the executor that `createAttributeExecutor` returns sets
the count output to 0. -/
theorem count_with_parameter_counterexample :
    arrayAttribute.getCollectionType = CollectionType.ARRAY ∧
    (arrayAttribute.content 0).length = 3 ∧
    (execute intHelpers arrayAttribute 0
      (createAttributeExecutor intHelpers (some arrayAttribute) "a" "1")).count = 0 ∧
    intHelpers.countAsFeature 3 = 3 ∧
    wsetAttribute.getCollectionType = CollectionType.WSET ∧
    (wsetAttribute.content 0).length = 3 ∧
    (execute intHelpers wsetAttribute 0
      (createAttributeExecutor intHelpers (some wsetAttribute) "a" "20")).count = 0 := by
  decide

/-- C17, amended: for an array or weighted set attribute queried without an
index or key, `createAttributeExecutor` returns a `CountOnlyAttributeExecutor`
and the count output equals the number of elements the attribute holds for the
matched document; queried with an index or key, the count output of the
returned executor is 0. -/
theorem count_output {V F : Type} (H : Helpers V F) (a : IAttributeVector V)
    (name extra : String) (docId : Nat)
    (hc : a.getCollectionType = CollectionType.ARRAY ∨
      a.getCollectionType = CollectionType.WSET) :
    (extra = "" →
      createAttributeExecutor H (some a) name extra = Executor.CountOnlyAttributeExecutor ∧
      (execute H a docId (createAttributeExecutor H (some a) name extra)).count =
        H.countAsFeature (a.content docId).length) ∧
    (extra ≠ "" →
      (execute H a docId (createAttributeExecutor H (some a) name extra)).count = H.zero) := by
  constructor
  · intro he
    subst he
    have hcr : createAttributeExecutor H (some a) name "" =
        Executor.CountOnlyAttributeExecutor := by
      rcases hc with h | h
      · exact create_array_count H a name h
      · exact create_wset_count H a name h
    refine ⟨hcr, ?_⟩
    rw [hcr]
    rfl
  · intro hx
    rcases hc with h | h
    · rw [create_array_index H a name extra h hx]
      rfl
    · rw [create_wset_key H a name extra h hx]
      simp only [execute, if_true]

/-- Witness of the amended C17: the integer array attribute without an
index. -/
theorem count_output_witness :
    (execute intHelpers arrayAttribute 0
      (createAttributeExecutor intHelpers (some arrayAttribute) "a" "")).count =
      intHelpers.countAsFeature (arrayAttribute.content 0).length :=
  ((count_output intHelpers arrayAttribute "a" "" 0 (Or.inl rfl)).1 rfl).2

end search.features

/-! # SimpleQueryStackItem -/

namespace search

/-- C19 on the code: `GetCreator` reads bit 3 of the type byte and `GetType`
reads bits 0-4, so the creator bit is one of the type bits: the type bytes 0
and 8 differ in the creator (0 and 1) and also in the item type (0 and 8), and
for every type byte the creator is bit 3 of the item type. -/
theorem getType_getCreator_overlap :
    SimpleQueryStackItem.GetCreator 0 = 0 ∧ SimpleQueryStackItem.GetType 0 = 0 ∧
    SimpleQueryStackItem.GetCreator 8 = 1 ∧ SimpleQueryStackItem.GetType 8 = 8 ∧
    ∀ type : Nat, SimpleQueryStackItem.GetCreator type =
      SimpleQueryStackItem.GetType type / 8 % 2 := by
  refine ⟨by decide, by decide, by decide, by decide, ?_⟩
  intro type
  unfold SimpleQueryStackItem.GetCreator SimpleQueryStackItem.GetType
  have h1 : ((type % 256) >>> 3) &&& 0x01 = (type % 256) / 2 ^ 3 % 2 ^ 1 := by
    rw [Nat.shiftRight_eq_div_pow]
    exact Nat.and_pow_two_sub_one_eq_mod _ 1
  have h2 : (type % 256) &&& 0x1F = (type % 256) % 2 ^ 5 :=
    Nat.and_pow_two_sub_one_eq_mod _ 5
  rw [h1, h2]
  omega

theorem mod_256_eq_and (x : Nat) : x % 256 = x &&& 255 :=
  (Nat.and_pow_two_sub_one_eq_mod x 8).symm

theorem or_and_mask (x y m : Nat) : (x ||| y) &&& m = (x &&& m) ||| (y &&& m) := by
  rw [Nat.and_comm, Nat.and_or_distrib_left, Nat.and_comm m x, Nat.and_comm m y]

theorem and_mask_of_lt_32 (t m : Nat) (ht : t < 32) (hm : 31 &&& m = 0) : t &&& m = 0 := by
  have h : t = t &&& 31 := by
    rw [show (31 : Nat) = 2 ^ 5 - 1 from rfl, Nat.and_pow_two_sub_one_eq_mod]
    omega
  rw [h, Nat.and_assoc, hm, Nat.and_zero]

/-- The byte stored by `SetType`: the three upper bits of the old byte and the
new item type. -/
theorem SimpleQueryStackItem.setType_byte (item : SimpleQueryStackItem) (t : Nat)
    (ht : t < 32) : (item.SetType t)._type = (item._type &&& 0xE0) ||| t := by
  show ((item._type &&& 0xFFFFFFE0) ||| t) % 256 = (item._type &&& 0xE0) ||| t
  rw [mod_256_eq_and, or_and_mask, Nat.and_assoc]
  have ht2 : t &&& 255 = t := by
    rw [← mod_256_eq_and]
    omega
  rw [ht2]
  rfl

theorem SimpleQueryStackItem.setType_byte_mod (item : SimpleQueryStackItem) (t : Nat) :
    (item.SetType t)._type % 256 = (item.SetType t)._type :=
  Nat.mod_mod _ 256

theorem SimpleQueryStackItem.setType_low_bits (item : SimpleQueryStackItem) (t : Nat)
    (ht : t < 32) : (item.SetType t)._type &&& 0x1F = t := by
  rw [SimpleQueryStackItem.setType_byte item t ht, or_and_mask, Nat.and_assoc]
  have h0 : (0xE0 : Nat) &&& 0x1F = 0 := rfl
  have ht2 : t &&& 0x1F = t := by
    rw [show (0x1F : Nat) = 2 ^ 5 - 1 from rfl, Nat.and_pow_two_sub_one_eq_mod]
    omega
  rw [h0, Nat.and_zero, Nat.zero_or, ht2]

theorem SimpleQueryStackItem.setType_high_bits (item : SimpleQueryStackItem) (t : Nat)
    (ht : t < 32) : (item.SetType t)._type &&& 0xE0 = item._type &&& 0xE0 := by
  rw [SimpleQueryStackItem.setType_byte item t ht, or_and_mask, Nat.and_assoc,
    and_mask_of_lt_32 t 0xE0 ht rfl, Nat.or_zero]
  rfl

theorem and_high_of_low_zero (x f : Nat) (hf : f &&& 0x1F = 0) :
    (x % 256) &&& (f % 256) = (x &&& 0xE0) &&& f := by
  have hsplit : f % 256 = f &&& 0xE0 := by
    rw [mod_256_eq_and, show (255 : Nat) = 0xE0 ||| 0x1F from rfl, Nat.and_or_distrib_left, hf,
      Nat.or_zero]
  rw [hsplit, mod_256_eq_and, Nat.and_assoc, ← Nat.and_assoc 255 f, Nat.and_comm 255 f,
    Nat.and_assoc f 255, show (255 : Nat) &&& 0xE0 = 0xE0 from rfl, Nat.and_comm f 0xE0,
    ← Nat.and_assoc]

/-- C23: for every SimpleQueryStackItem and every item type `t` below 32,
after `SetType(t)` the item's `Type()` is `t`, the three upper bits of the type
byte (mask `0xE0`) are the same as before the call, so `Feature(f)` answers as
before for every feature mask `f` within those bits, every other member is
unchanged, and a second `SetType(t)` leaves the state as the first one
did. -/
theorem setType_sets_type_keeps_features (item : SimpleQueryStackItem) (t : Nat)
    (ht : t < 32) :
    (item.SetType t).Type_ = t ∧
    (item.SetType t)._type &&& 0xE0 = item._type &&& 0xE0 ∧
    (∀ feature : Nat, feature &&& 0x1F = 0 →
      (item.SetType t).Feature feature = item.Feature feature) ∧
    (item.SetType t).SetType t = item.SetType t ∧
    item.SetType t = { item with _type := (item.SetType t)._type } := by
  refine ⟨?_, SimpleQueryStackItem.setType_high_bits item t ht, ?_, ?_, rfl⟩
  · show ((item.SetType t)._type % 256) &&& 0x1F = t
    rw [SimpleQueryStackItem.setType_byte_mod]
    exact SimpleQueryStackItem.setType_low_bits item t ht
  · intro feature hf
    show (((item.SetType t)._type % 256) &&& (feature % 256) != 0) =
      ((item._type % 256) &&& (feature % 256) != 0)
    rw [and_high_of_low_zero _ feature hf, and_high_of_low_zero _ feature hf,
      SimpleQueryStackItem.setType_high_bits item t ht]
  · have h1 := SimpleQueryStackItem.setType_byte (item.SetType t) t ht
    rw [SimpleQueryStackItem.setType_high_bits item t ht,
      ← SimpleQueryStackItem.setType_byte item t ht] at h1
    cases item
    simp only [SimpleQueryStackItem.SetType] at h1 ⊢
    simp only [SimpleQueryStackItem.mk.injEq, true_and, and_true]
    exact h1

/-- Witness of C23: the sample item (type byte `0x64`, item type 4 with the
feature bits `0x60`) set to item type 9. -/
theorem setType_sets_type_keeps_features_witness :
    (9 : Nat) < 32 ∧
    (SimpleQueryStackItem.sampleItem.SetType 9).Type_ = 9 ∧
    (SimpleQueryStackItem.sampleItem.SetType 9)._type &&& 0xE0 =
      SimpleQueryStackItem.sampleItem._type &&& 0xE0 ∧
    (∀ feature : Nat, feature &&& 0x1F = 0 →
      (SimpleQueryStackItem.sampleItem.SetType 9).Feature feature =
        SimpleQueryStackItem.sampleItem.Feature feature) ∧
    (SimpleQueryStackItem.sampleItem.SetType 9).SetType 9 =
      SimpleQueryStackItem.sampleItem.SetType 9 ∧
    SimpleQueryStackItem.sampleItem.SetType 9 =
      { SimpleQueryStackItem.sampleItem with
        _type := (SimpleQueryStackItem.sampleItem.SetType 9)._type } :=
  ⟨by decide, setType_sets_type_keeps_features SimpleQueryStackItem.sampleItem 9 (by decide)⟩

end search

/-! # Tensor lambda reshape -/

namespace vespalib.eval

/-- Expectations of the test that fix the model: `tensor(x[3])(x15{x:(x+5)})`
is `[6,7,8]`, `tensor(x[3])(x3y5{x:1,y:(x+3)})` is `[9,10,0]` and
`tensor(x[3])(x3y5{x:(x+1),y:(x)})` is `[6,12,0]`. -/
theorem test_expectations :
    (lambda [3] fun a => peek x15 [a.getD 0 0 + 5]) = ⟨[3], [([0], 6), ([1], 7), ([2], 8)]⟩ ∧
    (lambda [3] fun a => peek x3y5 [1, a.getD 0 0 + 3]) =
      ⟨[3], [([0], 9), ([1], 10), ([2], 0)]⟩ ∧
    (lambda [3] fun a => peek x3y5 [a.getD 0 0 + 1, a.getD 0 0]) =
      ⟨[3], [([0], 6), ([1], 12), ([2], 0)]⟩ := by
  decide

theorem addresses_one (n : Nat) : addresses [n] = (List.range n).map fun i => [i] := by
  show ((List.range n).flatMap fun i => [[i]]) = _
  induction (List.range n) with
  | nil => rfl
  | cons x xs ih => rw [List.flatMap_cons, ih]; rfl

theorem addresses_two (a b : Nat) :
    addresses [a, b] = (List.range (a * b)).map fun i => [i / b, i % b] := by
  have h0 : addresses [a, b] =
      (List.range a).flatMap fun x => (List.range b).map fun y => [x, y] := by
    show ((List.range a).flatMap fun x => (addresses [b]).map fun rest => x :: rest) = _
    rw [addresses_one]
    simp only [List.map_map]
    rfl
  rw [h0]
  clear h0
  induction a with
  | zero => simp
  | succ a ih =>
    rw [List.range_succ, List.flatMap_append, ih, Nat.succ_mul, List.range_add, List.map_append]
    congr 1
    simp only [List.flatMap_cons, List.flatMap_nil, List.append_nil, List.map_map]
    apply List.map_congr_left
    intro y hy
    rw [List.mem_range] at hy
    show [a, y] = [(a * b + y) / b, (a * b + y) % b]
    have hb : 0 < b := by omega
    rw [Nat.mul_comm a b, Nat.mul_add_div hb, Nat.mul_add_mod, Nat.div_eq_of_lt hy,
      Nat.mod_eq_of_lt hy, Nat.add_zero]

theorem lookup_zip (ks : List (List Nat)) (vs : List Nat) (i : Nat) (k : List Nat) (v : Nat)
    (hk : ks[i]? = some k) (hv : vs[i]? = some v)
    (hfirst : ∀ j, j < i → ks[j]? ≠ some k) : (ks.zip vs).lookup k = some v := by
  induction ks generalizing vs i with
  | nil => simp at hk
  | cons k0 ks ih =>
    cases vs with
    | nil => simp at hv
    | cons v0 vs =>
      cases i with
      | zero =>
        simp only [List.getElem?_cons_zero, Option.some.injEq] at hk hv
        subst hk
        subst hv
        simp [List.lookup_cons]
      | succ i =>
        simp only [List.getElem?_cons_succ] at hk hv
        have hne : k ≠ k0 := by
          intro h
          exact hfirst 0 (Nat.succ_pos i) (by simp [h])
        have := ih vs i hk hv (fun j hj => by
          have := hfirst (j + 1) (by omega)
          simpa using this)
        simp only [List.zip_cons_cons, List.lookup_cons]
        have hb : (k == k0) = false := by simpa using hne
        rw [hb]
        exact this


theorem peek_spec_flat (n : Nat) (seq : Nat → Nat) (i : Nat) (h : i < n) :
    peek (spec [n] seq) [i] = seq i := by
  have hl : (spec [n] seq).cells.lookup [i] = some (seq i) := by
    show ((addresses [n]).zip ((List.range (addresses [n]).length).map seq)).lookup [i] = _
    rw [addresses_one, List.length_map, List.length_range]
    apply lookup_zip _ _ i
    · rw [List.getElem?_map, List.getElem?_range h]
      rfl
    · rw [List.getElem?_map, List.getElem?_range h]
      rfl
    · intro j hj
      rw [List.getElem?_map, List.getElem?_range (by omega)]
      intro heq
      simp only [Option.map_some', Option.some.injEq, List.cons.injEq, and_true] at heq
      omega
  unfold peek
  rw [hl]

theorem peek_spec_grid (a b : Nat) (seq : Nat → Nat) (i : Nat) (h : i < a * b) :
    peek (spec [a, b] seq) [i / b, i % b] = seq i := by
  have hl : (spec [a, b] seq).cells.lookup [i / b, i % b] = some (seq i) := by
    show ((addresses [a, b]).zip ((List.range (addresses [a, b]).length).map seq)).lookup
      [i / b, i % b] = _
    rw [addresses_two, List.length_map, List.length_range]
    apply lookup_zip _ _ i
    · rw [List.getElem?_map, List.getElem?_range h]
      rfl
    · rw [List.getElem?_map, List.getElem?_range h]
      rfl
    · intro j hj
      rw [List.getElem?_map, List.getElem?_range (by omega)]
      intro heq
      simp only [Option.map_some', Option.some.injEq, List.cons.injEq, and_true] at heq
      have h1 := Nat.div_add_mod j b
      have h2 := Nat.div_add_mod i b
      rw [heq.1, heq.2] at h1
      omega
  unfold peek
  rw [hl]

theorem reshapeFlat_spec (a b : Nat) (seq : Nat → Nat) :
    reshapeFlat (spec [a, b] seq) (a * b) b = spec [a * b] seq := by
  unfold reshapeFlat lambda spec
  rw [addresses_one, List.length_map, List.length_range, List.zip_map', List.map_map]
  congr 1
  apply List.map_congr_left
  intro i hi
  rw [List.mem_range] at hi
  show ([i], peek (spec [a, b] seq) [i / b, i % b]) = ([i], seq i)
  rw [peek_spec_grid a b seq i hi]

theorem reshapeGrid_spec (a b : Nat) (seq : Nat → Nat) :
    reshapeGrid (spec [a * b] seq) a b = spec [a, b] seq := by
  unfold reshapeGrid lambda
  show DenseTensor.mk [a, b] _ =
    ⟨[a, b], (addresses [a, b]).zip ((List.range (addresses [a, b]).length).map seq)⟩
  rw [addresses_two, List.length_map, List.length_range, List.zip_map', List.map_map]
  congr 1
  apply List.map_congr_left
  intro i hi
  rw [List.mem_range] at hi
  show ([i / b, i % b], peek (spec [a * b] seq) [i / b * b + i % b]) = ([i / b, i % b], seq i)
  rw [Nat.div_add_mod', peek_spec_flat (a * b) seq i hi]

/-- C20: reshaping through a tensor lambda keeps the cells in row-major order,
for all sizes `a`, `b` and all cell values `seq`: the reshape of the `a` by
`b` tensor to one dimension is the flat tensor of the same values and the
reshape of the flat tensor to `a` by `b` is the `a` by `b` tensor; cell `i` of
the first is cell `(i/b, i mod b)` of the `a` by `b` tensor, which is cell `i`
of the flat tensor; cell `(x, y)` of the second is cell `x*b+y` of the flat
tensor; and the index function `floor(x/b)*b + x%b` is the identity.  For the
test's tensors: cell `i` (`i < 15`) of `tensor(x[15])(x3y5{x:(x/5),y:(x%5)})`
is cell `(i/5, i mod 5)` of `x3y5`, which is cell `i` of `x15`; cell `(x, y)`
of `tensor(x[3],y[5])(x15{x:(x*5+y)})` is cell `x*5+y` of `x15`; the two
expressions equal `x15` and `x3y5`. -/
theorem reshape_keeps_row_major_order (a b : Nat) (seq : Nat → Nat) :
    (reshapeFlat (spec [a, b] seq) (a * b) b = spec [a * b] seq ∧
      reshapeGrid (spec [a * b] seq) a b = spec [a, b] seq ∧
      (∀ i, i < a * b →
        peek (reshapeFlat (spec [a, b] seq) (a * b) b) [i] =
          peek (spec [a, b] seq) [i / b, i % b] ∧
        peek (spec [a, b] seq) [i / b, i % b] = peek (spec [a * b] seq) [i] ∧
        peek (spec [a * b] seq) [i] = seq i) ∧
      (∀ x, x < a → ∀ y, y < b →
        peek (reshapeGrid (spec [a * b] seq) a b) [x, y] =
          peek (spec [a * b] seq) [x * b + y] ∧
        peek (spec [a * b] seq) [x * b + y] = peek (spec [a, b] seq) [x, y] ∧
        peek (spec [a, b] seq) [x, y] = seq (x * b + y)) ∧
      ∀ i, i / b * b + i % b = i) ∧
    ((∀ i, i < 15 → peek reshapeToX15 [i] = peek x3y5 [i / 5, i % 5] ∧
        peek x3y5 [i / 5, i % 5] = peek x15 [i]) ∧
      (∀ x, x < 3 → ∀ y, y < 5 → peek reshapeToX3Y5 [x, y] = peek x15 [x * 5 + y] ∧
        peek x15 [x * 5 + y] = peek x3y5 [x, y]) ∧
      reshapeToX15 = x15 ∧ reshapeToX3Y5 = x3y5 ∧
      (∀ i, i < 15 → i / 5 * 5 + i % 5 = i)) := by
  have hxy : ∀ x, x < a → ∀ y, y < b →
      x * b + y < a * b ∧ (x * b + y) / b = x ∧ (x * b + y) % b = y := by
    intro x hx y hy
    have hb : 0 < b := by omega
    refine ⟨?_, ?_, ?_⟩
    · calc x * b + y < x * b + b := by omega
        _ = (x + 1) * b := (Nat.succ_mul x b).symm
        _ ≤ a * b := Nat.mul_le_mul_right b hx
    · rw [Nat.mul_comm x b, Nat.mul_add_div hb, Nat.div_eq_of_lt hy, Nat.add_zero]
    · rw [Nat.mul_comm x b, Nat.mul_add_mod, Nat.mod_eq_of_lt hy]
  refine ⟨⟨reshapeFlat_spec a b seq, reshapeGrid_spec a b seq, ?_, ?_,
    fun i => Nat.div_add_mod' i b⟩, ?_⟩
  · intro i hi
    rw [reshapeFlat_spec, peek_spec_grid a b seq i hi, peek_spec_flat (a * b) seq i hi]
    exact ⟨rfl, rfl, rfl⟩
  · intro x hx y hy
    obtain ⟨h1, h2, h3⟩ := hxy x hx y hy
    have hg := peek_spec_grid a b seq (x * b + y) h1
    rw [h2, h3] at hg
    rw [reshapeGrid_spec, peek_spec_flat (a * b) seq _ h1, hg]
    exact ⟨rfl, rfl, rfl⟩
  · refine ⟨by decide, by decide, by decide, by decide, ?_⟩
    intro i _
    omega

end vespalib.eval
